import Mathlib

/-!
# dnsdbq: query execution pipeline

A shallow embedding of `src/dnsdbq.c` (URL path builder, batch-line parser,
query planner, time-fence filter, NDJSON deframing, batch driver) and the
properties established about it.

Conventions of the embedding:

* a C string is the list of its characters before the terminating NUL
  (`CStr`); a nullable `char *` is an `Option CStr`;
* `u_long` values are natural numbers (they are only compared and printed,
  never used in arithmetic that could wrap);
* `abort()`, a failed `assert()`, `my_exit()` and a store through a pointer
  that points to no object end the process: functions that can reach them
  return `Except Fault _`;
* functions that are declared but not defined in `src/` (the JSON tuple
  parser, the presenters, the back-end adapter), libc address parsing,
  libcurl queries and `sort(1)` are fields of `Env`; process-wide option
  variables are fields of `Globals`;
* what the network delivers during a call of `io_engine`, and what `read`
  and `getline` return, are arguments of the functions concerned;
* `DEBUG(...)` diagnostics are not part of the modelled output.
-/

set_option autoImplicit false

namespace Dnsdbq

/-! ## Basic types -/

/-- A C string: the characters before the terminating NUL. -/
abbrev CStr := List Char

/-- A counted byte buffer (`char *` with an explicit length). -/
abbrev Bytes := List Char

/-- Ways in which the process ends before a function returns. -/
inductive Fault where
  /-- a failed `assert(...)`; the text names the assertion -/
  | assertion (what : String)
  /-- a call of `abort()` -/
  | aborted
  /-- a call of `my_exit(code)` -/
  | exited (code : Nat)
  /-- a call of `usage(msg)`: the message is printed on stderr and the
  process exits with status 1 -/
  | usage (msg : String)
  /-- the iteration bound of a modelled loop was exhausted -/
  | fuel
  /-- a store through a pointer that points to no object (a NULL pointer or
  a block of size zero); the text names the store -/
  | bad_store (what : String)
  deriving DecidableEq, Repr

deriving instance DecidableEq for Except

/-- `mode_e`: the five query modes and the "unset" value. -/
inductive mode_e where
  | no_mode
  | rrset_mode
  | name_mode
  | ip_mode
  | raw_rrset_mode
  | raw_name_mode
  deriving DecidableEq, Repr

/-- `struct query`. -/
structure query where
  mode : mode_e
  thing : Option CStr
  rrtype : Option CStr
  bailiwick : Option CStr
  pfxlen : Option CStr
  after : Nat
  before : Nat
  deriving DecidableEq, Repr

/-! ## URL path builder -/

/-- `makepath`: the RESTful path fragment for the search parameters.
Each `asprintf` with `%s` conversions is a concatenation (its failure, which
ends the process, is not modelled); `no_mode` (and any other value) reaches
`abort()`. -/
def makepath (mode : mode_e) (name : CStr) (rrtype bailiwick pfxlen : Option CStr) :
    Except Fault CStr :=
  match mode with
  | .rrset_mode =>
    match rrtype, bailiwick with
    | some rrtype, some bailiwick =>
      .ok ("rrset/name/".toList ++ name ++ "/".toList ++ rrtype ++ "/".toList ++ bailiwick)
    | some rrtype, none =>
      .ok ("rrset/name/".toList ++ name ++ "/".toList ++ rrtype)
    | none, some bailiwick =>
      .ok ("rrset/name/".toList ++ name ++ "/ANY/".toList ++ bailiwick)
    | none, none =>
      .ok ("rrset/name/".toList ++ name)
  | .name_mode =>
    match rrtype with
    | some rrtype => .ok ("rdata/name/".toList ++ name ++ "/".toList ++ rrtype)
    | none => .ok ("rdata/name/".toList ++ name)
  | .ip_mode =>
    match pfxlen with
    | some pfxlen => .ok ("rdata/ip/".toList ++ name ++ ",".toList ++ pfxlen)
    | none => .ok ("rdata/ip/".toList ++ name)
  | .raw_rrset_mode =>
    match rrtype with
    | some rrtype => .ok ("rrset/raw/".toList ++ name ++ "/".toList ++ rrtype)
    | none => .ok ("rrset/raw/".toList ++ name)
  | .raw_name_mode =>
    match rrtype with
    | some rrtype => .ok ("rdata/raw/".toList ++ name ++ "/".toList ++ rrtype)
    | none => .ok ("rdata/raw/".toList ++ name)
  | .no_mode => .error .aborted

/-! ## Batch-line parser -/

/-- `strtok_r(str, delim, &saveptr)`: skip leading delimiters; if nothing is
left return NULL; otherwise the token runs to the next delimiter, which is
overwritten by NUL, and the save pointer is left just after it (or at the end
of the string). Returns the token and the new save pointer. -/
def strtok_r (str : Option CStr) (delim : CStr) (saveptr : CStr) : Option CStr × CStr :=
  let s := (str.getD saveptr).dropWhile (fun c => decide (c ∈ delim))
  if s = [] then (none, [])
  else (some (s.takeWhile (fun c => !decide (c ∈ delim))),
        (s.dropWhile (fun c => !decide (c ∈ delim))).drop 1)

/-- The common tail of `batch_parse`: one more `strtok_r`; a further term is
"extra garbage", otherwise `*qp = q` and NULL is returned. -/
def batch_parse_tail (q qp : query) (saveptr : CStr) : Option CStr × query :=
  match strtok_r none "/".toList saveptr with
  | (some _, _) => (some "extra garbage".toList, qp)
  | (none, _) => (none, q)

/-- The optional `[/<rrtype>[/<bailiwick>]]` terms of the two rrset forms. -/
def batch_parse_type_bailiwick (q qp : query) (saveptr : CStr) : Option CStr × query :=
  match strtok_r none "/".toList saveptr with
  | (some t, saveptr) =>
    let q := { q with rrtype := some t }
    match strtok_r none "/".toList saveptr with
    | (some t, saveptr) => batch_parse_tail { q with bailiwick := some t } qp saveptr
    | (none, saveptr) => batch_parse_tail q qp saveptr
  | (none, saveptr) => batch_parse_tail q qp saveptr

/-- The optional `[/<rrtype>]` term of the rdata name and raw forms. -/
def batch_parse_type (q qp : query) (saveptr : CStr) : Option CStr × query :=
  match strtok_r none "/".toList saveptr with
  | (some t, saveptr) => batch_parse_tail { q with rrtype := some t } qp saveptr
  | (none, saveptr) => batch_parse_tail q qp saveptr

/-- `batch_parse(line, qp)`: turn one batch line into a query. The result is
the returned message (NULL when the line was accepted) and the content of
`*qp` after the call; `qp` is the content of `*qp` before it. The local `q`
starts zeroed. -/
def batch_parse (line : CStr) (qp : query) : Option CStr × query :=
  let q : query := { mode := .no_mode, thing := none, rrtype := none,
                     bailiwick := none, pfxlen := none, after := 0, before := 0 }
  match strtok_r (some line) "/".toList [] with
  | (none, _) => (some "too few terms".toList, qp)
  | (some t, saveptr) =>
    if t = "rrset".toList then
      match strtok_r none "/".toList saveptr with
      | (none, _) => (some "missing term after 'rrset/'".toList, qp)
      | (some t, saveptr) =>
        if t = "name".toList then
          let q := { q with mode := .rrset_mode }
          match strtok_r none "/".toList saveptr with
          | (none, _) => (some "missing term after 'rrset/name/'".toList, qp)
          | (some t, saveptr) =>
            batch_parse_type_bailiwick { q with thing := some t } qp saveptr
        else if t = "raw".toList then
          let q := { q with mode := .raw_rrset_mode }
          match strtok_r none "/".toList saveptr with
          | (none, _) => (some "missing term after 'rrset/raw/'".toList, qp)
          | (some t, saveptr) =>
            batch_parse_type_bailiwick { q with thing := some t } qp saveptr
        else (some "unrecognized term after 'rrset/'".toList, qp)
    else if t = "rdata".toList then
      match strtok_r none "/".toList saveptr with
      | (none, _) => (some "missing term after 'rdata/'".toList, qp)
      | (some t, saveptr) =>
        if t = "name".toList then
          let q := { q with mode := .name_mode }
          match strtok_r none "/".toList saveptr with
          | (none, _) => (some "missing term after 'rdata/name/'".toList, qp)
          | (some t, saveptr) => batch_parse_type { q with thing := some t } qp saveptr
        else if t = "raw".toList then
          let q := { q with mode := .raw_name_mode }
          match strtok_r none "/".toList saveptr with
          | (none, _) => (some "missing term after 'rdata/raw/'".toList, qp)
          | (some t, saveptr) => batch_parse_type { q with thing := some t } qp saveptr
        else if t = "ip".toList then
          let q := { q with mode := .ip_mode }
          match strtok_r none "/".toList saveptr with
          | (none, _) => (some "missing term after 'rdata/ip/'".toList, qp)
          | (some t, saveptr) => batch_parse_tail { q with thing := some t } qp saveptr
        else (some "unrecognized term after 'rdata/'".toList, qp)
    else (some "unrecognized initial term".toList, qp)

set_option linter.unusedVariables false in
/-- The terms of a batch line: the tokens that successive `strtok_r(NULL, "/", ..)`
calls deliver until one returns NULL. -/
def terms (s : CStr) : List CStr :=
  match h : strtok_r none "/".toList s with
  | (none, _) => []
  | (some t, rest) => t :: terms rest
termination_by s.length
decreasing_by
  unfold strtok_r at h
  simp only [Option.getD_none] at h
  split at h
  · simp at h
  · rename_i hne
    simp only [Prod.mk.injEq] at h
    rw [← h.2]
    have h1 := (List.dropWhile_sublist (fun c => decide (c ∈ "/".toList)) (l := s)).length_le
    generalize List.dropWhile (fun c => decide (c ∈ "/".toList)) s = s1 at *
    have h2 := (List.dropWhile_sublist (fun c => !decide (c ∈ "/".toList)) (l := s1)).length_le
    have h3 : 0 < s1.length := List.length_pos.mpr hne
    simp only [List.length_drop]
    omega

/-- The zeroed local `q` of `batch_parse` with mode, thing, rrtype and
bailiwick filled in. -/
def parsed_query (mode : mode_e) (thing : CStr) (rrtype bailiwick : Option CStr) : query :=
  { mode := mode, thing := some thing, rrtype := rrtype, bailiwick := bailiwick,
    pfxlen := none, after := 0, before := 0 }

/-- The result of `batch_parse` as a function of the terms of the line. -/
def parse_terms (qp : query) : List CStr → Option CStr × query
  | [] => (some "too few terms".toList, qp)
  | t1 :: ts =>
    if t1 = "rrset".toList then
      match ts with
      | [] => (some "missing term after 'rrset/'".toList, qp)
      | t2 :: ts =>
        if t2 = "name".toList ∨ t2 = "raw".toList then
          let mode := if t2 = "name".toList then mode_e.rrset_mode else mode_e.raw_rrset_mode
          match ts with
          | [] => (some ("missing term after 'rrset/".toList ++ t2 ++ "/'".toList), qp)
          | [thing] => (none, parsed_query mode thing none none)
          | [thing, rrtype] => (none, parsed_query mode thing (some rrtype) none)
          | [thing, rrtype, bailiwick] =>
            (none, parsed_query mode thing (some rrtype) (some bailiwick))
          | _ => (some "extra garbage".toList, qp)
        else (some "unrecognized term after 'rrset/'".toList, qp)
    else if t1 = "rdata".toList then
      match ts with
      | [] => (some "missing term after 'rdata/'".toList, qp)
      | t2 :: ts =>
        if t2 = "name".toList ∨ t2 = "raw".toList then
          let mode := if t2 = "name".toList then mode_e.name_mode else mode_e.raw_name_mode
          match ts with
          | [] => (some ("missing term after 'rdata/".toList ++ t2 ++ "/'".toList), qp)
          | [thing] => (none, parsed_query mode thing none none)
          | [thing, rrtype] => (none, parsed_query mode thing (some rrtype) none)
          | _ => (some "extra garbage".toList, qp)
        else if t2 = "ip".toList then
          match ts with
          | [] => (some "missing term after 'rdata/ip/'".toList, qp)
          | [thing] => (none, parsed_query .ip_mode thing none none)
          | _ => (some "extra garbage".toList, qp)
        else (some "unrecognized term after 'rdata/'".toList, qp)
    else (some "unrecognized initial term".toList, qp)

/-- A batch-line term: non-empty and without the separator. -/
def is_term (t : CStr) : Prop := t ≠ [] ∧ '/' ∉ t

instance (t : CStr) : Decidable (is_term t) := by unfold is_term; infer_instance

/-- The term lists of the five batch forms: `rrset` then `name` or `raw` then
a thing and at most two more terms; `rdata` then `name` or `raw` then a thing
and at most one more term; `rdata`, `ip` and a thing. Every other term list
has no terms, an unknown first or second term, no thing, or more terms than
its form allows. -/
def accepted_terms : List CStr → Bool
  | t1 :: t2 :: _ :: rest =>
    (decide (t1 = "rrset".toList) && (decide (t2 = "name".toList) || decide (t2 = "raw".toList))
      && decide (rest.length ≤ 2)) ||
    (decide (t1 = "rdata".toList) && (decide (t2 = "name".toList) || decide (t2 = "raw".toList))
      && decide (rest.length ≤ 1)) ||
    (decide (t1 = "rdata".toList) && decide (t2 = "ip".toList) && decide (rest.length = 0))
  | _ => false

/-! ## Process-wide option variables and external collaborators -/

/-- The values of the global `sorted`. -/
inductive sort_e where
  | no_sort
  | normal_sort
  | reverse_sort
  deriving DecidableEq, Repr

/-- The values of the global `batching`. -/
inductive batch_e where
  | batch_none
  | batch_original
  | batch_verbose
  deriving DecidableEq, Repr

/-- `struct sortkey`: the key name as given and the argument computed for
the sort process. -/
structure sortkey where
  specified : CStr
  computed : CStr
  deriving DecidableEq, Repr

/-- The process-wide variables set by option processing and read by the
translated functions. `query_limit` and `output_limit` are `long`, with `-1`
for "not set on the command line". -/
structure Globals where
  program_name : CStr
  batching : batch_e
  merge : Bool
  complete : Bool
  info : Bool
  quiet : Bool
  sorted : sort_e
  query_limit : Int
  output_limit : Int
  sort_byname : Bool
  sort_bydata : Bool
  keys : List sortkey

/-- `struct pdns_tuple`, as far as the translated functions read it. The
string fields are taken to be non-NULL. `rdata_array` is `some slots` when
`obj.rdata` is a JSON array, a slot being `some s` for a JSON string `s` and
`none` for any other JSON value. -/
structure pdns_tuple where
  time_first : Nat
  time_last : Nat
  zone_first : Nat
  zone_last : Nat
  bailiwick : CStr
  rrname : CStr
  rrtype : CStr
  rdata : CStr
  rdata_array : Option (List (Option CStr))
  count : Int
  num_results : Int
  deriving DecidableEq, Repr

/-- `struct reader`: `buf` is `buf[0 .. len)`, `easy` tells whether the
libcurl handle is non-NULL (a live web transfer). -/
structure reader where
  url : CStr
  easy : Bool
  buf : Bytes
  rcode : Int
  deriving DecidableEq, Repr

/-- `struct writer`. `sort_stdin` is what has been written to the pipe of the
sort process so far; `sort_pid` is 0 when there is no sort process. `count`
is an `int`; its wrap-around is not modelled. -/
structure writer where
  readers : List reader
  after : Nat
  before : Nat
  sort_stdin : Bytes
  sort_pid : Nat
  sort_killed : Bool
  count : Int
  status : Option CStr
  message : Option CStr
  once : Bool
  deriving DecidableEq, Repr

/-- Functions used by the translated code whose definitions are not in
`src/dnsdbq.c`. -/
structure Env where
  /-- `sys->url(path, &sep)`: the URL for a path and the first separator;
  `none` is a NULL result -/
  sys_url : CStr → Option (CStr × Char)
  /-- `sys->status(reader)`: the label of a failed transfer -/
  sys_status : reader → CStr
  /-- `sys->write_info(reader)`: what it prints on stdout -/
  write_info : reader → Bytes
  /-- `tuple_make(&tup, buf, len)`: an error message or the tuple -/
  tuple_make : Bytes → Except CStr pdns_tuple
  /-- `(*pres)(&tup, buf, len, outf)`: what the presenter writes to `outf` -/
  pres : pdns_tuple → Bytes → Bytes
  /-- `inet_pton(AF_INET, src, dst)`: the 4 address bytes, `none` when the
  result is not 1 -/
  inet_pton4 : CStr → Option (List Nat)
  /-- `inet_pton(AF_INET6, src, dst)`: the 16 address bytes -/
  inet_pton6 : CStr → Option (List Nat)
  /-- what `curl_easy_getinfo(.., CURLINFO_EFFECTIVE_URL, ..)` reports -/
  effective_url : reader → CStr
  /-- the successive results of `getline` on the output of the sort process
  for the given argument vector and input -/
  sort_output : List CStr → Bytes → List CStr
  /-- the wait status of the sort process; the flag tells whether it was
  sent SIGTERM -/
  sort_status : List CStr → Bytes → Bool → Nat

/-! ## Number formatting -/

/-- The `%lu` conversion. -/
def fmt_lu (n : Nat) : CStr := (Nat.repr n).toList

/-- The `%ld` conversion. -/
def fmt_ld : Int → CStr
  | .ofNat n => fmt_lu n
  | .negSucc n => '-' :: fmt_lu (n + 1)

/-! ## Query planner -/

/-- `reader_launch(writer, url)`: a zeroed reader with a libcurl handle and
the URL, inserted at the head of the writer's reader list. (Failures of
libcurl calls, which end the process, are not modelled.) -/
def reader_launch (w : writer) (url : CStr) : writer :=
  { w with readers := { url := url, easy := true, buf := [], rcode := 0 } :: w.readers }

/-- One `asprintf(&tmp, "%s%c" "<text>", url, sep, ..)` step of `launch`
followed by `sep = '&'`; `param` is the text after the separator. -/
def launch_append (st : CStr × Char) (param : CStr) : CStr × Char :=
  (st.1 ++ st.2 :: param, '&')

/-- The URL that `launch` hands to `reader_launch`. -/
def launch_url (g : Globals) (env : Env) (command : CStr)
    (first_after first_before last_after last_before : Nat) : Except Fault CStr :=
  match env.sys_url command with
  | none => .error (.exited 1)
  | some st =>
    let st := if g.query_limit ≠ -1 then
        launch_append st ("limit=".toList ++ fmt_ld g.query_limit) else st
    let st := if first_after ≠ 0 then
        launch_append st ("time_first_after=".toList ++ fmt_lu first_after) else st
    let st := if first_before ≠ 0 then
        launch_append st ("time_first_before=".toList ++ fmt_lu first_before) else st
    let st := if last_after ≠ 0 then
        launch_append st ("time_last_after=".toList ++ fmt_lu last_after) else st
    let st := if last_before ≠ 0 then
        launch_append st ("time_last_before=".toList ++ fmt_lu last_before) else st
    .ok st.1

/-- `launch(command, writer, first_after, first_before, last_after,
last_before)`: build the URL and start a reader on it. -/
def launch (g : Globals) (env : Env) (command : CStr) (w : writer)
    (first_after first_before last_after last_before : Nat) : Except Fault writer :=
  match launch_url g env command first_after first_before last_after last_before with
  | .error e => .error e
  | .ok url => .ok (reader_launch w url)

/-- `query_launcher(qp, writer)`: one or two `launch` calls chosen from the
time fence. A NULL `thing` is printed by `%s` as `(null)`. -/
def query_launcher (g : Globals) (env : Env) (qp : query) (w : writer) :
    Except Fault writer :=
  match makepath qp.mode (qp.thing.getD "(null)".toList) qp.rrtype qp.bailiwick qp.pfxlen with
  | .error e => .error e
  | .ok command =>
    if qp.after ≠ 0 ∧ qp.before ≠ 0 then
      if g.complete then
        launch g env command w qp.after 0 0 qp.before
      else
        match launch g env command w 0 0 qp.after 0 with
        | .error e => .error e
        | .ok w => launch g env command w 0 qp.before 0 0
    else if qp.after ≠ 0 then
      if g.complete then
        launch g env command w qp.after 0 0 0
      else
        launch g env command w 0 0 qp.after 0
    else if qp.before ≠ 0 then
      if g.complete then
        launch g env command w 0 0 0 qp.before
      else
        launch g env command w 0 qp.before 0 0
    else
      launch g env command w 0 0 0 0

/-- The URL parameters as §4.2 of the specification words them: a URL
followed by its parameters, the first introduced by the separator of the
back-end and every later one by `&`. -/
def url_with_params (url : CStr) (sep : Char) : List CStr → CStr
  | [] => url
  | p :: ps => url ++ sep :: p ++ (ps.map (fun q => '&' :: q)).flatten

/-- The `limit=<n>` parameter, present when a query limit is set. -/
def limit_params (query_limit : Int) : List CStr :=
  if query_limit = -1 then [] else ["limit=".toList ++ fmt_ld query_limit]

/-- The time parameters of one request, in the order `launch` appends them;
a zero value is an absent parameter. -/
def time_params (first_after first_before last_after last_before : Nat) : List CStr :=
  (if first_after = 0 then [] else ["time_first_after=".toList ++ fmt_lu first_after]) ++
  (if first_before = 0 then [] else ["time_first_before=".toList ++ fmt_lu first_before]) ++
  (if last_after = 0 then [] else ["time_last_after=".toList ++ fmt_lu last_after]) ++
  (if last_before = 0 then [] else ["time_last_before=".toList ++ fmt_lu last_before])

/-- The decomposition table of §4.2: the time parameters of each request,
in launch order, for a fence `(after, before)` and strictness `complete`. -/
def planned_requests (after before : Nat) (complete : Bool) : List (List CStr) :=
  match decide (after = 0), decide (before = 0), complete with
  | true, true, _ => [[]]
  | false, true, false => [["time_last_after=".toList ++ fmt_lu after]]
  | false, true, true => [["time_first_after=".toList ++ fmt_lu after]]
  | true, false, false => [["time_first_before=".toList ++ fmt_lu before]]
  | true, false, true => [["time_last_before=".toList ++ fmt_lu before]]
  | false, false, true => [["time_first_after=".toList ++ fmt_lu after,
                            "time_last_before=".toList ++ fmt_lu before]]
  | false, false, false => [["time_last_after=".toList ++ fmt_lu after],
                            ["time_first_before=".toList ++ fmt_lu before]]

/-! ## Zeroed objects and example data -/

/-- Option variables as they are before option processing. -/
def globals0 : Globals :=
  { program_name := "dnsdbq".toList, batching := .batch_none, merge := false,
    complete := false, info := false, quiet := false, sorted := .no_sort,
    query_limit := -1, output_limit := -1, sort_byname := false, sort_bydata := false,
    keys := [] }

/-- A zeroed `struct query`. -/
def query0 : query :=
  { mode := .no_mode, thing := none, rrtype := none, bailiwick := none, pfxlen := none,
    after := 0, before := 0 }

/-- A zeroed `struct writer`. -/
def writer0 : writer :=
  { readers := [], after := 0, before := 0, sort_stdin := [], sort_pid := 0,
    sort_killed := false, count := 0, status := none, message := none, once := false }

/-- A zeroed `struct reader`, as `CREATE` leaves it. -/
def reader0 : reader := { url := [], easy := false, buf := [], rcode := 0 }

/-- A zeroed `struct pdns_tuple` with empty strings. -/
def tuple0 : pdns_tuple :=
  { time_first := 0, time_last := 0, zone_first := 0, zone_last := 0, bailiwick := [],
    rrname := [], rrtype := [], rdata := [], rdata_array := none, count := 0,
    num_results := 0 }

/-- An example environment: the back-end prepends `https://h/lookup/` and
returns `?`; every record parses to the tuple with on-wire times 150 and 180;
the presenter echoes the record followed by a newline. -/
def env0 : Env :=
  { sys_url := fun p => some ("https://h/lookup/".toList ++ p, '?'),
    sys_status := fun _ => "ERROR".toList,
    write_info := fun _ => [],
    tuple_make := fun _ => .ok { tuple0 with time_first := 150, time_last := 180 },
    pres := fun _ b => b ++ ['\n'],
    inet_pton4 := fun _ => none,
    inet_pton6 := fun _ => none,
    effective_url := fun r => r.url,
    sort_output := fun _ _ => [],
    sort_status := fun _ _ _ => 0 }

/-! ## Collation keys -/

/-- `const char hex[] = "0123456789abcdef"`. -/
def hex : CStr := "0123456789abcdef".toList

/-- `hex[i]`; index 16 is the terminating NUL, which is also what the model
gives for larger indices (reads outside the array in C). -/
def hex_at (i : Nat) : Char := hex.getD i '\x00'

/-- `sortable_hexify(buf, src, len)`: append two hex digits per source byte,
`hex[ch >> 4]` then `hex[ch & 0xf]`. -/
def sortable_hexify (buf : Bytes) : List Nat → Bytes
  | [] => buf
  | ch :: src => sortable_hexify (buf ++ [hex_at (ch >>> 4), hex_at (ch &&& 0xf)]) src

/-- The two bytes written for one character of a name:
`ch = tolower(c)`, then `hex[ch >> 4]` and `hex[ch & 0xf]`. For a character
above 127 the C code has a negative `char` and reads outside `hex`; the
model stands for the C code on ASCII names only. -/
def dnsname_hex (c : Char) : Bytes :=
  [hex_at (c.toLower.toNat >>> 4), hex_at (c.toLower.toNat &&& 0xf)]

/-- The loop `for (i = lo; i <= n; i++)` of `sortable_dnsname` with
`n + 1 = hi`: the characters `name[lo .. hi)` in hex. -/
def dnsname_label (name : CStr) (lo hi : Nat) : Bytes :=
  (((name.drop lo).take (hi - lo)).map dnsname_hex).flatten

/-- The loop `for (m = (int)len - 1, n = m; m >= 0; m--)` of
`sortable_dnsname`. The counters are kept one higher than in C so that they
are natural numbers: `m1 = m + 1`, `n1 = n + 1`. The result is the final
`m + 1`, the final `n + 1` and the bytes written through `p`. -/
def dnsname_loop (name : CStr) : Nat → Nat → Bytes → Nat × Nat × Bytes
  | 0, n1, out => (0, n1, out)
  | m + 1, n1, out =>
    if name.getD m '\x00' = '.' then
      dnsname_loop name m m (out ++ dnsname_label name (m + 1) n1 ++ ['.'])
    else
      dnsname_loop name m n1 out

/-- `sortable_dnsname(buf, name)`: the buffer after the call. `new_size` is
`size_t` arithmetic, exact because the number of dots is at most `len`. -/
def sortable_dnsname (buf : Bytes) (name : CStr) : Except Fault Bytes :=
  let len := name.length
  let dots := name.count '.'
  let new_size := buf.length + len * 2 - dots
  if new_size = 0 then .error (.assertion "new_size != 0") else
  match dnsname_loop name len len buf with
  | (m1, n1, out) =>
    if m1 ≠ 0 then .error (.assertion "m == -1") else
    let out := out ++ dnsname_label name 0 n1
    if out.length ≠ new_size then .error (.assertion "buf->size == new_size") else
    if len = 0 then .ok (out ++ ['.']) else .ok out

/-- `sortable_rrname(tup)`: the key of the owner name, as a C string. -/
def sortable_rrname (tup : pdns_tuple) : Except Fault CStr :=
  sortable_dnsname [] tup.rrname

/-- An address buffer `u_char a[n]` filled by `inet_pton`, or zeroed by
`memset` when `inet_pton` did not return 1. -/
def address_bytes (n : Nat) (parsed : Option (List Nat)) : List Nat :=
  match parsed with
  | some a => (a ++ List.replicate n 0).take n
  | none => List.replicate n 0

/-- `strrchr(s, ' ')`: the string after the last space, if there is one. -/
def after_last_space (s : CStr) : Option CStr :=
  if ' ' ∈ s then some ((s.reverse.takeWhile (fun c => c ≠ ' ')).reverse) else none

/-- `sortable_rdatum(buf, rrtype, rdatum)`. -/
def sortable_rdatum (env : Env) (buf : Bytes) (rrtype rdatum : CStr) : Except Fault Bytes :=
  if rrtype = "A".toList then
    .ok (sortable_hexify buf (address_bytes 4 (env.inet_pton4 rdatum)))
  else if rrtype = "AAAA".toList then
    .ok (sortable_hexify buf (address_bytes 16 (env.inet_pton6 rdatum)))
  else if rrtype = "NS".toList ∨ rrtype = "PTR".toList ∨ rrtype = "CNAME".toList then
    sortable_dnsname buf rdatum
  else if rrtype = "MX".toList ∨ rrtype = "RP".toList then
    match after_last_space rdatum with
    | some name => sortable_dnsname buf name
    | none => .ok (sortable_hexify buf (rdatum.map Char.toNat))
  else
    .ok (sortable_hexify buf (rdatum.map Char.toNat))

/-- The loop of `sortable_rdata` over the slots of an rdata array: a string
slot is keyed, any other slot gives a warning on stderr. The state is the
sort buffer and the text written to stderr. -/
def sortable_rdata_slots (g : Globals) (env : Env) (rrtype : CStr) :
    List (Option CStr) → Bytes × Bytes → Except Fault (Bytes × Bytes)
  | [], st => .ok st
  | some rr :: slots, (buf, err) =>
    match sortable_rdatum env buf rrtype rr with
    | .error e => .error e
    | .ok buf => sortable_rdata_slots g env rrtype slots (buf, err)
  | none :: slots, (buf, err) =>
    sortable_rdata_slots g env rrtype slots
      (buf, err ++ g.program_name ++ ": warning: rdata slot is not a string\n".toList)

/-- `sortable_rdata(tup)`: the key of the rdata set, with what was written
to stderr. -/
def sortable_rdata (g : Globals) (env : Env) (tup : pdns_tuple) :
    Except Fault (CStr × Bytes) :=
  match tup.rdata_array with
  | some slots => sortable_rdata_slots g env tup.rrtype slots ([], [])
  | none =>
    match sortable_rdatum env [] tup.rrtype tup.rdata with
    | .error e => .error e
    | .ok buf => .ok (buf, [])

/-! ## Record pipeline -/

/-- `timecmp(a, b)`: -1, 0 or 1. -/
def timecmp (a b : Nat) : Int :=
  if a < b then -1 else if a > b then 1 else 0

/-- The interval `(first, last)` that `input_blob` selects: the on-wire
times when both are non-zero, the zone times otherwise. -/
def tuple_interval (tup : pdns_tuple) : Nat × Nat :=
  if tup.time_first ≠ 0 ∧ tup.time_last ≠ 0 then (tup.time_first, tup.time_last)
  else (tup.zone_first, tup.zone_last)

/-- The time fence of `input_blob`: the value of `whynot` after the two
checks (NULL when the record is selected). -/
def input_blob_whynot (complete : Bool) (first last after before : Nat) : Option CStr :=
  let whynot : Option CStr := none
  let whynot :=
    if after ≠ 0 then
      if complete then
        if timecmp first after < 0 then some "first is too early".toList else whynot
      else
        if timecmp last after < 0 then some "last is too early".toList else whynot
    else whynot
  let whynot :=
    if before ≠ 0 then
      if complete then
        if timecmp last before > 0 then some "last is too late".toList else whynot
      else
        if timecmp first before > 0 then some "first is too late".toList else whynot
    else whynot
  whynot

/-- What `input_blob` returns and writes: the return value, the bytes
written to `outf` and the bytes written to stderr. -/
structure blob_result where
  ret : Int
  out : Bytes
  err : Bytes
  deriving DecidableEq, Repr

/-- The conversion `%*.*s` with width and precision `len` applied to the
counted buffer: at most `len` characters, ending at a NUL if there is one,
padded on the left with spaces to `len` characters. (`len` is taken to fit
an `int`.) -/
def fmt_counted (buf : Bytes) : Bytes :=
  List.replicate (buf.length - (buf.takeWhile (fun c => c ≠ '\x00')).length) ' '
    ++ buf.takeWhile (fun c => c ≠ '\x00')

/-- The line `input_blob` writes to the sort process:
`"%lu %lu %lu %s %s %*.*s\n"`; the count is cast to `unsigned long`. -/
def sort_line (first last : Nat) (count : Int) (dyn_rrname dyn_rdata : Option CStr)
    (buf : Bytes) : Bytes :=
  fmt_lu first ++ ' ' :: fmt_lu last ++ ' ' :: fmt_lu (count % 18446744073709551616).toNat
    ++ ' ' :: dyn_rrname.getD "n/a".toList ++ ' ' :: dyn_rdata.getD "n/a".toList
    ++ ' ' :: fmt_counted buf ++ ['\n']

/-- The name key computed by `input_blob` when name sorting is enabled
(`dyn_rrname`, NULL otherwise). -/
def input_blob_rrname (g : Globals) (tup : pdns_tuple) : Except Fault (Option CStr) :=
  if g.sort_byname then
    match sortable_rrname tup with
    | .error e => .error e
    | .ok key => .ok (some key)
  else .ok none

/-- The rdata key computed by `input_blob` when data sorting is enabled
(`dyn_rdata`, NULL otherwise), with what its computation wrote to stderr. -/
def input_blob_rdata (g : Globals) (env : Env) (tup : pdns_tuple) :
    Except Fault (Option CStr × Bytes) :=
  if g.sort_bydata then
    match sortable_rdata g env tup with
    | .error e => .error e
    | .ok (key, err) => .ok (some key, err)
  else .ok (none, [])

/-- The output stage of `input_blob` for a selected record: the line for the
sort process when sorting, the presenter otherwise; the return value is 1. -/
def input_blob_emit (g : Globals) (env : Env) (tup : pdns_tuple) (first last : Nat)
    (buf : Bytes) : Except Fault blob_result :=
  if g.sorted ≠ .no_sort then
    match input_blob_rrname g tup with
    | .error e => .error e
    | .ok dyn_rrname =>
      match input_blob_rdata g env tup with
      | .error e => .error e
      | .ok (dyn_rdata, err) =>
        .ok { ret := 1, out := sort_line first last tup.count dyn_rrname dyn_rdata buf,
              err := err }
  else
    .ok { ret := 1, out := env.pres tup buf, err := [] }

/-- `input_blob(buf, len, after, before, outf)`: process one deblocked
record. A record that does not parse is reported on stderr and dropped; a
record outside the time fence is dropped. -/
def input_blob (g : Globals) (env : Env) (buf : Bytes) (after before : Nat) :
    Except Fault blob_result :=
  match env.tuple_make buf with
  | .error msg => .ok { ret := 0, out := [], err := msg ++ ['\n'] }
  | .ok tup =>
    match input_blob_whynot g.complete (tuple_interval tup).1 (tuple_interval tup).2
            after before with
    | some _ => .ok { ret := 0, out := [], err := [] }
    | none => input_blob_emit g env tup (tuple_interval tup).1 (tuple_interval tup).2 buf

/-- The acceptance condition of the time fence as §4.5 of the specification
words it: after is unset or the record starts (strict) or ends (overlap)
at or after it, and before is unset or the record ends (strict) or starts
(overlap) at or before it. -/
def fence_accepts (complete : Bool) (first last after before : Nat) : Prop :=
  (after = 0 ∨ (complete = true ∧ first ≥ after) ∨ (complete = false ∧ last ≥ after)) ∧
  (before = 0 ∨ (complete = true ∧ last ≤ before) ∨ (complete = false ∧ first ≤ before))

instance (complete : Bool) (first last after before : Nat) :
    Decidable (fence_accepts complete first last after before) := by
  unfold fence_accepts; infer_instance

/-! ## Reader and writer -/

/-- The observable state of the process outside readers and writers: what
has been written to stdout and stderr, the global `exit_code`, (ghost state)
the records handed to `input_blob` so far, oldest first, and the number of
SIGTERM signals sent to sort processes. The global chain of writers is not
modelled. -/
structure Proc where
  stdout : Bytes
  stderr : Bytes
  exit_code : Nat
  blobs : List Bytes
  sigterms : Nat
  deriving DecidableEq, Repr

/-- The process state at start. -/
def proc0 : Proc :=
  { stdout := [], stderr := [], exit_code := 0, blobs := [], sigterms := 0 }

/-- `writer_init(after, before)`: a zeroed writer with the fence; when
sorting, a sort process is forked (its pid is represented by 1). Failures of
`pipe` and `fork` are not modelled. -/
def writer_init (g : Globals) (after before : Nat) : writer :=
  { readers := [], after := after, before := before, sort_stdin := [],
    sort_pid := if g.sorted ≠ .no_sort then 1 else 0, sort_killed := false,
    count := 0, status := none, message := none, once := false }

/-- `writer_status(writer, status, message)`: both assertions, then the two
strings are installed. -/
def writer_status (w : writer) (status message : CStr) : Except Fault writer :=
  if decide (w.status = none) ≠ decide (w.message = none) then
    .error (.assertion "(writer->status == NULL) == (writer->message == NULL)")
  else if w.status ≠ none then
    .error (.assertion "writer->status == NULL")
  else
    .ok { w with status := some status, message := some message }

/-- `memchr(buf, '\n', len)` as an offset into the buffer. -/
def memchr_nl (buf : Bytes) : Option Nat :=
  if '\n' ∈ buf then some (buf.takeWhile (fun c => c ≠ '\n')).length else none

/-- The `while ((nl = memchr(..)) != NULL)` loop of `writer_func`, with an
iteration bound. Each round either returns early (info mode, output limit
reached) with the buffer emptied, or hands the bytes before the newline to
`input_blob`, adds its result to the writer's count and moves the bytes
after the newline to the front of the buffer. -/
def writer_func_loop (g : Globals) (env : Env) (after before : Nat) :
    Nat → reader → writer → Proc → Except Fault (reader × writer × Proc)
  | 0, _, _, _ => .error .fuel
  | fuel + 1, rd, w, p =>
    match memchr_nl rd.buf with
    | none => .ok (rd, w, p)
    | some pre_len =>
      if g.info then
        .ok ({ rd with buf := [] }, w, { p with stdout := p.stdout ++ env.write_info rd })
      else if g.sorted = .no_sort ∧ g.output_limit ≠ -1 ∧ w.count ≥ g.output_limit then
        .ok ({ rd with buf := [] }, w, p)
      else
        match input_blob g env (rd.buf.take pre_len) after before with
        | .error e => .error e
        | .ok r =>
          writer_func_loop g env after before fuel
            { rd with buf := rd.buf.drop (pre_len + 1) }
            { w with count := w.count + r.ret,
                     sort_stdin := if g.sorted ≠ .no_sort then w.sort_stdin ++ r.out
                                   else w.sort_stdin }
            { p with stdout := if g.sorted ≠ .no_sort then p.stdout else p.stdout ++ r.out,
                     stderr := p.stderr ++ r.err,
                     blobs := p.blobs ++ [rd.buf.take pre_len] }

/-- The branch of `writer_func` for a live transfer whose response code is
not 200: the message is the buffered payload as `strndup` copies it (up to
its first NUL), cut at its first newline; the first such call on a writer
installs the status through `writer_status`; then the buffer is emptied by
the store `reader->buf[0] = 0`. When no byte is buffered (`reader->len` is
0) the buffer is what `realloc(reader->buf, 0)` returned: NULL (as glibc
does for a buffer that was allocated before) or a block of size zero. That
store then has no object to go to, which C leaves undefined: the call ends
there. -/
def writer_func_failed (g : Globals) (env : Env) (rd : reader) (w : writer) (p : Proc) :
    Except Fault (reader × writer × Proc) :=
  let message := (rd.buf.takeWhile (fun c => c ≠ '\x00')).takeWhile (fun c => c ≠ '\n')
  let warning := g.program_name ++ ": warning: libcurl: [".toList ++ message ++ "]\n".toList
  if w.once then
    if rd.buf = [] then .error (.bad_store "reader->buf[0]")
    else
      .ok ({ rd with buf := [] }, w,
           { p with stderr := if g.quiet then p.stderr else p.stderr ++ warning })
  else
    match writer_status w (env.sys_status rd) message with
    | .error e => .error e
    | .ok w =>
      if rd.buf = [] then .error (.bad_store "reader->buf[0]")
      else
        .ok ({ rd with buf := [] }, { w with once := true },
             { p with stderr :=
                if g.quiet then p.stderr
                else p.stderr ++ g.program_name ++ ": warning: libcurl ".toList
                       ++ fmt_ld rd.rcode ++ " [".toList ++ env.effective_url rd
                       ++ "]\n".toList ++ warning })

/-- `writer_func(ptr, size, nmemb, blob)`: `ptr` holds the `size * nmemb`
bytes, `rd` is the reader `blob` points to and `w` the writer it belongs to;
`response_code` is what `CURLINFO_RESPONSE_CODE` reports at the time of the
call. The first component of the result is the returned byte count. -/
def writer_func (g : Globals) (env : Env) (ptr : Bytes) (response_code : Int)
    (rd : reader) (w : writer) (p : Proc) : Except Fault (Nat × reader × writer × Proc) :=
  let rd := { rd with buf := rd.buf ++ ptr }
  let rd := if rd.easy ∧ rd.rcode = 0 then { rd with rcode := response_code } else rd
  if rd.easy ∧ rd.rcode ≠ 200 then
    match writer_func_failed g env rd w p with
    | .error e => .error e
    | .ok st => .ok (ptr.length, st)
  else
    match writer_func_loop g env w.after w.before (rd.buf.length + 1) rd w p with
    | .error e => .error e
    | .ok st => .ok (ptr.length, st)

/-- Successive calls of `writer_func` on one reader, one per chunk (each
with the response code reported at that time), as libcurl or the read loop
of `ruminate_json` make them. -/
def writer_func_chunks (g : Globals) (env : Env) :
    List (Bytes × Int) → reader → writer → Proc → Except Fault (reader × writer × Proc)
  | [], rd, w, p => .ok (rd, w, p)
  | (ptr, code) :: chunks, rd, w, p =>
    match writer_func g env ptr code rd w p with
    | .error e => .error e
    | .ok (_, rd, w, p) => writer_func_chunks g env chunks rd w p

/-! ## Deframing, stated on whole records -/

/-- The records handed one by one, in order, to `input_blob` with the fence
`(after, before)`, each result being accounted for as `writer_func` does: the
count grows by the returned value, the output goes to the sort process or to
stdout, and the record is added to the trace. -/
def deliver (g : Globals) (env : Env) (after before : Nat) :
    List Bytes → writer → Proc → Except Fault (writer × Proc)
  | [], w, p => .ok (w, p)
  | r :: rs, w, p =>
    match input_blob g env r after before with
    | .error e => .error e
    | .ok x =>
      deliver g env after before rs
        { w with count := w.count + x.ret,
                 sort_stdin := if g.sorted ≠ .no_sort then w.sort_stdin ++ x.out
                               else w.sort_stdin }
        { p with stdout := if g.sorted ≠ .no_sort then p.stdout else p.stdout ++ x.out,
                 stderr := p.stderr ++ x.err,
                 blobs := p.blobs ++ [r] }

/-- The newline-terminated records at the front of a buffer, without their
newlines. -/
def lines_of (b : Bytes) : List Bytes :=
  match h : memchr_nl b with
  | none => []
  | some k => b.take k :: lines_of (b.drop (k + 1))
termination_by b.length
decreasing_by
  have hb : b ≠ [] := by
    intro e; rw [e] at h; simp [memchr_nl] at h
  have := List.length_pos.mpr hb
  simp only [List.length_drop]
  omega

/-- The bytes of a buffer after its last newline. -/
def rest_of (b : Bytes) : Bytes :=
  match h : memchr_nl b with
  | none => b
  | some k => rest_of (b.drop (k + 1))
termination_by b.length
decreasing_by
  have hb : b ≠ [] := by
    intro e; rw [e] at h; simp [memchr_nl] at h
  have := List.length_pos.mpr hb
  simp only [List.length_drop]
  omega

/-- The byte stream made of the records, each followed by a newline, and
then the residue. -/
def ndjson_stream (records : List Bytes) (residue : Bytes) : Bytes :=
  (records.map (fun r => r ++ ['\n'])).flatten ++ residue

/-- No output cap is reached while `n` more records are handed over: the
cap of the unsorted path does not apply (sorting is on or no limit is set)
or the count cannot reach it. -/
def cap_not_reached (g : Globals) (w : writer) (n : Nat) : Prop :=
  g.sorted ≠ .no_sort ∨ g.output_limit = -1 ∨ w.count + n ≤ g.output_limit

/-- The reader sees no HTTP error: it is not a live transfer (`-J`), or its
response code is 200, or it is not known yet and 200 is reported with every
chunk. -/
def no_http_error (rd : reader) (chunks : List (Bytes × Int)) : Prop :=
  rd.easy = false ∨ rd.rcode = 200 ∨ (rd.rcode = 0 ∧ ∀ c ∈ chunks, c.2 = 200)

/-! ## Finishing a writer -/

/-- `or_else(p, or_else)`: one pointer or else the other. -/
def or_else (p : Option CStr) (other : CStr) : CStr := p.getD other

/-- One sort key skipped in a sorted line: `strchr(linep, ' ')`, then
`linep += strspn(linep, " ")`; `none` when there is no space. -/
def skip_sort_key (linep : CStr) : Option CStr :=
  if ' ' ∈ linep then
    some ((linep.dropWhile (fun c => c ≠ ' ')).dropWhile (fun c => c = ' '))
  else none

/-- The state of the loop of `writer_fini` over the output of the sort
process: the local `count`, `writer->sort_killed`, and the process state. -/
structure drain_state where
  count : Int
  sort_killed : Bool
  proc : Proc
  deriving DecidableEq, Repr

/-- A warning of `writer_fini` about a sorted line, on stderr. -/
def drain_warning (g : Globals) (st : drain_state) (what line : CStr) : drain_state :=
  { st with proc := { st.proc with stderr :=
      st.proc.stderr ++ g.program_name ++ ": warning: ".toList ++ what ++ " in '".toList
        ++ line ++ "'\n".toList } }

/-- One round of the `getline` loop of `writer_fini`: past the output limit
the line is ignored (the sort process is sent SIGTERM the first time);
otherwise the five sort keys are skipped and the rest of the line up to its
newline is parsed and presented on stdout. -/
def writer_fini_line (g : Globals) (env : Env) (st : drain_state) (line : CStr) :
    drain_state :=
  if g.output_limit ≠ -1 ∧ st.count ≥ g.output_limit then
    if st.sort_killed then st
    else { st with sort_killed := true,
                   proc := { st.proc with sigterms := st.proc.sigterms + 1 } }
  else if '\n' ∉ line then drain_warning g st "no \\n found".toList line
  else
    match skip_sort_key line with
    | none => drain_warning g st "no SP found".toList line
    | some linep =>
    match skip_sort_key linep with
    | none => drain_warning g st "no second SP".toList line
    | some linep =>
    match skip_sort_key linep with
    | none => drain_warning g st "no third SP".toList line
    | some linep =>
    match skip_sort_key linep with
    | none => drain_warning g st "no fourth SP".toList line
    | some linep =>
    match skip_sort_key linep with
    | none => drain_warning g st "no fifth SP".toList line
    | some linep =>
      match env.tuple_make (linep.takeWhile (fun c => c ≠ '\n')) with
      | .error msg =>
        { st with proc := { st.proc with stderr :=
            st.proc.stderr ++ g.program_name ++ ": warning: tuple_make: ".toList ++ msg
              ++ ['\n'] } }
      | .ok tup =>
        { st with count := st.count + 1,
                  proc := { st.proc with stdout :=
                    st.proc.stdout ++ env.pres tup (linep.takeWhile (fun c => c ≠ '\n')) } }

/-- The argument vector of the sort process. -/
def sort_argv (g : Globals) : List CStr :=
  "sort".toList :: "-u".toList :: g.keys.map (fun k => k.computed)

/-- `writer_fini(writer)`: the readers are reaped (a warning for each one
with stranded octets), the output of the sort process, if there is one, is
read and presented, and the final assertion on status and message is
checked. The result is the process state after the writer is destroyed. -/
def writer_fini (g : Globals) (env : Env) (w : writer) (p : Proc) : Except Fault Proc :=
  let p := w.readers.foldl (fun (p : Proc) rd =>
    if rd.buf.length ≠ 0 then
      { p with stderr := p.stderr ++ g.program_name ++ ": warning: stranding ".toList
                 ++ fmt_ld rd.buf.length ++ " octets!\n".toList }
    else p) p
  let p :=
    if w.sort_pid ≠ 0 then
      let st := (env.sort_output (sort_argv g) w.sort_stdin).foldl (writer_fini_line g env)
        { count := 0, sort_killed := w.sort_killed, proc := p }
      let status := env.sort_status (sort_argv g) w.sort_stdin st.sort_killed
      if ¬ st.sort_killed ∧ status ≠ 0 then
        { st.proc with stderr := st.proc.stderr ++ g.program_name
            ++ ": warning: sort exit status is ".toList ++ fmt_lu status ++ ['\n'] }
      else st.proc
    else p
  if decide (w.status ≠ none) ≠ decide (w.message ≠ none) then
    .error (.assertion "(writer->status != NULL) == (writer->message != NULL)")
  else .ok p

/-! ## I/O engine -/

/-- One invocation of the write callback by libcurl during `io_engine`: the
reader concerned (its position in the writer's reader list), the bytes, and
the response code libcurl reports at that time. -/
structure curl_event where
  reader : Nat
  ptr : Bytes
  response_code : Int
  deriving DecidableEq, Repr

/-- What the network does during one call of `io_engine`: the callback
invocations in order, then the result codes of the completed transfers
(0 is `CURLE_OK`, 6 `CURLE_COULDNT_RESOLVE_HOST`, 7 `CURLE_COULDNT_CONNECT`). -/
structure io_script where
  events : List curl_event
  results : List Nat
  deriving DecidableEq, Repr

/-- The callback invocations of one `io_engine` call, applied in order to
the readers of the writer. -/
def io_engine_events (g : Globals) (env : Env) :
    List curl_event → writer → Proc → Except Fault (writer × Proc)
  | [], w, p => .ok (w, p)
  | ev :: evs, w, p =>
    match w.readers.get? ev.reader with
    | none => io_engine_events g env evs w p
    | some rd =>
      match writer_func g env ev.ptr ev.response_code rd w p with
      | .error e => .error e
      | .ok (_, rd, w, p) =>
        io_engine_events g env evs { w with readers := w.readers.set ev.reader rd } p

/-- The report of one completed transfer in `io_engine`. -/
def io_engine_result (g : Globals) (p : Proc) (result : Nat) : Proc :=
  if result = 0 then p
  else
    { p with exit_code := 1,
             stderr := p.stderr ++ g.program_name ++
               (if result = 6 then
                  ": warning: libcurl failed since could not resolve host\n".toList
                else if result = 7 then
                  ": warning: libcurl failed since could not connect\n".toList
                else ": warning: libcurl failed with curl error ".toList
                       ++ fmt_lu result ++ ['\n']) }

/-- `io_engine(jobs)`: libcurl runs, invoking the write callback, until at
most `jobs` transfers are outstanding; then the results of the completed
transfers are reported. How far libcurl gets is given by the script. -/
def io_engine (g : Globals) (env : Env) (_jobs : Nat) (script : io_script) (w : writer)
    (p : Proc) : Except Fault (writer × Proc) :=
  match io_engine_events g env script.events w p with
  | .error e => .error e
  | .ok (w, p) => .ok (w, script.results.foldl (io_engine_result g) p)

/-- `MAX_JOBS`. -/
def MAX_JOBS : Nat := 8

/-! ## Single query, JSON file, batch driver -/

/-- `pdns_query(qp)`: the non-batch path. -/
def pdns_query (g : Globals) (env : Env) (qp : query) (script : io_script) (p : Proc) :
    Except Fault Proc :=
  match query_launcher g env qp (writer_init g qp.after qp.before) with
  | .error e => .error e
  | .ok w =>
    match io_engine g env 0 script w p with
    | .error e => .error e
    | .ok (w, p) => writer_fini g env w p

/-- `ruminate_json(json_fd, after, before)`: `reads` are the successive
non-empty results of `read(json_fd, buf, sizeof buf)`, each handed to
`writer_func` on the zeroed reader of the writer (no libcurl handle). -/
def ruminate_json (g : Globals) (env : Env) (reads : List Bytes) (after before : Nat)
    (p : Proc) : Except Fault Proc :=
  match writer_func_chunks g env (reads.map (fun b => (b, 0))) reader0
          { writer_init g after before with readers := [reader0] } p with
  | .error e => .error e
  | .ok (rd, w, p) => writer_fini g env { w with readers := [rd] } p

/-- The framing that `do_batch` writes on stdout after a line when not
merging. -/
def batch_trailer (g : Globals) (w : writer) : Bytes :=
  match g.batching with
  | .batch_none => []
  | .batch_original => "--\n".toList
  | .batch_verbose =>
    "-- ".toList ++ or_else w.status "NOERROR".toList ++ " (".toList
      ++ or_else w.message "no error".toList ++ ")\n".toList

/-- One round of the `getline` loop of `do_batch`. `w` is the writer
variable at the start of the round (NULL when not merging), `script` what
the network does during the `io_engine` call of this round, if any. The
local `q` is not initialised in C; it is only read after `batch_parse` has
written it. -/
def do_batch_line (g : Globals) (env : Env) (after before : Nat) (line : CStr)
    (script : io_script) (w : Option writer) (p : Proc) :
    Except Fault (Option writer × Proc) :=
  let command := line.takeWhile (fun c => c ≠ '\n')
  let w0 := if g.merge then w.getD (writer_init g after before)
            else writer_init g after before
  let p := if ¬ g.merge ∧ g.batching = .batch_verbose then
      { p with stdout := p.stdout ++ "++ ".toList ++ command ++ ['\n'] } else p
  let step : Except Fault (writer × Proc) :=
    match batch_parse command query0 with
    | (some msg, _) =>
      match writer_status w0 "PARSE".toList msg with
      | .error e => .error e
      | .ok w1 => .ok (w1, p)
    | (none, q) =>
      let q := if q.after = 0 then { q with after := after } else q
      let q := if q.before = 0 then { q with before := before } else q
      match query_launcher g env q w0 with
      | .error e => .error e
      | .ok w1 => io_engine g env (if g.merge then MAX_JOBS else 0) script w1 p
  match step with
  | .error e => .error e
  | .ok (w1, p) =>
    if w1.status ≠ none ∧ g.batching ≠ .batch_verbose ∧ w1.message = none then
      .error (.assertion "writer->message != NULL")
    else
      let p := if w1.status ≠ none ∧ g.batching ≠ .batch_verbose then
          { p with stderr := p.stderr ++ g.program_name ++ ": batch line status: ".toList
                     ++ or_else w1.status [] ++ " (".toList ++ or_else w1.message []
                     ++ ")\n".toList }
        else p
      if g.merge then .ok (some w1, p)
      else
        match writer_fini g env w1 { p with stdout := p.stdout ++ batch_trailer g w1 } with
        | .error e => .error e
        | .ok p => .ok (none, p)

/-- The `getline` loop of `do_batch`: `lines` are the successive results of
`getline`; `scripts` gives, for each round in turn, what the network does
during its `io_engine` call (used only by rounds whose line parses). -/
def do_batch_loop (g : Globals) (env : Env) (after before : Nat) :
    List CStr → List io_script → Option writer → Proc →
    Except Fault (Option writer × Proc × List io_script)
  | [], scripts, w, p => .ok (w, p, scripts)
  | line :: lines, scripts, w, p =>
    match do_batch_line g env after before line
            (scripts.headD { events := [], results := [] }) w p with
    | .error e => .error e
    | .ok (w, p) => do_batch_loop g env after before lines scripts.tail w p

/-- `do_batch(f, after, before)`: when merging, one writer is started
before the loop and finished, after a last `io_engine(0)`, behind it;
otherwise every line has its own writer. -/
def do_batch (g : Globals) (env : Env) (lines : List CStr) (after before : Nat)
    (scripts : List io_script) (p : Proc) : Except Fault Proc :=
  match do_batch_loop g env after before lines scripts
          (if g.merge then some (writer_init g after before) else none) p with
  | .error e => .error e
  | .ok (w, p, scripts) =>
    if g.merge then
      match io_engine g env 0 (scripts.headD { events := [], results := [] })
              (w.getD (writer_init g after before)) p with
      | .error e => .error e
      | .ok (w, p) => writer_fini g env w p
    else .ok p

/-! ## Comparison of keys and the collation keys as the specification words them -/

/-- Byte-order comparison `a < b` of two strings, as `sort` does it in the C
locale: the first position where they differ decides, by the value of the
byte; a proper prefix comes first. -/
def bytes_lt : Bytes → Bytes → Bool
  | [], [] => false
  | [], _ :: _ => true
  | _ :: _, [] => false
  | a :: as, b :: bs => decide (a.toNat < b.toNat) || (decide (a.toNat = b.toNat) && bytes_lt as bs)

/-- An example tuple seen only in zone files apart from a stray on-wire
`time_last`: `time_first` is 0. -/
def tuple_zone : pdns_tuple :=
  { tuple0 with time_last := 5, zone_first := 150, zone_last := 180 }

/-- The example environment with every record parsing to `tuple_zone`. -/
def env_zone : Env := { env0 with tuple_make := fun _ => .ok tuple_zone }

/-- ASCII lower-casing of a byte value: `A`..`Z` (65..90) are moved to
`a`..`z`, every other value is kept. -/
def lower_byte (n : Nat) : Nat := if 65 ≤ n ∧ n ≤ 90 then n + 32 else n

/-- The lowercase hexadecimal digit of a value below 16: `0`..`9` (from
code 48) and `a`..`f` (from code 97). -/
def hex_digit (d : Nat) : Char := if d < 10 then Char.ofNat (48 + d) else Char.ofNat (87 + d)

/-- A byte value written as two lowercase hexadecimal digits, the high
half first. -/
def hex_pair (n : Nat) : Bytes := [hex_digit (n / 16), hex_digit (n % 16)]

/-- A name split on `.`, the labels taken in reverse order, every character
of every label written by `enc`, and the labels joined by a literal `.`. -/
def key_of (enc : Char → Bytes) (name : CStr) : Bytes :=
  ['.'].intercalate ((name.splitOn '.').reverse.map (fun label => (label.map enc).flatten))

/-- The DNS name key as §4.7 of the specification words it: split on `.`,
reverse the label order, lower-case every character and expand it to two
hex digits, keep the label boundaries as literal `.`. -/
def name_key (name : CStr) : Bytes :=
  key_of (fun c => hex_pair (lower_byte c.toNat)) name

/-- The hex expansion of a byte string: two lowercase hex digits per byte. -/
def hex_expand (bytes : List Nat) : Bytes := (bytes.map hex_pair).flatten

/-- The example environment with an address parser that knows the two
dotted quads `1.2.3.4` and `1.2.3.10`. -/
def env_ipv4 : Env :=
  { env0 with inet_pton4 := fun s =>
      if s = "1.2.3.4".toList then some [1, 2, 3, 4]
      else if s = "1.2.3.10".toList then some [1, 2, 3, 10] else none }

/-- The numeric value of an IPv4 address given by its four bytes. -/
def ipv4_value (a b c d : Nat) : Nat := a * 16777216 + b * 65536 + c * 256 + d

/-- The name that `sortable_rdatum` hands to `sortable_dnsname`, if any: the
whole value for NS, PTR and CNAME, the text after the last space for MX and
RP. -/
def keyed_name (rrtype v : CStr) : Option CStr :=
  if rrtype = "A".toList then none
  else if rrtype = "AAAA".toList then none
  else if rrtype = "NS".toList ∨ rrtype = "PTR".toList ∨ rrtype = "CNAME".toList then some v
  else if rrtype = "MX".toList ∨ rrtype = "RP".toList then after_last_space v
  else none

/-- The DNS name key as the specification describes it: `.` for the empty
name, otherwise the reversed labels in lower-case hex joined by `.`. -/
def dnsname_key_spec (name : CStr) : Bytes :=
  if name = [] then ['.'] else key_of dnsname_hex name

/-- The per-element rdata key as the specification describes it. -/
def element_key_spec (env : Env) (rrtype v : CStr) : Bytes :=
  if rrtype = "A".toList then
    match env.inet_pton4 v with
    | some a => hex_expand a
    | none => "00000000".toList
  else if rrtype = "AAAA".toList then
    match env.inet_pton6 v with
    | some a => hex_expand a
    | none => List.replicate 32 '0'
  else if rrtype = "NS".toList ∨ rrtype = "PTR".toList ∨ rrtype = "CNAME".toList then
    dnsname_key_spec v
  else if rrtype = "MX".toList ∨ rrtype = "RP".toList then
    match after_last_space v with
    | some name => dnsname_key_spec name
    | none => hex_expand (v.map Char.toNat)
  else
    hex_expand (v.map Char.toNat)

/-- The rdata key as the specification describes it: the keys of the string
elements, concatenated in array order. -/
def rdata_key_spec (env : Env) (rrtype : CStr) (slots : List (Option CStr)) : Bytes :=
  ((slots.filterMap id).map (element_key_spec env rrtype)).flatten

/-- The loop state of `writer_fini` before the first sorted line. -/
def drain0 : drain_state := { count := 0, sort_killed := false, proc := proc0 }

/-- The example globals with `-s` and both collation keys in use. -/
def globals_sorted : Globals :=
  { globals0 with sorted := .normal_sort, sort_byname := true, sort_bydata := true }

/-- What the round of `writer_fini` for a sorted line amounts to when the
record recovered from the line is `buf`: these bytes are parsed and
presented on stdout, and the line is counted. -/
def present_record (g : Globals) (env : Env) (st : drain_state) (buf : Bytes) : drain_state :=
  match env.tuple_make buf with
  | .error msg =>
    { st with proc := { st.proc with stderr :=
        st.proc.stderr ++ g.program_name ++ ": warning: tuple_make: ".toList ++ msg
          ++ ['\n'] } }
  | .ok tup =>
    { st with count := st.count + 1,
              proc := { st.proc with stdout := st.proc.stdout ++ env.pres tup buf } }

/-- A byte of a collation key: a dot or an entry of the `hex` array. -/
def key_char (c : Char) : Prop := c = '.' ∨ ∃ i, c = hex_at i

/-- An example tuple: an A record of `a.b` whose address does not parse. -/
def tuple_a : pdns_tuple :=
  { tuple0 with rrname := "a.b".toList, rrtype := "A".toList, rdata := "x".toList }

/-- An example tuple: a TXT record of `a.b` with an empty value. -/
def tuple_txt : pdns_tuple :=
  { tuple0 with rrname := "a.b".toList, rrtype := "TXT".toList, rdata := [] }

/-- A reader of a live transfer, as `reader_launch` makes it, without URL. -/
def reader_live : reader := { reader0 with easy := true }

/-- The value of `reader->rcode` once the response code was asked for: the
code reported by libcurl when the field was still 0. -/
def rcode_known (rd : reader) (code : Int) : Int := if rd.rcode = 0 then code else rd.rcode

/-- The message made from the payload of a failing transfer:
`strndup(reader->buf, reader->len)` stops at a NUL, and the copy is then cut
at its first newline. -/
def error_message (payload : Bytes) : CStr :=
  (payload.takeWhile (fun c => c ≠ '\x00')).takeWhile (fun c => c ≠ '\n')

/-- The reader after a call of `writer_func` that took the failing branch. -/
def reader_failed (rd : reader) (code : Int) : reader :=
  { rd with buf := [], rcode := rcode_known rd code }

/-- The reader as the failing branch of `writer_func` sees it: the chunk is
in the buffer and the response code is set. -/
def reader_filled (rd : reader) (ptr : Bytes) (code : Int) : reader :=
  { rd with buf := rd.buf ++ ptr, rcode := rcode_known rd code }

/-- The writer after the first failing chunk: status and message are
installed and the once flag is up. -/
def writer_failed (w : writer) (status message : CStr) : writer :=
  { w with status := some status, message := some message, once := true }

/-! ## Sort keys -/

/-- The constant `MAX_KEYS`. -/
def MAX_KEYS : Nat := 5

/-- `strcasecmp(a, b) == 0`, for ASCII strings. -/
def strcasecmp_eq (a b : CStr) : Bool := decide (a.map Char.toLower = b.map Char.toLower)

/-- `add_sort_key(tok)`: the returned message (NULL when the key was added)
and the globals after the call; `nkeys` is the length of `keys`. (A failure
of `asprintf` is not modelled.) -/
def add_sort_key (g : Globals) (tok : CStr) : Option String × Globals :=
  if g.keys.length = MAX_KEYS then (some "too many sort keys given.", g)
  else
    let r : Option CStr × Globals :=
      if strcasecmp_eq tok "first".toList then (some "-k1n".toList, g)
      else if strcasecmp_eq tok "last".toList then (some "-k2n".toList, g)
      else if strcasecmp_eq tok "count".toList then (some "-k3n".toList, g)
      else if strcasecmp_eq tok "name".toList then
        (some "-k4".toList, { g with sort_byname := true })
      else if strcasecmp_eq tok "data".toList then
        (some "-k5".toList, { g with sort_bydata := true })
      else (none, g)
    match r with
    | (none, g) => (some "key must be one of first, last, count, name, or data", g)
    | (some key, g) =>
      let computed := key ++ (if g.sorted = .reverse_sort then "r".toList else [])
      (none, { g with keys := g.keys ++ [{ specified := tok, computed := computed }] })

/-- `find_sort_key(tok)`: the first key whose `specified` string equals
`tok` under `strcmp`, or NULL. -/
def find_sort_key (g : Globals) (tok : CStr) : Option sortkey :=
  g.keys.find? (fun k => decide (k.specified = tok))

/-- The token loop of `case 'k'` in `main`, with an iteration bound: the
second argument is what the last `strtok_r` call returned, the token and the
save pointer. -/
def option_k_loop : Nat → Globals → Option CStr × CStr → Except Fault Globals
  | _, g, (none, _) => .ok g
  | 0, _, (some _, _) => .error .fuel
  | fuel + 1, g, (some tok, saveptr) =>
    if (find_sort_key g tok).isSome then
      .error (.usage "Each sort key may only be specified once")
    else
      match add_sort_key g tok with
      | (some msg, _) => .error (.usage msg)
      | (none, g) => option_k_loop fuel g (strtok_r none ",".toList saveptr)

/-- The option `-k optarg` in `main`. -/
def option_k (g : Globals) (optarg : CStr) : Except Fault Globals :=
  if g.sorted = .no_sort then .error (.usage "-k must be preceded by -s or -S")
  else option_k_loop (optarg.length + 1) g (strtok_r (some optarg) ",".toList [])

/-- The options of `main` that deal with sorting. -/
inductive sort_option where
  /-- the option `-s` -/
  | s
  /-- the option `-S` -/
  | S
  /-- the option `-k` with its argument -/
  | k (optarg : CStr)
  deriving DecidableEq, Repr

/-- The `getopt` loop of `main`, for the options that deal with sorting. -/
def sort_options : List sort_option → Globals → Except Fault Globals
  | [], g => .ok g
  | .s :: opts, g => sort_options opts { g with sorted := .normal_sort }
  | .S :: opts, g => sort_options opts { g with sorted := .reverse_sort }
  | .k optarg :: opts, g =>
    match option_k g optarg with
    | .error e => .error e
    | .ok g => sort_options opts g

/-- One step of the completion of the sort keys:
`if (find_sort_key(tok) == NULL) (void) add_sort_key(tok);`. -/
def complete_sort_key (g : Globals) (tok : CStr) : Globals :=
  if (find_sort_key g tok).isNone then (add_sort_key g tok).2 else g

/-- The validation of the sort keys at the end of option processing in
`main`: keys without sorting are a usage error; when sorting with fewer than
`MAX_KEYS` keys, the keys first, last, count, name, data are added unless
found. -/
def validate_sort_keys (g : Globals) : Except Fault Globals :=
  if g.keys.length > 0 ∧ g.sorted = .no_sort then
    .error (.usage "using -k without -s or -S makes no sense.")
  else if g.keys.length < MAX_KEYS ∧ g.sorted ≠ .no_sort then
    let g := complete_sort_key g "first".toList
    let g := complete_sort_key g "last".toList
    let g := complete_sort_key g "count".toList
    let g := complete_sort_key g "name".toList
    let g := complete_sort_key g "data".toList
    .ok g
  else .ok g

/-- The argument vector of the sort process after the given sorting options
were processed and validated, starting from the initial globals. -/
def sort_argv_of (opts : List sort_option) : Except Fault (List CStr) :=
  match sort_options opts globals0 with
  | .error e => .error e
  | .ok g =>
    match validate_sort_keys g with
    | .error e => .error e
    | .ok g => .ok (sort_argv g)

/-- The five key names in canonical order. -/
def key_names : List CStr :=
  ["first".toList, "last".toList, "count".toList, "name".toList, "data".toList]

/-- The key specification the sort process is given for a key name,
according to the specification: `-k1n` first, `-k2n` last, `-k3n` count,
`-k4` name, `-k5` data. -/
def key_spec (name : CStr) : CStr :=
  if name = "first".toList then "-k1n".toList
  else if name = "last".toList then "-k2n".toList
  else if name = "count".toList then "-k3n".toList
  else if name = "name".toList then "-k4".toList
  else "-k5".toList

/-- The key names completed as the specification describes: the given ones
first, then the missing ones in canonical order. -/
def completed_names (toks : List CStr) : List CStr :=
  toks ++ key_names.filter (fun n => decide (n ∉ toks))

/-- All lists obtained by inserting `x` somewhere into a list. -/
def insert_all (x : CStr) : List CStr → List (List CStr)
  | [] => [[x]]
  | y :: ys => (x :: y :: ys) :: (insert_all x ys).map (fun l => y :: l)

/-- All lists without repetition made of elements of a list. -/
def arrangements : List CStr → List (List CStr)
  | [] => [[]]
  | x :: xs => arrangements xs ++ (arrangements xs).flatMap (insert_all x)

/-- The path of a query, as `query_launcher` asks `makepath` for it. -/
def query_path (q : query) : Except Fault CStr :=
  makepath q.mode (q.thing.getD "(null)".toList) q.rrtype q.bailiwick q.pfxlen

/-- The path made from the query that `batch_parse` fills in for a batch
line, if the line parses. -/
def batch_line_path (line : CStr) : Option (Except Fault CStr) :=
  match batch_parse line query0 with
  | (some _, _) => none
  | (none, q) => some (query_path q)

/-- The first loop of `writer_fini`: the readers are reaped, with a warning
on stderr for each one that still holds bytes. -/
def reap_readers (g : Globals) (readers : List reader) (p : Proc) : Proc :=
  readers.foldl (fun (p : Proc) rd =>
    if rd.buf.length ≠ 0 then
      { p with stderr := p.stderr ++ g.program_name ++ ": warning: stranding ".toList
                 ++ fmt_ld rd.buf.length ++ " octets!\n".toList }
    else p) p

/-- `LONG_MAX` of a 64 bit `long`. -/
def LONG_MAX : Int := 9223372036854775807

/-- `LONG_MIN` of a 64 bit `long`. -/
def LONG_MIN : Int := -9223372036854775808

/-- The value of `ERANGE`. -/
def ERANGE : Int := 34

/-- `isspace(c)` in the C locale. -/
def isspace (c : Char) : Bool :=
  decide (c = ' ' ∨ c = '\t' ∨ c = '\n' ∨ c = '\x0b' ∨ c = '\x0c' ∨ c = '\r')

/-- What `strtol(in, &ep, 10)` reports: the value (clamped to the range of
`long`), whether any digit was converted (`ep != in`), and whether the value
was out of range (`errno` is then set to `ERANGE`). -/
structure strtol_result where
  value : Int
  converted : Bool
  erange : Bool
  deriving DecidableEq, Repr

/-- `strtol(in, &ep, 10)`: white space, an optional sign, decimal digits. -/
def strtol10 (s : CStr) : strtol_result :=
  let s := s.dropWhile isspace
  let neg := decide (s.head? = some '-')
  let s := if s.head? = some '-' ∨ s.head? = some '+' then s.drop 1 else s
  let digits := s.takeWhile Char.isDigit
  let v : Int := digits.foldl (fun (a : Int) c => 10 * a + ((c.toNat - 48 : Nat) : Int)) 0
  let v := if neg then -v else v
  { value := if v > LONG_MAX then LONG_MAX else if v < LONG_MIN then LONG_MIN else v,
    converted := decide (digits ≠ []),
    erange := decide (v > LONG_MAX ∨ v < LONG_MIN) }

/-- `parse_long(in, out)`: the value stored through `out`, or `none` when
the function returns false. `errno` is the value of the variable at the
call; `strtol` changes it only when the value is out of range. -/
def parse_long (errno : Int) (s : CStr) : Option Int :=
  let r := strtol10 s
  let errno := if r.erange then ERANGE else errno
  if (errno = ERANGE ∧ (r.value = LONG_MAX ∨ r.value = LONG_MIN)) ∨
     (errno ≠ 0 ∧ r.value = 0) ∨ r.converted = false then none
  else some r.value

/-- The option `-l optarg` in `main`. -/
def option_l (errno : Int) (g : Globals) (optarg : CStr) : Except Fault Globals :=
  match parse_long errno optarg with
  | none => .error (.usage "-l must be zero or positive")
  | some v =>
    if v < 0 then .error (.usage "-l must be zero or positive")
    else .ok { g with query_limit := v }

/-- The option `-L optarg` in `main`. -/
def option_L (errno : Int) (g : Globals) (optarg : CStr) : Except Fault Globals :=
  match parse_long errno optarg with
  | none => .error (.usage "-L must be positive")
  | some v =>
    if v ≤ 0 then .error (.usage "-L must be positive")
    else .ok { g with output_limit := v }

/-- The option `-f` in `main`. -/
def option_f (g : Globals) : Except Fault Globals :=
  match g.batching with
  | .batch_none => .ok { g with batching := .batch_original }
  | .batch_original => .ok { g with batching := .batch_verbose }
  | .batch_verbose => .error (.usage "too many -f options")

/-- Options of `main` that set the process-wide variables of the model. -/
inductive cmd_option where
  /-- the option `-s` -/
  | s
  /-- the option `-S` -/
  | S
  /-- the option `-k` with its argument -/
  | k (optarg : CStr)
  /-- the option `-l` with its argument -/
  | l (optarg : CStr)
  /-- the option `-L` with its argument -/
  | L (optarg : CStr)
  /-- the option `-m` -/
  | m
  /-- the option `-f` -/
  | f
  /-- the option `-c` -/
  | c
  /-- the option `-q` -/
  | q
  /-- the option `-I` -/
  | I
  deriving DecidableEq, Repr

/-- The `getopt` loop of `main` for these options; `errno` is the value of
the variable during the loop (0 unless an earlier call has failed). -/
def getopt_loop (errno : Int) : List cmd_option → Globals → Except Fault Globals
  | [], g => .ok g
  | .s :: opts, g => getopt_loop errno opts { g with sorted := .normal_sort }
  | .S :: opts, g => getopt_loop errno opts { g with sorted := .reverse_sort }
  | .k optarg :: opts, g =>
    match option_k g optarg with
    | .error e => .error e
    | .ok g => getopt_loop errno opts g
  | .l optarg :: opts, g =>
    match option_l errno g optarg with
    | .error e => .error e
    | .ok g => getopt_loop errno opts g
  | .L optarg :: opts, g =>
    match option_L errno g optarg with
    | .error e => .error e
    | .ok g => getopt_loop errno opts g
  | .m :: opts, g => getopt_loop errno opts { g with merge := true }
  | .f :: opts, g =>
    match option_f g with
    | .error e => .error e
    | .ok g => getopt_loop errno opts g
  | .c :: opts, g => getopt_loop errno opts { g with complete := true }
  | .q :: opts, g => getopt_loop errno opts { g with quiet := true }
  | .I :: opts, g => getopt_loop errno opts { g with info := true }

/-- The statement of `main` after the `getopt` loop that lets the output
limit default to the query limit. -/
def inherit_output_limit (g : Globals) : Globals :=
  if g.output_limit = -1 ∧ g.query_limit ≠ -1 ∧ ¬ g.merge then
    { g with output_limit := g.query_limit }
  else g

/-- The locals of `main` that the validation of the options reads: the
fence set by `-A` and `-B` (0 when not given) and the descriptor opened by
`-J` (-1 when not given). -/
structure main_locals where
  after : Nat
  before : Nat
  json_fd : Int
  deriving DecidableEq, Repr

/-- The first block of "validate some interrelated options" in `main`: the
order of the fence is checked, and without `-c`, `-q`, `-J` and sorting a
fence with both ends turns on reverse sorting, with a warning on stderr. -/
def validate_fence (g : Globals) (o : main_locals) : Except Fault (Globals × Bytes) :=
  if o.after ≠ 0 ∧ o.before ≠ 0 then
    if o.after > 0 ∧ o.before > 0 ∧ o.after > o.before then
      .error (.usage "-A -B requires after <= before (for now)")
    else if g.sorted = .no_sort ∧ o.json_fd = -1 ∧ ¬ g.complete ∧ ¬ g.quiet then
      .ok ({ g with sorted := .reverse_sort },
           g.program_name ++ (": warning: -A and -B w/o -c requires"
             ++ " sorting for dedup, so turning on -S here.\n").toList)
    else .ok (g, [])
  else .ok (g, [])

/-- The block "validate some interrelated options" of `main`, down to the
completion of the sort keys: the globals after it and what it wrote to
stderr, or the usage error. -/
def validate_options (g : Globals) (o : main_locals) : Except Fault (Globals × Bytes) :=
  match validate_fence g o with
  | .error e => .error e
  | .ok (g, err) =>
    if g.complete ∧ o.after = 0 ∧ o.before = 0 then
      .error (.usage "-c without -A or -B makes no sense.")
    else if g.merge ∧ g.batching = .batch_none then
      .error (.usage "using -m without -f makes no sense.")
    else if g.merge ∧ g.batching = .batch_verbose then
      .error (.usage "using -m with more than one -f makes no sense.")
    else
      match validate_sort_keys g with
      | .error e => .error e
      | .ok g => .ok (g, err)

/-- Option processing in `main` as far as the model goes: the `getopt`
loop, the default of the output limit, and the validation. -/
def main_setup (errno : Int) (opts : List cmd_option) (o : main_locals) :
    Except Fault (Globals × Bytes) :=
  match getopt_loop errno opts globals0 with
  | .error e => .error e
  | .ok g => validate_options (inherit_output_limit g) o

/-- The locals of `main` when neither `-A`, `-B` nor `-J` is given. -/
def locals0 : main_locals := { after := 0, before := 0, json_fd := -1 }

/-- The line with each run of slashes replaced by a single slash, and
leading and trailing slashes removed: its non-empty components, joined by
single slashes. -/
def squeeze_slashes (line : CStr) : CStr :=
  ['/'].intercalate ((line.splitOn '/').filter (fun t => decide (t ≠ [])))

/-- An example sort process that gives back its input as one line. -/
def env_one_line : Env :=
  { env0 with sort_output := fun _ b => if b = [] then [] else [b] }

/-- What the network does for one batch line in the examples: the reader at
the head of the list receives the record `r` with the response code 200, and
the transfer ends well. -/
def script_one : io_script :=
  { events := [{ reader := 0, ptr := "r\n".toList, response_code := 200 }], results := [0] }

/-- The example globals for `-f`. -/
def globals_batch : Globals := { globals0 with batching := .batch_original }

/-- The example globals for `-f -s`. -/
def globals_batch_sorted : Globals :=
  { globals0 with batching := .batch_original, sorted := .normal_sort }

/-- The example globals for `-f -f`. -/
def globals_batch_verbose : Globals := { globals0 with batching := .batch_verbose }

/-- The example globals for `-f -f -s`. -/
def globals_batch_verbose_sorted : Globals :=
  { globals0 with batching := .batch_verbose, sorted := .normal_sort }

/-- The example globals for `-f -m`. -/
def globals_batch_merge : Globals :=
  { globals0 with batching := .batch_original, merge := true }

/-- Lexicographic comparison `a < b` of two lists of labels: the first
position where they differ decides, by byte-order comparison of the labels
(a label that is a proper prefix of the other comes first); a list that is a
proper prefix of the other comes first. -/
def labels_lt : List Bytes → List Bytes → Bool
  | [], [] => false
  | [], _ :: _ => true
  | _ :: _, [] => false
  | a :: as, b :: bs => bytes_lt a b || (decide (a = b) && labels_lt as bs)

/-- The lower-cased labels of a name, from the last label to the first. -/
def sort_labels (name : CStr) : List Bytes :=
  (name.splitOn '.').reverse.map (fun label => label.map Char.toLower)

/-- The hex expansion of a label. -/
def hex_label (label : Bytes) : Bytes := (label.map (fun c => hex_pair c.toNat)).flatten

/-- What the network does during an `io_engine` call in which no callback is
invoked and no transfer ends. -/
def script_idle : io_script := { events := [], results := [] }

/-- What the network does during an `io_engine` call in the examples of a
failing transfer: the reader at the head of the list receives `no` and a
newline with the response code 404, and the transfer ends well. -/
def script_404 : io_script :=
  { events := [{ reader := 0, ptr := "no\n".toList, response_code := 404 }], results := [0] }

/-- A writer on which `do_batch` has recorded a line that failed to parse:
it has the status PARSE with the parser's message, and its once flag is
down. -/
def writer_parse_failed : writer :=
  { writer0 with status := some "PARSE".toList,
                 message := some "unrecognized initial term".toList }

/-- C5: in rrset-by-name mode `makepath` gives `rrset/name/<thing>` with
neither rrtype nor bailiwick, `.../<rrtype>` with only rrtype,
`.../<rrtype>/<bailiwick>` with both and `.../ANY/<bailiwick>` with only
bailiwick; the example of the specification is included. -/
theorem makepath_rrset_mode (thing rrtype bailiwick : CStr) (pfxlen : Option CStr) :
    makepath .rrset_mode thing none none pfxlen
      = .ok ("rrset/name/".toList ++ thing) ∧
    makepath .rrset_mode thing (some rrtype) none pfxlen
      = .ok ("rrset/name/".toList ++ thing ++ "/".toList ++ rrtype) ∧
    makepath .rrset_mode thing (some rrtype) (some bailiwick) pfxlen
      = .ok ("rrset/name/".toList ++ thing ++ "/".toList ++ rrtype ++ "/".toList ++ bailiwick) ∧
    makepath .rrset_mode thing none (some bailiwick) pfxlen
      = .ok ("rrset/name/".toList ++ thing ++ "/ANY/".toList ++ bailiwick) ∧
    makepath .rrset_mode "example.com".toList none (some "com.".toList) none
      = .ok "rrset/name/example.com/ANY/com.".toList :=
  ⟨rfl, rfl, rfl, rfl, by decide⟩

theorem terms_of_none (s sp : CStr) (h : strtok_r none "/".toList s = (none, sp)) :
    terms s = [] := by
  rw [terms]; split
  · rfl
  · rename_i h2; rw [h] at h2; simp at h2

theorem strtok_r_none_saveptr (str : Option CStr) (delim s sp : CStr)
    (h : strtok_r str delim s = (none, sp)) : sp = [] := by
  unfold strtok_r at h
  simp only at h
  split at h <;> simp at h
  exact h

theorem terms_nil : terms [] = [] := terms_of_none [] [] (by simp [strtok_r])

theorem terms_of_some (s t sp : CStr) (h : strtok_r none "/".toList s = (some t, sp)) :
    terms s = t :: terms sp := by
  rw [terms]; split
  · rename_i h2; rw [h] at h2; simp at h2
  · rename_i h2; rw [h] at h2; simp only [Prod.mk.injEq, Option.some.injEq] at h2
    rw [h2.1, h2.2]

theorem strtok_r_first (line delim sp : CStr) :
    strtok_r (some line) delim sp = strtok_r none delim line := rfl

theorem batch_parse_tail_eq (q qp : query) (s : CStr) :
    batch_parse_tail q qp s
      = if terms s = [] then (none, q) else (some "extra garbage".toList, qp) := by
  unfold batch_parse_tail
  rcases h : strtok_r none "/".toList s with ⟨_ | t, sp⟩
  · simp [terms_of_none _ _ h]
  · simp [terms_of_some _ _ _ h]

theorem batch_parse_type_eq (q qp : query) (s : CStr) :
    batch_parse_type q qp s
      = match terms s with
        | [] => (none, q)
        | [t] => (none, { q with rrtype := some t })
        | _ => (some "extra garbage".toList, qp) := by
  unfold batch_parse_type
  rcases h : strtok_r none "/".toList s with ⟨_ | t, sp⟩
  · simp [terms_of_none _ _ h, batch_parse_tail_eq, strtok_r_none_saveptr _ _ _ _ h, terms_nil]
  · simp only [terms_of_some _ _ _ h, batch_parse_tail_eq]
    cases h2 : terms sp <;> simp

theorem batch_parse_type_bailiwick_eq (q qp : query) (s : CStr) :
    batch_parse_type_bailiwick q qp s
      = match terms s with
        | [] => (none, q)
        | [t] => (none, { q with rrtype := some t })
        | [t, b] => (none, { q with rrtype := some t, bailiwick := some b })
        | _ => (some "extra garbage".toList, qp) := by
  unfold batch_parse_type_bailiwick
  rcases h : strtok_r none "/".toList s with ⟨_ | t, sp⟩
  · simp [terms_of_none _ _ h, batch_parse_tail_eq, strtok_r_none_saveptr _ _ _ _ h, terms_nil]
  · simp only [terms_of_some _ _ _ h]
    rcases h2 : strtok_r none "/".toList sp with ⟨_ | b, sp2⟩
    · simp [terms_of_none _ _ h2, batch_parse_tail_eq, strtok_r_none_saveptr _ _ _ _ h2,
        terms_nil]
    · simp only [terms_of_some _ _ _ h2, batch_parse_tail_eq]
      cases h3 : terms sp2 <;> simp

/-- `batch_parse` depends on the line only through its terms. -/
theorem batch_parse_eq_parse_terms (line : CStr) (qp : query) :
    batch_parse line qp = parse_terms qp (terms line) := by
  unfold batch_parse
  rw [strtok_r_first]
  rcases h1 : strtok_r none "/".toList line with ⟨_ | t1, s1⟩
  · simp [terms_of_none _ _ h1, parse_terms]
  · simp only [terms_of_some _ _ _ h1, parse_terms]
    by_cases c1 : t1 = "rrset".toList
    · simp only [c1, if_true]
      rcases h2 : strtok_r none "/".toList s1 with ⟨_ | t2, s2⟩
      · simp [terms_of_none _ _ h2]
      · simp only [terms_of_some _ _ _ h2]
        by_cases c2 : t2 = "name".toList
        · simp only [c2, if_true, true_or]
          rcases h3 : strtok_r none "/".toList s2 with ⟨_ | t3, s3⟩
          · simp [terms_of_none _ _ h3]
          · simp only [terms_of_some _ _ _ h3, batch_parse_type_bailiwick_eq]
            rcases terms s3 with _ | ⟨a, _ | ⟨b, _ | ⟨c, l⟩⟩⟩ <;> simp [parsed_query]
        · by_cases c3 : t2 = "raw".toList
          · simp only [c3, if_true, or_true]
            rcases h3 : strtok_r none "/".toList s2 with ⟨_ | t3, s3⟩
            · simp [terms_of_none _ _ h3]
            · simp only [terms_of_some _ _ _ h3, batch_parse_type_bailiwick_eq]
              rcases terms s3 with _ | ⟨a, _ | ⟨b, _ | ⟨c, l⟩⟩⟩ <;> simp [parsed_query]
          · simp only [c2, c3, if_false, or_self]
    · by_cases c1' : t1 = "rdata".toList
      · simp only [c1', if_true]
        rcases h2 : strtok_r none "/".toList s1 with ⟨_ | t2, s2⟩
        · simp [terms_of_none _ _ h2]
        · simp only [terms_of_some _ _ _ h2]
          by_cases c2 : t2 = "name".toList
          · simp only [c2, if_true, true_or]
            rcases h3 : strtok_r none "/".toList s2 with ⟨_ | t3, s3⟩
            · simp [terms_of_none _ _ h3]
            · simp only [terms_of_some _ _ _ h3, batch_parse_type_eq]
              rcases terms s3 with _ | ⟨a, _ | ⟨b, l⟩⟩ <;> simp [parsed_query]
          · by_cases c3 : t2 = "raw".toList
            · simp only [c3, if_true, or_true]
              rcases h3 : strtok_r none "/".toList s2 with ⟨_ | t3, s3⟩
              · simp [terms_of_none _ _ h3]
              · simp only [terms_of_some _ _ _ h3, batch_parse_type_eq]
                rcases terms s3 with _ | ⟨a, _ | ⟨b, l⟩⟩ <;> simp [parsed_query]
            · by_cases c4 : t2 = "ip".toList
              · simp only [c4, if_true]
                rcases h3 : strtok_r none "/".toList s2 with ⟨_ | t3, s3⟩
                · simp [terms_of_none _ _ h3]
                · simp only [terms_of_some _ _ _ h3, batch_parse_tail_eq]
                  rcases terms s3 with _ | ⟨a, l⟩ <;> simp [parsed_query]
              · simp only [c2, c3, c4, if_false, or_self]
      · simp only [c1, c1', if_false]

/-! ### Terms of a line written in one of the batch forms -/

theorem takeWhile_append_stop {α : Type} (p : α → Bool) (t : List α) (x : α) (rest : List α)
    (ht : ∀ c ∈ t, p c = true) (hx : p x = false) :
    (t ++ x :: rest).takeWhile p = t := by
  induction t with
  | nil => simp [List.takeWhile, hx]
  | cons c cs ih =>
    have hc : p c = true := ht c (by simp)
    have hcs : ∀ c ∈ cs, p c = true := fun d hd => ht d (by simp [hd])
    simp [List.takeWhile, hc, ih hcs]

theorem dropWhile_append_stop {α : Type} (p : α → Bool) (t : List α) (x : α) (rest : List α)
    (ht : ∀ c ∈ t, p c = true) (hx : p x = false) :
    (t ++ x :: rest).dropWhile p = x :: rest := by
  induction t with
  | nil => simp [List.dropWhile, hx]
  | cons c cs ih =>
    have hc : p c = true := ht c (by simp)
    have hcs : ∀ c ∈ cs, p c = true := fun d hd => ht d (by simp [hd])
    simp [List.dropWhile, hc, ih hcs]

theorem takeWhile_all {α : Type} (p : α → Bool) (t : List α) (ht : ∀ c ∈ t, p c = true) :
    t.takeWhile p = t := by
  induction t with
  | nil => simp
  | cons c cs ih =>
    have hc : p c = true := ht c (by simp)
    have hcs : ∀ c ∈ cs, p c = true := fun d hd => ht d (by simp [hd])
    simp [List.takeWhile, hc, ih hcs]

theorem dropWhile_all {α : Type} (p : α → Bool) (t : List α) (ht : ∀ c ∈ t, p c = true) :
    t.dropWhile p = [] := by
  induction t with
  | nil => simp
  | cons c cs ih =>
    have hc : p c = true := ht c (by simp)
    have hcs : ∀ c ∈ cs, p c = true := fun d hd => ht d (by simp [hd])
    simp [List.dropWhile, hc, ih hcs]

theorem not_slash_of_term (t : CStr) (h : '/' ∉ t) :
    ∀ c ∈ t, (!decide (c ∈ "/".toList)) = true := by
  intro c hc
  have : c ≠ '/' := fun e => h (e ▸ hc)
  simp [this]

theorem dropWhile_slash_term (t rest : CStr) (h : is_term t) :
    (t ++ rest).dropWhile (fun c => decide (c ∈ "/".toList)) = t ++ rest := by
  obtain ⟨hne, hs⟩ := h
  cases t with
  | nil => exact absurd rfl hne
  | cons c cs =>
    have : c ≠ '/' := fun e => hs (by simp [e])
    simp [List.dropWhile, this]

/-- A term followed by a slash is split off, whatever follows. -/
theorem strtok_r_term_slash (t rest : CStr) (h : is_term t) :
    strtok_r none "/".toList (t ++ '/' :: rest) = (some t, rest) := by
  have hx : (fun c => !decide (c ∈ "/".toList)) '/' = false := by decide
  have h1 := takeWhile_append_stop _ t '/' rest (not_slash_of_term t h.2) hx
  have h2 := dropWhile_append_stop _ t '/' rest (not_slash_of_term t h.2) hx
  have h3 := dropWhile_slash_term t ('/' :: rest) h
  have : t ++ '/' :: rest ≠ [] := by simp
  unfold strtok_r
  simp only [Option.getD_none]
  rw [h3, h1, h2]
  simp [this]

/-- A term at the end of the line is returned; the save pointer is at the end. -/
theorem strtok_r_term_end (t : CStr) (h : is_term t) :
    strtok_r none "/".toList t = (some t, []) := by
  have h1 := takeWhile_all _ t (not_slash_of_term t h.2)
  have h2 := dropWhile_all _ t (not_slash_of_term t h.2)
  have h3 := dropWhile_slash_term t [] h
  simp only [List.append_nil] at h3
  unfold strtok_r
  simp only [Option.getD_none]
  rw [h3, h1, h2]
  simp [h.1]

theorem terms_term_slash (t rest : CStr) (h : is_term t) :
    terms (t ++ '/' :: rest) = t :: terms rest :=
  terms_of_some _ _ _ (strtok_r_term_slash t rest h)

theorem terms_term_end (t : CStr) (h : is_term t) : terms t = [t] := by
  rw [terms_of_some _ _ _ (strtok_r_term_end t h), terms_nil]

theorem is_term_comma (a p : CStr) (ha : is_term a) (hp : is_term p) :
    is_term (a ++ ',' :: p) := by
  refine ⟨by simp, ?_⟩
  intro hm
  rcases List.mem_append.mp hm with h | h
  · exact ha.2 h
  · rcases List.mem_cons.mp h with h | h
    · exact absurd h (by decide)
    · exact hp.2 h

/-! ### Properties of the URL path builder and of the batch parser -/

/-- C6 (as the code behaves): in rrset-raw mode `makepath` never emits the
bailiwick; with rrtype and bailiwick both set the fragment is
`rrset/raw/<thing>/<rrtype>`, which is not the documented
`rrset/raw/<thing>/<rrtype>/<bailiwick>`. Evaluated at thing `0123`,
rrtype `A`, bailiwick `com.`. -/
theorem makepath_raw_rrset_drops_bailiwick :
    (∀ (thing rrtype bailiwick : CStr) (pfxlen : Option CStr),
      makepath .raw_rrset_mode thing (some rrtype) (some bailiwick) pfxlen
        = .ok ("rrset/raw/".toList ++ thing ++ "/".toList ++ rrtype)) ∧
    makepath .raw_rrset_mode "0123".toList (some "A".toList) (some "com.".toList) none
      = .ok "rrset/raw/0123/A".toList ∧
    makepath .raw_rrset_mode "0123".toList (some "A".toList) (some "com.".toList) none
      ≠ .ok "rrset/raw/0123/A/com.".toList ∧
    (batch_parse "rrset/raw/0123/A/com.".toList
        { mode := .no_mode, thing := none, rrtype := none, bailiwick := none,
          pfxlen := none, after := 0, before := 0 }).2
      = { mode := .raw_rrset_mode, thing := some "0123".toList, rrtype := some "A".toList,
          bailiwick := some "com.".toList, pfxlen := none, after := 0, before := 0 } :=
  ⟨fun _ _ _ _ => rfl, by decide, by decide, by decide⟩

/-- C7: in the rdata modes `makepath` gives `rdata/name/<thing>[/<rrtype>]`,
`rdata/raw/<thing>[/<rrtype>]` and `rdata/ip/<thing>[,<pfxlen>]` (the prefix
length after a comma), whatever the bailiwick argument is: it never appears
in the fragment. -/
theorem makepath_rdata_modes (thing rrtype pfx : CStr) (bailiwick rr pl : Option CStr) :
    makepath .name_mode thing none bailiwick pl
      = .ok ("rdata/name/".toList ++ thing) ∧
    makepath .name_mode thing (some rrtype) bailiwick pl
      = .ok ("rdata/name/".toList ++ thing ++ "/".toList ++ rrtype) ∧
    makepath .raw_name_mode thing none bailiwick pl
      = .ok ("rdata/raw/".toList ++ thing) ∧
    makepath .raw_name_mode thing (some rrtype) bailiwick pl
      = .ok ("rdata/raw/".toList ++ thing ++ "/".toList ++ rrtype) ∧
    makepath .ip_mode thing rr bailiwick none
      = .ok ("rdata/ip/".toList ++ thing) ∧
    makepath .ip_mode thing rr bailiwick (some pfx)
      = .ok ("rdata/ip/".toList ++ thing ++ ",".toList ++ pfx) :=
  ⟨rfl, rfl, rfl, rfl, rfl, rfl⟩

theorem terms3 (a b c : CStr) (ha : is_term a) (hb : is_term b) (hc : is_term c) :
    terms (a ++ '/' :: (b ++ '/' :: c)) = [a, b, c] := by
  rw [terms_term_slash a _ ha, terms_term_slash b _ hb, terms_term_end c hc]

theorem terms4 (a b c d : CStr) (ha : is_term a) (hb : is_term b) (hc : is_term c)
    (hd : is_term d) :
    terms (a ++ '/' :: (b ++ '/' :: (c ++ '/' :: d))) = [a, b, c, d] := by
  rw [terms_term_slash a _ ha, terms_term_slash b _ hb, terms_term_slash c _ hc,
    terms_term_end d hd]

theorem terms5 (a b c d e : CStr) (ha : is_term a) (hb : is_term b) (hc : is_term c)
    (hd : is_term d) (he : is_term e) :
    terms (a ++ '/' :: (b ++ '/' :: (c ++ '/' :: (d ++ '/' :: e)))) = [a, b, c, d, e] := by
  rw [terms_term_slash a _ ha, terms_term_slash b _ hb, terms_term_slash c _ hc,
    terms_term_slash d _ hd, terms_term_end e he]

/-- C8 (counterexample): the line `rdata/ip/1.2.3.0,24` is accepted, but
the query does not hold the address as thing and the prefix length as
pfxlen: thing is the whole term `1.2.3.0,24` and pfxlen stays NULL. -/
theorem batch_parse_ip_pfxlen_not_split :
    batch_parse "rdata/ip/1.2.3.0,24".toList
        { mode := .no_mode, thing := none, rrtype := none, bailiwick := none,
          pfxlen := none, after := 0, before := 0 }
      ≠ (none, { mode := .ip_mode, thing := some "1.2.3.0".toList, rrtype := none,
                 bailiwick := none, pfxlen := some "24".toList, after := 0, before := 0 }) ∧
    batch_parse "rdata/ip/1.2.3.0,24".toList
        { mode := .no_mode, thing := none, rrtype := none, bailiwick := none,
          pfxlen := none, after := 0, before := 0 }
      = (none, { mode := .ip_mode, thing := some "1.2.3.0,24".toList, rrtype := none,
                 bailiwick := none, pfxlen := none, after := 0, before := 0 }) := by
  constructor <;> decide

/-- C8 (amended): every batch line of one of the five forms, with non-empty
slash-free components, is accepted by `batch_parse` (the returned message is
NULL) and `*qp` becomes the query with the mode named by the first two terms
and thing, rrtype, bailiwick taken from the following terms; for
`rdata/ip/<addr>,<pfxlen>` the whole term `<addr>,<pfxlen>` is the thing and
pfxlen is left NULL; pfxlen is NULL and after, before are 0 in every case. -/
theorem batch_parse_forms (qp : query) (name rrtype bailiwick addr pfxlen : CStr)
    (hn : is_term name) (ht : is_term rrtype) (hb : is_term bailiwick)
    (ha : is_term addr) (hp : is_term pfxlen) :
    batch_parse ("rrset/name/".toList ++ name) qp
      = (none, { mode := .rrset_mode, thing := some name, rrtype := none,
                 bailiwick := none, pfxlen := none, after := 0, before := 0 }) ∧
    batch_parse ("rrset/name/".toList ++ name ++ "/".toList ++ rrtype) qp
      = (none, { mode := .rrset_mode, thing := some name, rrtype := some rrtype,
                 bailiwick := none, pfxlen := none, after := 0, before := 0 }) ∧
    batch_parse ("rrset/name/".toList ++ name ++ "/".toList ++ rrtype
                  ++ "/".toList ++ bailiwick) qp
      = (none, { mode := .rrset_mode, thing := some name, rrtype := some rrtype,
                 bailiwick := some bailiwick, pfxlen := none, after := 0, before := 0 }) ∧
    batch_parse ("rrset/raw/".toList ++ name) qp
      = (none, { mode := .raw_rrset_mode, thing := some name, rrtype := none,
                 bailiwick := none, pfxlen := none, after := 0, before := 0 }) ∧
    batch_parse ("rrset/raw/".toList ++ name ++ "/".toList ++ rrtype) qp
      = (none, { mode := .raw_rrset_mode, thing := some name, rrtype := some rrtype,
                 bailiwick := none, pfxlen := none, after := 0, before := 0 }) ∧
    batch_parse ("rrset/raw/".toList ++ name ++ "/".toList ++ rrtype
                  ++ "/".toList ++ bailiwick) qp
      = (none, { mode := .raw_rrset_mode, thing := some name, rrtype := some rrtype,
                 bailiwick := some bailiwick, pfxlen := none, after := 0, before := 0 }) ∧
    batch_parse ("rdata/name/".toList ++ name) qp
      = (none, { mode := .name_mode, thing := some name, rrtype := none,
                 bailiwick := none, pfxlen := none, after := 0, before := 0 }) ∧
    batch_parse ("rdata/name/".toList ++ name ++ "/".toList ++ rrtype) qp
      = (none, { mode := .name_mode, thing := some name, rrtype := some rrtype,
                 bailiwick := none, pfxlen := none, after := 0, before := 0 }) ∧
    batch_parse ("rdata/raw/".toList ++ name) qp
      = (none, { mode := .raw_name_mode, thing := some name, rrtype := none,
                 bailiwick := none, pfxlen := none, after := 0, before := 0 }) ∧
    batch_parse ("rdata/raw/".toList ++ name ++ "/".toList ++ rrtype) qp
      = (none, { mode := .raw_name_mode, thing := some name, rrtype := some rrtype,
                 bailiwick := none, pfxlen := none, after := 0, before := 0 }) ∧
    batch_parse ("rdata/ip/".toList ++ addr) qp
      = (none, { mode := .ip_mode, thing := some addr, rrtype := none,
                 bailiwick := none, pfxlen := none, after := 0, before := 0 }) ∧
    batch_parse ("rdata/ip/".toList ++ addr ++ ",".toList ++ pfxlen) qp
      = (none, { mode := .ip_mode, thing := some (addr ++ ",".toList ++ pfxlen),
                 rrtype := none, bailiwick := none, pfxlen := none,
                 after := 0, before := 0 }) := by
  have hrrset : is_term "rrset".toList := by decide
  have hrdata : is_term "rdata".toList := by decide
  have hname : is_term "name".toList := by decide
  have hraw : is_term "raw".toList := by decide
  have hip : is_term "ip".toList := by decide
  have hap := is_term_comma addr pfxlen ha hp
  refine ⟨?_, ?_, ?_, ?_, ?_, ?_, ?_, ?_, ?_, ?_, ?_, ?_⟩
  · have e : "rrset/name/".toList ++ name
        = "rrset".toList ++ '/' :: ("name".toList ++ '/' :: name) := by simp
    rw [batch_parse_eq_parse_terms, e, terms3 _ _ _ hrrset hname hn]
    simp [parse_terms, parsed_query]
  · have e : "rrset/name/".toList ++ name ++ "/".toList ++ rrtype
        = "rrset".toList ++ '/' :: ("name".toList ++ '/' :: (name ++ '/' :: rrtype)) := by
      simp
    rw [batch_parse_eq_parse_terms, e, terms4 _ _ _ _ hrrset hname hn ht]
    simp [parse_terms, parsed_query]
  · have e : "rrset/name/".toList ++ name ++ "/".toList ++ rrtype ++ "/".toList ++ bailiwick
        = "rrset".toList ++ '/' :: ("name".toList ++ '/' :: (name ++ '/' :: (rrtype
            ++ '/' :: bailiwick))) := by
      simp
    rw [batch_parse_eq_parse_terms, e, terms5 _ _ _ _ _ hrrset hname hn ht hb]
    simp [parse_terms, parsed_query]
  · have e : "rrset/raw/".toList ++ name
        = "rrset".toList ++ '/' :: ("raw".toList ++ '/' :: name) := by simp
    rw [batch_parse_eq_parse_terms, e, terms3 _ _ _ hrrset hraw hn]
    simp [parse_terms, parsed_query]
  · have e : "rrset/raw/".toList ++ name ++ "/".toList ++ rrtype
        = "rrset".toList ++ '/' :: ("raw".toList ++ '/' :: (name ++ '/' :: rrtype)) := by
      simp
    rw [batch_parse_eq_parse_terms, e, terms4 _ _ _ _ hrrset hraw hn ht]
    simp [parse_terms, parsed_query]
  · have e : "rrset/raw/".toList ++ name ++ "/".toList ++ rrtype ++ "/".toList ++ bailiwick
        = "rrset".toList ++ '/' :: ("raw".toList ++ '/' :: (name ++ '/' :: (rrtype
            ++ '/' :: bailiwick))) := by
      simp
    rw [batch_parse_eq_parse_terms, e, terms5 _ _ _ _ _ hrrset hraw hn ht hb]
    simp [parse_terms, parsed_query]
  · have e : "rdata/name/".toList ++ name
        = "rdata".toList ++ '/' :: ("name".toList ++ '/' :: name) := by simp
    rw [batch_parse_eq_parse_terms, e, terms3 _ _ _ hrdata hname hn]
    simp [parse_terms, parsed_query]
  · have e : "rdata/name/".toList ++ name ++ "/".toList ++ rrtype
        = "rdata".toList ++ '/' :: ("name".toList ++ '/' :: (name ++ '/' :: rrtype)) := by
      simp
    rw [batch_parse_eq_parse_terms, e, terms4 _ _ _ _ hrdata hname hn ht]
    simp [parse_terms, parsed_query]
  · have e : "rdata/raw/".toList ++ name
        = "rdata".toList ++ '/' :: ("raw".toList ++ '/' :: name) := by simp
    rw [batch_parse_eq_parse_terms, e, terms3 _ _ _ hrdata hraw hn]
    simp [parse_terms, parsed_query]
  · have e : "rdata/raw/".toList ++ name ++ "/".toList ++ rrtype
        = "rdata".toList ++ '/' :: ("raw".toList ++ '/' :: (name ++ '/' :: rrtype)) := by
      simp
    rw [batch_parse_eq_parse_terms, e, terms4 _ _ _ _ hrdata hraw hn ht]
    simp [parse_terms, parsed_query]
  · have e : "rdata/ip/".toList ++ addr
        = "rdata".toList ++ '/' :: ("ip".toList ++ '/' :: addr) := by simp
    rw [batch_parse_eq_parse_terms, e, terms3 _ _ _ hrdata hip ha]
    simp [parse_terms, parsed_query]
  · have e : "rdata/ip/".toList ++ addr ++ ",".toList ++ pfxlen
        = "rdata".toList ++ '/' :: ("ip".toList ++ '/' :: (addr ++ ',' :: pfxlen)) := by
      simp
    rw [batch_parse_eq_parse_terms, e, terms3 _ _ _ hrdata hip hap]
    simp [parse_terms, parsed_query]

/-- Witness of `batch_parse_forms`: name `example.com`, rrtype `A`, bailiwick
`com.`, address `1.2.3.0`, prefix length `24`. -/
theorem batch_parse_forms_witness :
    batch_parse "rrset/name/example.com/A/com.".toList
        { mode := .no_mode, thing := none, rrtype := none, bailiwick := none,
          pfxlen := none, after := 0, before := 0 }
      = (none, { mode := .rrset_mode, thing := some "example.com".toList,
                 rrtype := some "A".toList, bailiwick := some "com.".toList,
                 pfxlen := none, after := 0, before := 0 }) :=
  (batch_parse_forms _ "example.com".toList "A".toList "com.".toList "1.2.3.0".toList
    "24".toList (by decide) (by decide) (by decide) (by decide) (by decide)).2.2.1

theorem parse_terms_cases (qp : query) (ts : List CStr) :
    (accepted_terms ts = false ∧ ∃ msg, parse_terms qp ts = (some msg, qp)) ∨
    (accepted_terms ts = true ∧ (parse_terms qp ts).1 = none) := by
  rcases ts with _ | ⟨t1, ts⟩
  · simp [parse_terms, accepted_terms]
  by_cases c1 : t1 = ['r', 'r', 's', 'e', 't'] <;> by_cases c2 : t1 = ['r', 'd', 'a', 't', 'a']
  · rw [c1] at c2; exact absurd c2 (by decide)
  · rcases ts with _ | ⟨t2, ts⟩
    · simp [parse_terms, accepted_terms, c1]
    by_cases c3 : t2 = ['n', 'a', 'm', 'e'] <;> by_cases c4 : t2 = ['r', 'a', 'w'] <;>
      rcases ts with _ | ⟨t3, _ | ⟨t4, _ | ⟨t5, _ | ⟨t6, l⟩⟩⟩⟩ <;>
      simp [parse_terms, accepted_terms, c1, c3, c4]
  · rcases ts with _ | ⟨t2, ts⟩
    · simp [parse_terms, accepted_terms, c1, c2]
    by_cases c3 : t2 = ['n', 'a', 'm', 'e'] <;> by_cases c4 : t2 = ['r', 'a', 'w'] <;>
      by_cases c5 : t2 = ['i', 'p'] <;>
      rcases ts with _ | ⟨t3, _ | ⟨t4, _ | ⟨t5, l⟩⟩⟩ <;>
      simp [parse_terms, accepted_terms, c1, c2, c3, c4, c5]
  · rcases ts with _ | ⟨t2, _ | ⟨t3, l⟩⟩ <;> simp [parse_terms, accepted_terms, c1, c2]

/-- C9: a line whose terms are not those of one of the five forms (no
terms, unknown first or second term, missing thing, too many terms) makes
`batch_parse` return a non-NULL message with `*qp` unchanged; and whenever
`batch_parse` returns a message, the line is such a line and `*qp` is exactly
what it was before the call. -/
theorem batch_parse_reject_keeps_qp (line : CStr) (qp : query) :
    (accepted_terms (terms line) = false → ∃ msg, batch_parse line qp = (some msg, qp)) ∧
    (∀ msg, (batch_parse line qp).1 = some msg →
      accepted_terms (terms line) = false ∧ (batch_parse line qp).2 = qp) := by
  rw [batch_parse_eq_parse_terms]
  rcases parse_terms_cases qp (terms line) with ⟨h1, msg, h2⟩ | ⟨h1, h2⟩
  · refine ⟨fun _ => ⟨msg, h2⟩, fun m _ => ⟨h1, by rw [h2]⟩⟩
  · refine ⟨fun h => ?_, fun m hm => ?_⟩
    · rw [h1] at h; exact absurd h (by decide)
    · rw [h2] at hm; exact absurd hm (by simp)

/-- Witness of `batch_parse_reject_keeps_qp`: the line `garbage/` is rejected
with "unrecognized initial term" and the caller's query is untouched. -/
theorem batch_parse_reject_keeps_qp_witness :
    (batch_parse "garbage/".toList
        { mode := .ip_mode, thing := some "1.2.3.4".toList, rrtype := none,
          bailiwick := none, pfxlen := none, after := 5, before := 7 }).1
      = some "unrecognized initial term".toList ∧
    (batch_parse "garbage/".toList
        { mode := .ip_mode, thing := some "1.2.3.4".toList, rrtype := none,
          bailiwick := none, pfxlen := none, after := 5, before := 7 }).2
      = { mode := .ip_mode, thing := some "1.2.3.4".toList, rrtype := none,
          bailiwick := none, pfxlen := none, after := 5, before := 7 } :=
  ⟨by decide,
   ((batch_parse_reject_keeps_qp "garbage/".toList _).2
      "unrecognized initial term".toList (by decide)).2⟩

/-! ### Query planner -/

/-- What `launch` returns when the url function of the back-end succeeds: a
reader is started on the URL with its parameters. -/
theorem launch_eq (g : Globals) (env : Env) (command : CStr) (w : writer)
    (first_after first_before last_after last_before : Nat) (u : CStr) (sep : Char)
    (hu : env.sys_url command = some (u, sep)) :
    launch g env command w first_after first_before last_after last_before
      = .ok (reader_launch w (url_with_params u sep (limit_params g.query_limit
              ++ time_params first_after first_before last_after last_before))) := by
  have key : launch_url g env command first_after first_before last_after last_before
      = .ok (url_with_params u sep (limit_params g.query_limit
              ++ time_params first_after first_before last_after last_before)) := by
    unfold launch_url
    rw [hu]
    by_cases h0 : g.query_limit = -1 <;> by_cases h1 : first_after = 0 <;>
      by_cases h2 : first_before = 0 <;> by_cases h3 : last_after = 0 <;>
      by_cases h4 : last_before = 0 <;>
      simp [h0, h1, h2, h3, h4, launch_append, url_with_params, limit_params, time_params]
  unfold launch
  rw [key]

/-- C3: the URL built by `launch` is the URL returned by the back-end's url
function followed by the parameters `limit=<n>` (when a query limit is set)
and then the non-zero time parameters, the first parameter introduced by the
separator the url function returned and every later one by `&`; with no
limit and no time parameter it is exactly the returned URL; `launch` starts a
reader on that URL. -/
theorem launch_url_parameters (g : Globals) (env : Env) (command : CStr) (w : writer)
    (first_after first_before last_after last_before : Nat) (u : CStr) (sep : Char)
    (hu : env.sys_url command = some (u, sep)) :
    launch_url g env command first_after first_before last_after last_before
      = .ok (url_with_params u sep (limit_params g.query_limit
              ++ time_params first_after first_before last_after last_before)) ∧
    launch g env command w first_after first_before last_after last_before
      = .ok (reader_launch w (url_with_params u sep (limit_params g.query_limit
              ++ time_params first_after first_before last_after last_before))) ∧
    (g.query_limit = -1 → first_after = 0 → first_before = 0 → last_after = 0 →
      last_before = 0 →
      launch_url g env command first_after first_before last_after last_before = .ok u) := by
  have key : launch_url g env command first_after first_before last_after last_before
      = .ok (url_with_params u sep (limit_params g.query_limit
              ++ time_params first_after first_before last_after last_before)) := by
    unfold launch_url
    rw [hu]
    by_cases h0 : g.query_limit = -1 <;> by_cases h1 : first_after = 0 <;>
      by_cases h2 : first_before = 0 <;> by_cases h3 : last_after = 0 <;>
      by_cases h4 : last_before = 0 <;>
      simp [h0, h1, h2, h3, h4, launch_append, url_with_params, limit_params, time_params]
  refine ⟨key, ?_, ?_⟩
  · unfold launch; rw [key]
  · intro h0 h1 h2 h3 h4
    rw [key]
    simp [h0, h1, h2, h3, h4, url_with_params, limit_params, time_params]

/-- Witness of `launch_url_parameters`: limit 10, `time_first_after=100`,
`time_last_before=200` on a back-end whose url function prepends
`https://h/lookup/` and returns `?`. -/
theorem launch_url_parameters_witness :
    launch_url { globals0 with query_limit := 10, complete := true } env0
      "rrset/name/a.com".toList 100 0 0 200
    = .ok ("https://h/lookup/rrset/name/a.com".toList ++
            "?limit=10&time_first_after=100&time_last_before=200".toList) :=
  ((launch_url_parameters { globals0 with query_limit := 10, complete := true } env0
      "rrset/name/a.com".toList writer0 100 0 0 200
      "https://h/lookup/rrset/name/a.com".toList '?' rfl).1).trans (by decide)

/-- C2: `query_launcher` starts, on the URL of the path given by `makepath`,
the requests of the table of §4.2 in that order (the reader list is
extended at its head): two requests exactly when after and before are both
non-zero and complete is off, the first carrying only `time_last_after`, the
second only `time_first_before`; one request in every other case, carrying
no time parameter, `time_last_after` or `time_first_after`, `time_first_before`
or `time_last_before`, or both `time_first_after` and `time_last_before`. -/
theorem query_launcher_plan (g : Globals) (env : Env) (q : query) (w : writer)
    (command u : CStr) (sep : Char)
    (hp : makepath q.mode (q.thing.getD "(null)".toList) q.rrtype q.bailiwick q.pfxlen
            = .ok command)
    (hu : env.sys_url command = some (u, sep)) :
    query_launcher g env q w
      = .ok { w with readers :=
                ((planned_requests q.after q.before g.complete).map (fun tp =>
                    ({ url := url_with_params u sep (limit_params g.query_limit ++ tp),
                       easy := true, buf := [], rcode := 0 } : reader))).reverse
                ++ w.readers } ∧
    (planned_requests q.after q.before g.complete).length
      = (if q.after ≠ 0 ∧ q.before ≠ 0 ∧ g.complete = false then 2 else 1) ∧
    (q.after ≠ 0 → q.before ≠ 0 → g.complete = false →
      planned_requests q.after q.before g.complete
        = [["time_last_after=".toList ++ fmt_lu q.after],
           ["time_first_before=".toList ++ fmt_lu q.before]]) := by
  have L := fun (w : writer) (a b c d : Nat) =>
    launch_eq g env command w a b c d u sep hu
  refine ⟨?_, ?_, ?_⟩
  · unfold query_launcher
    rw [hp]
    by_cases ha : q.after = 0 <;> by_cases hb : q.before = 0 <;>
      cases hc : g.complete <;>
      simp [ha, hb, L, planned_requests, time_params, reader_launch]
  · by_cases ha : q.after = 0 <;> by_cases hb : q.before = 0 <;>
      cases hc : g.complete <;> simp [ha, hb, planned_requests]
  · intro ha hb hc
    simp [ha, hb, hc, planned_requests]

/-- Witness of `query_launcher_plan`: after 100, before 200, complete off:
two requests, `time_last_after=100` first and `time_first_before=200` second
(the reader list holds them newest first). -/
theorem query_launcher_plan_witness :
    query_launcher globals0 env0
      { query0 with mode := .rrset_mode, thing := some "a.com".toList,
                    after := 100, before := 200 }
      writer0
    = .ok { writer0 with readers :=
              [{ url := "https://h/lookup/rrset/name/a.com?time_first_before=200".toList,
                 easy := true, buf := [], rcode := 0 },
               { url := "https://h/lookup/rrset/name/a.com?time_last_after=100".toList,
                 easy := true, buf := [], rcode := 0 }] } :=
  ((query_launcher_plan globals0 env0
      { query0 with mode := .rrset_mode, thing := some "a.com".toList,
                    after := 100, before := 200 }
      writer0 "rrset/name/a.com".toList "https://h/lookup/rrset/name/a.com".toList
      '?' (by decide) rfl).1).trans (by decide)

/-! ### Time fence -/

theorem timecmp_neg (a b : Nat) : timecmp a b < 0 ↔ a < b := by
  unfold timecmp; split_ifs <;> simp_all

theorem timecmp_pos (a b : Nat) : timecmp a b > 0 ↔ a > b := by
  unfold timecmp; split_ifs <;> simp_all; omega

/-- The fence of `input_blob` selects a record exactly when the acceptance
condition holds. -/
theorem input_blob_whynot_none_iff (complete : Bool) (first last after before : Nat) :
    input_blob_whynot complete first last after before = none
      ↔ fence_accepts complete first last after before := by
  unfold input_blob_whynot fence_accepts
  simp only [timecmp_neg, timecmp_pos]
  cases complete <;> by_cases ha : after = 0 <;> by_cases hb : before = 0 <;>
    by_cases h1 : first < after <;> by_cases h2 : last < after <;>
    by_cases h3 : first > before <;> by_cases h4 : last > before <;>
    simp [ha, hb, h1, h2, h3, h4] <;> omega

/-- The output stage returns 1 whenever it returns. -/
theorem input_blob_emit_ret (g : Globals) (env : Env) (tup : pdns_tuple) (first last : Nat)
    (buf : Bytes) (r : blob_result) (h : input_blob_emit g env tup first last buf = .ok r) :
    r.ret = 1 := by
  unfold input_blob_emit at h
  by_cases hs : g.sorted ≠ .no_sort
  · rw [if_pos hs] at h
    cases hn : input_blob_rrname g tup with
    | error e => rw [hn] at h; simp at h
    | ok n =>
      rw [hn] at h
      cases hd : input_blob_rdata g env tup with
      | error e => rw [hd] at h; simp at h
      | ok d =>
        rw [hd] at h
        simp only [Except.ok.injEq] at h
        rw [← h]
  · rw [if_neg hs] at h
    simp only [Except.ok.injEq] at h
    rw [← h]

/-- C1: for a record that `tuple_make` parses, with `(first, last)` the
interval selected from the tuple: `input_blob` drops the record (returns 0,
nothing written to the output) if and only if the fence condition fails;
when it holds the record goes to the output stage, which returns 1 whenever
it returns, and with sorting off returns 1 after handing the record to the
presenter. -/
theorem input_blob_time_fence (g : Globals) (env : Env) (buf : Bytes) (tup : pdns_tuple)
    (after before : Nat) (hp : env.tuple_make buf = .ok tup) :
    (¬ fence_accepts g.complete (tuple_interval tup).1 (tuple_interval tup).2 after before
      ↔ input_blob g env buf after before = .ok { ret := 0, out := [], err := [] }) ∧
    (fence_accepts g.complete (tuple_interval tup).1 (tuple_interval tup).2 after before →
      input_blob g env buf after before
        = input_blob_emit g env tup (tuple_interval tup).1 (tuple_interval tup).2 buf ∧
      (∀ r, input_blob g env buf after before = .ok r → r.ret = 1) ∧
      (g.sorted = .no_sort →
        input_blob g env buf after before
          = .ok { ret := 1, out := env.pres tup buf, err := [] })) := by
  have hacc : fence_accepts g.complete (tuple_interval tup).1 (tuple_interval tup).2
      after before →
      input_blob g env buf after before
        = input_blob_emit g env tup (tuple_interval tup).1 (tuple_interval tup).2 buf := by
    intro hf
    unfold input_blob
    rw [hp]
    simp only
    rw [(input_blob_whynot_none_iff _ _ _ _ _).mpr hf]
  have hrej : ¬ fence_accepts g.complete (tuple_interval tup).1 (tuple_interval tup).2
      after before →
      input_blob g env buf after before = .ok { ret := 0, out := [], err := [] } := by
    intro hf
    unfold input_blob
    rw [hp]
    simp only
    cases hw : input_blob_whynot g.complete (tuple_interval tup).1 (tuple_interval tup).2
        after before with
    | none => exact absurd ((input_blob_whynot_none_iff _ _ _ _ _).mp hw) hf
    | some m => rfl
  refine ⟨⟨hrej, ?_⟩, fun hf => ⟨hacc hf, ?_, ?_⟩⟩
  · intro h0 hf
    rw [hacc hf] at h0
    have := input_blob_emit_ret _ _ _ _ _ _ _ h0
    simp at this
  · intro r hr
    rw [hacc hf] at hr
    exact input_blob_emit_ret _ _ _ _ _ _ _ hr
  · intro hs
    rw [hacc hf]
    simp [input_blob_emit, hs]

/-- Witness of `input_blob_time_fence`: fence 100..200, overlap mode, a
record with on-wire times 150 and 180 is presented and counted. -/
theorem input_blob_time_fence_witness :
    input_blob globals0 env0 "{}".toList 100 200
      = .ok { ret := 1, out := "{}\n".toList, err := [] } :=
  (((input_blob_time_fence globals0 env0 "{}".toList
      { tuple0 with time_first := 150, time_last := 180 } 100 200 rfl).2
      (by decide)).2.2 rfl).trans (by decide)

/-! ### NDJSON deframing -/

theorem memchr_nl_none (b : Bytes) (h : '\n' ∉ b) : memchr_nl b = none := by
  simp [memchr_nl, h]

theorem memchr_nl_append (r x : Bytes) (h : '\n' ∉ r) :
    memchr_nl (r ++ '\n' :: x) = some r.length := by
  have h1 := takeWhile_append_stop (fun c => decide (c ≠ '\n')) r '\n' x
    (fun c hc => by
      have : c ≠ '\n' := fun e => h (e ▸ hc)
      simp [this]) (by simp)
  unfold memchr_nl
  rw [if_pos (by simp), h1]

/-- Every buffer is newline-free or a newline-free record, a newline and a
further buffer. -/
theorem bytes_nl_induction (P : Bytes → Prop) (h0 : ∀ b, '\n' ∉ b → P b)
    (h1 : ∀ r x, '\n' ∉ r → P x → P (r ++ '\n' :: x)) : ∀ b, P b := by
  have key : ∀ b r, '\n' ∉ r → P (r ++ b) := by
    intro b
    induction b with
    | nil => intro r hr; simpa using h0 r hr
    | cons c b ih =>
      intro r hr
      by_cases hc : c = '\n'
      · rw [hc]; exact h1 r b hr (by simpa using ih [] (by simp))
      · have : r ++ c :: b = (r ++ [c]) ++ b := by simp
        rw [this]
        apply ih
        simp only [List.mem_append, List.mem_singleton, not_or]
        exact ⟨hr, fun e => hc e.symm⟩
  intro b
  simpa using key b [] (by simp)

theorem lines_of_none (b : Bytes) (h : '\n' ∉ b) : lines_of b = [] := by
  rw [lines_of]
  split
  · rfl
  · rename_i k hk; rw [memchr_nl_none b h] at hk; simp at hk

theorem rest_of_none (b : Bytes) (h : '\n' ∉ b) : rest_of b = b := by
  rw [rest_of]
  split
  · rfl
  · rename_i k hk; rw [memchr_nl_none b h] at hk; simp at hk

theorem lines_of_cons (r x : Bytes) (h : '\n' ∉ r) :
    lines_of (r ++ '\n' :: x) = r :: lines_of x := by
  rw [lines_of]
  split
  · rename_i hk; rw [memchr_nl_append r x h] at hk; simp at hk
  · rename_i k hk
    rw [memchr_nl_append r x h] at hk
    simp only [Option.some.injEq] at hk
    subst hk
    simp

theorem rest_of_cons (r x : Bytes) (h : '\n' ∉ r) :
    rest_of (r ++ '\n' :: x) = rest_of x := by
  rw [rest_of]
  split
  · rename_i hk; rw [memchr_nl_append r x h] at hk; simp at hk
  · rename_i k hk
    rw [memchr_nl_append r x h] at hk
    simp only [Option.some.injEq] at hk
    subst hk
    simp

theorem rest_of_no_newline (b : Bytes) : '\n' ∉ rest_of b := by
  revert b
  apply bytes_nl_induction
  · intro b hb; rw [rest_of_none b hb]; exact hb
  · intro r x hr ih; rw [rest_of_cons r x hr]; exact ih

theorem lines_of_append (x y : Bytes) :
    lines_of (x ++ y) = lines_of x ++ lines_of (rest_of x ++ y) ∧
    rest_of (x ++ y) = rest_of (rest_of x ++ y) := by
  revert x
  apply bytes_nl_induction
  · intro b hb
    rw [lines_of_none b hb, rest_of_none b hb]
    simp
  · intro r x hr ih
    have e : r ++ '\n' :: x ++ y = r ++ '\n' :: (x ++ y) := by simp
    rw [e, lines_of_cons r _ hr, rest_of_cons r _ hr, lines_of_cons r _ hr,
      rest_of_cons r _ hr, ih.1, ih.2]
    simp

theorem lines_of_length_le (b : Bytes) : (lines_of b).length ≤ b.length := by
  revert b
  apply bytes_nl_induction
  · intro b hb; rw [lines_of_none b hb]; simp
  · intro r x hr ih
    rw [lines_of_cons r x hr]
    simp only [List.length_cons, List.length_append]
    omega

theorem lines_of_stream (records : List Bytes) (residue : Bytes)
    (hrec : ∀ r ∈ records, '\n' ∉ r) (hres : '\n' ∉ residue) :
    lines_of (ndjson_stream records residue) = records ∧
    rest_of (ndjson_stream records residue) = residue := by
  induction records with
  | nil => simp [ndjson_stream, lines_of_none _ hres, rest_of_none _ hres]
  | cons r rs ih =>
    have hr : '\n' ∉ r := hrec r (by simp)
    have ih' := ih (fun q hq => hrec q (by simp [hq]))
    have e : ndjson_stream (r :: rs) residue = r ++ '\n' :: ndjson_stream rs residue := by
      simp [ndjson_stream]
    rw [e, lines_of_cons r _ hr, rest_of_cons r _ hr, ih'.1, ih'.2]
    simp

theorem exists_first_newline (b : Bytes) (h : '\n' ∈ b) :
    ∃ r x, '\n' ∉ r ∧ b = r ++ '\n' :: x := by
  revert h b
  apply bytes_nl_induction
  · intro b hb h; exact absurd h hb
  · intro r x hr _ _; exact ⟨r, x, hr, rfl⟩

theorem input_blob_ret (g : Globals) (env : Env) (buf : Bytes) (after before : Nat)
    (x : blob_result) (h : input_blob g env buf after before = .ok x) :
    x.ret = 0 ∨ x.ret = 1 := by
  unfold input_blob at h
  split at h
  · simp only [Except.ok.injEq] at h; left; rw [← h]
  · split at h
    · simp only [Except.ok.injEq] at h; left; rw [← h]
    · right; exact input_blob_emit_ret _ _ _ _ _ _ _ h

/-- With sorting off `input_blob` always returns. -/
theorem input_blob_total_unsorted (g : Globals) (env : Env) (buf : Bytes)
    (after before : Nat) (hs : g.sorted = .no_sort) :
    ∃ x, input_blob g env buf after before = .ok x := by
  unfold input_blob
  cases env.tuple_make buf with
  | error msg => exact ⟨_, rfl⟩
  | ok tup =>
    simp only
    cases input_blob_whynot g.complete (tuple_interval tup).1 (tuple_interval tup).2
        after before with
    | some m => exact ⟨_, rfl⟩
    | none => simp [input_blob_emit, hs]

theorem deliver_append (g : Globals) (env : Env) (after before : Nat) (l1 l2 : List Bytes)
    (w : writer) (p : Proc) :
    deliver g env after before (l1 ++ l2) w p
      = match deliver g env after before l1 w p with
        | .error e => .error e
        | .ok (w1, p1) => deliver g env after before l2 w1 p1 := by
  induction l1 generalizing w p with
  | nil => simp [deliver]
  | cons r rs ih =>
    simp only [List.cons_append, deliver]
    cases input_blob g env r after before with
    | error e => rfl
    | ok x => exact ih _ _

/-- What handing records over changes: the count grows by at most one per
record, the trace grows by the records, the rest of the writer is kept. -/
theorem deliver_ok (g : Globals) (env : Env) (after before : Nat) (ls : List Bytes)
    (w w1 : writer) (p p1 : Proc)
    (h : deliver g env after before ls w p = .ok (w1, p1)) :
    w1.count ≤ w.count + ls.length ∧ w.count ≤ w1.count ∧ w1.after = w.after ∧
    w1.before = w.before ∧ p1.blobs = p.blobs ++ ls ∧ w1.readers = w.readers ∧
    w1.status = w.status ∧ w1.message = w.message ∧ w1.once = w.once := by
  induction ls generalizing w p with
  | nil =>
    simp only [deliver, Except.ok.injEq, Prod.mk.injEq] at h
    obtain ⟨rfl, rfl⟩ := h
    simp
  | cons r rs ih =>
    simp only [deliver] at h
    cases hx : input_blob g env r after before with
    | error e => rw [hx] at h; simp at h
    | ok x =>
      rw [hx] at h
      have hret := input_blob_ret _ _ _ _ _ _ hx
      obtain ⟨h1, h2, h3, h4, h5, h6, h7, h8, h9⟩ := ih _ _ h
      simp only at h1 h2 h3 h4 h5 h6 h7 h8 h9
      refine ⟨?_, ?_, h3, h4, ?_, h6, h7, h8, h9⟩
      · simp only [List.length_cons, Nat.cast_add, Nat.cast_one]; omega
      · omega
      · rw [h5]; simp

/-- The loop of `writer_func` hands the complete lines of the buffer to the
record pipeline, in order, and leaves the bytes after the last newline. -/
theorem writer_func_loop_eq (g : Globals) (env : Env) (after before : Nat)
    (hinfo : g.info = false) :
    ∀ (fuel : Nat) (rd : reader) (w : writer) (p : Proc),
      (lines_of rd.buf).length < fuel →
      cap_not_reached g w (lines_of rd.buf).length →
      writer_func_loop g env after before fuel rd w p
        = match deliver g env after before (lines_of rd.buf) w p with
          | .error e => .error e
          | .ok (w1, p1) => .ok ({ rd with buf := rest_of rd.buf }, w1, p1) := by
  intro fuel
  induction fuel with
  | zero => intro rd w p h; exact absurd h (by omega)
  | succ fuel ih =>
    intro rd w p hfuel hcap
    obtain ⟨url, easy, buf, rcode⟩ := rd
    simp only at hfuel hcap ⊢
    by_cases hb : '\n' ∈ buf
    · obtain ⟨r, x, hr, rfl⟩ := exists_first_newline buf hb
      rw [lines_of_cons r x hr] at hfuel hcap ⊢
      rw [rest_of_cons r x hr]
      simp only [writer_func_loop, memchr_nl_append r x hr, hinfo]
      have hnocap : ¬ (g.sorted = .no_sort ∧ g.output_limit ≠ -1
          ∧ w.count ≥ g.output_limit) := by
        rintro ⟨c1, c2, c3⟩
        rcases hcap with h | h | h
        · exact h c1
        · exact c2 h
        · simp only [List.length_cons, Nat.cast_add, Nat.cast_one] at h; omega
      simp only [Bool.false_eq_true, if_false, hnocap, List.take_left', List.drop_left',
        List.take_append_eq_append_take, List.take_length, deliver]
      have hdrop : List.drop (r.length + 1) (r ++ '\n' :: x) = x := by
        rw [List.drop_append_eq_append_drop]
        simp
      rw [hdrop]
      cases hx : input_blob g env r after before with
      | error e => rfl
      | ok y =>
        have hret := input_blob_ret _ _ _ _ _ _ hx
        simp only
        refine ih { url := url, easy := easy, buf := x, rcode := rcode } _ _ ?_ ?_
        · simp only [List.length_cons] at hfuel; simp only; omega
        · rcases hcap with h | h | h
          · exact Or.inl h
          · exact Or.inr (Or.inl h)
          · right; right
            simp only [List.length_cons, Nat.cast_add, Nat.cast_one] at h
            simp only
            omega
    · rw [lines_of_none buf hb, rest_of_none buf hb]
      simp [writer_func_loop, memchr_nl_none buf hb, deliver]

theorem deliver_total (g : Globals) (env : Env) (after before : Nat) (ls : List Bytes)
    (h : ∀ r ∈ ls, ∃ x, input_blob g env r after before = .ok x) (w : writer) (p : Proc) :
    ∃ w1 p1, deliver g env after before ls w p = .ok (w1, p1) := by
  induction ls generalizing w p with
  | nil => exact ⟨w, p, rfl⟩
  | cons r rs ih =>
    obtain ⟨x, hx⟩ := h r (by simp)
    simp only [deliver, hx]
    exact ih (fun q hq => h q (by simp [hq])) _ _

/-- One call of `writer_func` on a reader without HTTP error, info mode off
and no cap reached: the complete lines of the old buffer followed by the
chunk are handed over and the bytes after the last newline are kept. -/
theorem writer_func_eq (g : Globals) (env : Env) (ptr : Bytes) (code : Int) (rd : reader)
    (w : writer) (p : Proc) (hinfo : g.info = false)
    (hhttp : rd.easy = false ∨ rd.rcode = 200 ∨ (rd.rcode = 0 ∧ code = 200))
    (hcap : cap_not_reached g w (lines_of (rd.buf ++ ptr)).length) :
    writer_func g env ptr code rd w p
      = match deliver g env w.after w.before (lines_of (rd.buf ++ ptr)) w p with
        | .error e => .error e
        | .ok (w1, p1) =>
          .ok (ptr.length,
               { rd with buf := rest_of (rd.buf ++ ptr),
                         rcode := if rd.easy ∧ rd.rcode = 0 then code else rd.rcode },
               w1, p1) := by
  obtain ⟨url, easy, buf, rcode⟩ := rd
  simp only at hhttp hcap ⊢
  have hok : ¬ (easy = true ∧ (if easy = true ∧ rcode = 0 then code else rcode) ≠ 200) := by
    rintro ⟨he, hne⟩
    rcases hhttp with h | h | ⟨h1, h2⟩
    · rw [he] at h; exact absurd h (by decide)
    · rw [h] at hne; simp at hne
    · simp [he, h1, h2] at hne
  unfold writer_func
  by_cases hc : easy = true ∧ rcode = 0
  · simp only [hc, and_self, if_true] at hok ⊢
    rw [if_neg (by simpa using hok)]
    rw [writer_func_loop_eq g env _ _ hinfo _ _ _ _
      (by simp only; exact Nat.lt_succ_of_le (lines_of_length_le _)) (by simpa using hcap)]
    cases deliver g env w.after w.before (lines_of (buf ++ ptr)) w p with
    | error e => rfl
    | ok st => rfl
  · simp only [hc, if_false] at hok ⊢
    rw [if_neg (by simpa using hok)]
    rw [writer_func_loop_eq g env _ _ hinfo _ _ _ _
      (by simp only; exact Nat.lt_succ_of_le (lines_of_length_le _)) (by simpa using hcap)]
    cases deliver g env w.after w.before (lines_of (buf ++ ptr)) w p with
    | error e => rfl
    | ok st => rfl

theorem cap_not_reached_mono (g : Globals) (w w1 : writer) (n m k : Nat)
    (h : cap_not_reached g w n) (hc : w1.count ≤ w.count + k) (hn : k + m ≤ n) :
    cap_not_reached g w1 m := by
  rcases h with h | h | h
  · exact Or.inl h
  · exact Or.inr (Or.inl h)
  · right; right
    have : (w1.count : Int) + (m : Int) ≤ w.count + (n : Int) := by
      have : ((k + m : Nat) : Int) ≤ (n : Int) := by exact_mod_cast hn
      push_cast at this
      omega
    omega

/-- Any sequence of chunks fed to a reader whose buffer holds no newline:
the complete lines of the buffer followed by the chunks are handed over in
order, and the bytes after the last newline are kept. -/
theorem writer_func_chunks_eq (g : Globals) (env : Env) (hinfo : g.info = false) :
    ∀ (chunks : List (Bytes × Int)) (rd : reader) (w : writer) (p : Proc),
      '\n' ∉ rd.buf →
      no_http_error rd chunks →
      cap_not_reached g w (lines_of (rd.buf ++ (chunks.map Prod.fst).flatten)).length →
      ∃ rc, (rd.easy = false → rc = rd.rcode) ∧
        writer_func_chunks g env chunks rd w p
        = match deliver g env w.after w.before
                  (lines_of (rd.buf ++ (chunks.map Prod.fst).flatten)) w p with
          | .error e => .error e
          | .ok (w1, p1) =>
            .ok ({ rd with buf := rest_of (rd.buf ++ (chunks.map Prod.fst).flatten),
                           rcode := rc }, w1, p1) := by
  intro chunks
  induction chunks with
  | nil =>
    intro rd w p hbuf _ _
    refine ⟨rd.rcode, fun _ => rfl, ?_⟩
    simp [writer_func_chunks, lines_of_none _ hbuf, rest_of_none _ hbuf, deliver]
  | cons c cs ih =>
    intro rd w p hbuf hhttp hcap
    obtain ⟨ptr, code⟩ := c
    have hflat : rd.buf ++ (((ptr, code) :: cs).map Prod.fst).flatten
        = (rd.buf ++ ptr) ++ (cs.map Prod.fst).flatten := by simp
    rw [hflat] at hcap ⊢
    have hl := lines_of_append (rd.buf ++ ptr) (cs.map Prod.fst).flatten
    rw [hl.1] at hcap ⊢
    rw [hl.2]
    have hhttp1 : rd.easy = false ∨ rd.rcode = 200 ∨ (rd.rcode = 0 ∧ code = 200) := by
      rcases hhttp with h | h | ⟨h1, h2⟩
      · exact Or.inl h
      · exact Or.inr (Or.inl h)
      · exact Or.inr (Or.inr ⟨h1, h2 (ptr, code) (by simp)⟩)
    have hcap1 : cap_not_reached g w (lines_of (rd.buf ++ ptr)).length :=
      cap_not_reached_mono g w w _ _ 0 hcap (by simp) (by simp)
    simp only [writer_func_chunks]
    rw [writer_func_eq g env ptr code rd w p hinfo hhttp1 hcap1, deliver_append]
    cases hd : deliver g env w.after w.before (lines_of (rd.buf ++ ptr)) w p with
    | error e => exact ⟨rd.rcode, fun _ => rfl, rfl⟩
    | ok st =>
      obtain ⟨w1, p1⟩ := st
      have hok := deliver_ok _ _ _ _ _ _ _ _ _ hd
      simp only
      have hhttp2 : no_http_error
          { rd with buf := rest_of (rd.buf ++ ptr),
                    rcode := if rd.easy ∧ rd.rcode = 0 then code else rd.rcode } cs := by
        rcases hhttp with h | h | ⟨h1, h2⟩
        · exact Or.inl h
        · right; left; simp [h]
        · have hcode : code = 200 := h2 (ptr, code) (by simp)
          by_cases he : rd.easy = true
          · right; left; simp [he, h1, hcode]
          · left; simpa using he
      have hcap2 : cap_not_reached g w1
          (lines_of (rest_of (rd.buf ++ ptr) ++ (cs.map Prod.fst).flatten)).length :=
        cap_not_reached_mono g w w1 _ _ (lines_of (rd.buf ++ ptr)).length hcap
          (by exact_mod_cast hok.1) (by simp)
      obtain ⟨rc, hrc0, hrc⟩ := ih
        { rd with buf := rest_of (rd.buf ++ ptr),
                  rcode := if rd.easy ∧ rd.rcode = 0 then code else rd.rcode }
        w1 p1 (rest_of_no_newline _) hhttp2 hcap2
      refine ⟨rc, fun he => ?_, ?_⟩
      · rw [hrc0 he]; simp [he]
      · rw [hrc, hok.2.2.1, hok.2.2.2.1]

/-- C4: NDJSON deframing does not depend on the chunking. For newline-free
records and residue, and any split of the stream "records, each followed by
a newline, then residue" into chunks fed one by one to `writer_func` on a
fresh reader (no HTTP error, info mode off, no output cap reached):
the outcome is that of handing the records one by one, in order, to
`input_blob`, with the residue left in the buffer; when sorting is off, or
whenever `input_blob` returns on every record, the calls return and the
records handed over are exactly the given records; after each call the
buffer holds no newline and only whole leading records have been handed
over. The same holds for the `-J` path: whatever the sizes of the reads,
`ruminate_json` hands the records over one by one and finishes the writer
with the residue stranded in the reader. -/
theorem ndjson_deframing (g : Globals) (env : Env) (records : List Bytes) (residue : Bytes)
    (chunks : List (Bytes × Int)) (rd : reader) (w : writer) (p : Proc)
    (hrec : ∀ r ∈ records, '\n' ∉ r) (hres : '\n' ∉ residue)
    (hjoin : (chunks.map Prod.fst).flatten = ndjson_stream records residue)
    (hbuf : rd.buf = []) (hinfo : g.info = false) (hhttp : no_http_error rd chunks)
    (hcap : cap_not_reached g w records.length) :
    (∃ rc, writer_func_chunks g env chunks rd w p
      = match deliver g env w.after w.before records w p with
        | .error e => .error e
        | .ok (w1, p1) => .ok ({ rd with buf := residue, rcode := rc }, w1, p1)) ∧
    ((g.sorted = .no_sort ∨ ∀ r ∈ records, ∃ x, input_blob g env r w.after w.before = .ok x) →
      ∃ rd1 w1 p1, writer_func_chunks g env chunks rd w p = .ok (rd1, w1, p1) ∧
        p1.blobs = p.blobs ++ records ∧ rd1.buf = residue) ∧
    (∀ k rd1 w1 p1, writer_func_chunks g env (chunks.take k) rd w p = .ok (rd1, w1, p1) →
      '\n' ∉ rd1.buf ∧ ∃ n, p1.blobs = p.blobs ++ records.take n) ∧
    (∀ (reads : List Bytes) (after before : Nat),
      reads.flatten = ndjson_stream records residue →
      cap_not_reached g { writer_init g after before with readers := [reader0] }
        records.length →
      ruminate_json g env reads after before p
        = match deliver g env after before records
                  { writer_init g after before with readers := [reader0] } p with
          | .error e => .error e
          | .ok (w1, p1) =>
            writer_fini g env { w1 with readers := [{ reader0 with buf := residue }] } p1) := by
  have hls := lines_of_stream records residue hrec hres
  have hnl : '\n' ∉ rd.buf := by rw [hbuf]; simp
  have hall : rd.buf ++ (chunks.map Prod.fst).flatten = ndjson_stream records residue := by
    rw [hbuf, hjoin]; simp
  have hmain := writer_func_chunks_eq g env hinfo chunks rd w p hnl hhttp
    (by rw [hall, hls.1]; exact hcap)
  rw [hall, hls.1, hls.2] at hmain
  obtain ⟨rc0, _, hmain⟩ := hmain
  have hmain : ∃ rc, writer_func_chunks g env chunks rd w p
      = match deliver g env w.after w.before records w p with
        | .error e => .error e
        | .ok (w1, p1) => .ok ({ rd with buf := residue, rcode := rc }, w1, p1) :=
    ⟨rc0, hmain⟩
  refine ⟨hmain, ?_, ?_, ?_⟩
  · intro htot
    have htot : ∀ r ∈ records, ∃ x, input_blob g env r w.after w.before = .ok x := by
      rcases htot with hs | h
      · exact fun r _ => input_blob_total_unsorted g env r _ _ hs
      · exact h
    obtain ⟨rc, hrc⟩ := hmain
    obtain ⟨w1, p1, hd⟩ := deliver_total g env w.after w.before records htot w p
    rw [hd] at hrc
    exact ⟨_, w1, p1, hrc, (deliver_ok _ _ _ _ _ _ _ _ _ hd).2.2.2.2.1, rfl⟩
  · intro k rd1 w1 p1 hk
    have hsplit : (chunks.map Prod.fst).flatten
        = ((chunks.take k).map Prod.fst).flatten ++ ((chunks.drop k).map Prod.fst).flatten := by
      rw [← List.flatten_append, ← List.map_append, List.take_append_drop]
    have hl := lines_of_append (((chunks.take k).map Prod.fst).flatten)
      (((chunks.drop k).map Prod.fst).flatten)
    rw [← hsplit, hjoin, hls.1] at hl
    have hhttpk : no_http_error rd (chunks.take k) := by
      rcases hhttp with h | h | ⟨h1, h2⟩
      · exact Or.inl h
      · exact Or.inr (Or.inl h)
      · exact Or.inr (Or.inr ⟨h1, fun c hc => h2 c (List.mem_of_mem_take hc)⟩)
    have hcapk : cap_not_reached g w
        (lines_of (rd.buf ++ ((chunks.take k).map Prod.fst).flatten)).length := by
      rw [hbuf, List.nil_append]
      refine cap_not_reached_mono g w w records.length _ 0 hcap (by simp) ?_
      have := congrArg List.length hl.1
      simp only [List.length_append] at this
      omega
    obtain ⟨rc, _, hrc⟩ := writer_func_chunks_eq g env hinfo (chunks.take k) rd w p hnl
      hhttpk hcapk
    rw [hk, hbuf, List.nil_append] at hrc
    cases hd : deliver g env w.after w.before
        (lines_of ((chunks.take k).map Prod.fst).flatten) w p with
    | error e => rw [hd] at hrc; simp at hrc
    | ok st =>
      obtain ⟨w2, p2⟩ := st
      rw [hd] at hrc
      simp only [Except.ok.injEq, Prod.mk.injEq] at hrc
      obtain ⟨h1, h2, h3⟩ := hrc
      refine ⟨?_, (lines_of ((chunks.take k).map Prod.fst).flatten).length, ?_⟩
      · rw [h1]; exact rest_of_no_newline _
      · rw [h3, (deliver_ok _ _ _ _ _ _ _ _ _ hd).2.2.2.2.1]
        congr 1
        conv_rhs => rw [hl.1]
        rw [List.take_left']
        rfl
  · intro reads after before hreads hcapj
    have hmapfst : ((reads.map (fun b => ((b, 0) : Bytes × Int))).map Prod.fst) = reads := by
      rw [List.map_map]; exact List.map_id _
    obtain ⟨rc, hrc0, hrc⟩ := writer_func_chunks_eq g env hinfo
      (reads.map (fun b => (b, 0))) reader0
      { writer_init g after before with readers := [reader0] } p
      (by simp [reader0]) (Or.inl rfl)
      (by
        rw [hmapfst]
        simp only [reader0, List.nil_append]
        rw [hreads, hls.1]
        exact hcapj)
    rw [hmapfst] at hrc
    simp only [reader0, List.nil_append] at hrc hrc0
    rw [hreads, hls.1, hls.2, hrc0 trivial] at hrc
    unfold ruminate_json
    simp only [reader0]
    rw [hrc]
    simp only [writer_init]
    generalize deliver g env _ _ records _ p = d
    cases d with
    | error e => rfl
    | ok st => rfl

/-- Witness of `ndjson_deframing`: the stream `one\ntwo\nthr` arrives as the
chunks `one\nt` and `wo\nthr` on the reader of the `-J` path; the records
`one` and `two` are handed over and `thr` stays in the buffer. -/
theorem ndjson_deframing_witness :
    ∃ rd1 w1 p1,
      writer_func_chunks globals0 env0 [("one\nt".toList, 0), ("wo\nthr".toList, 0)]
        reader0 writer0 proc0 = .ok (rd1, w1, p1) ∧
      p1.blobs = proc0.blobs ++ ["one".toList, "two".toList] ∧ rd1.buf = "thr".toList :=
  (ndjson_deframing globals0 env0 ["one".toList, "two".toList] "thr".toList
    [("one\nt".toList, 0), ("wo\nthr".toList, 0)] reader0 writer0 proc0
    (by decide) (by decide) (by decide) rfl rfl (Or.inl rfl) (Or.inr (Or.inl rfl))).2.1
    (Or.inl rfl)

/-! ### Batch driver -/

/-- C10 (as the code behaves): in merge mode the writer is shared by all
lines, so the second line of a batch that fails to parse calls
`writer_status` on a writer that already has the status PARSE, and the
assertion `writer->status == NULL` fails: `do_batch` does not continue with
the next line. With the same two lines and merge off each line has its own
writer, both get the status PARSE and the batch runs to its end. -/
theorem do_batch_merge_second_parse_failure :
    do_batch { globals0 with merge := true, batching := .batch_original } env0
        ["x\n".toList, "y\n".toList] 0 0 [] proc0
      = .error (.assertion "writer->status == NULL") ∧
    do_batch { globals0 with merge := false, batching := .batch_original } env0
        ["x\n".toList, "y\n".toList] 0 0 [] proc0
      = .ok { proc0 with
          stdout := "--\n--\n".toList,
          stderr := ("dnsdbq: batch line status: PARSE (unrecognized initial term)\n"
                      ++ "dnsdbq: batch line status: PARSE (unrecognized initial term)\n").toList } := by
  constructor <;> decide

/-! ### Effective interval -/

/-- A parsed record is dropped exactly when the fence rejects its interval,
and goes to the output stage otherwise. -/
theorem input_blob_fence_iff (g : Globals) (env : Env) (buf : Bytes) (tup : pdns_tuple)
    (after before : Nat) (hp : env.tuple_make buf = .ok tup) :
    (¬ fence_accepts g.complete (tuple_interval tup).1 (tuple_interval tup).2 after before
      ↔ input_blob g env buf after before = .ok { ret := 0, out := [], err := [] }) ∧
    (fence_accepts g.complete (tuple_interval tup).1 (tuple_interval tup).2 after before →
      input_blob g env buf after before
        = input_blob_emit g env tup (tuple_interval tup).1 (tuple_interval tup).2 buf) := by
  have hacc : fence_accepts g.complete (tuple_interval tup).1 (tuple_interval tup).2
      after before →
      input_blob g env buf after before
        = input_blob_emit g env tup (tuple_interval tup).1 (tuple_interval tup).2 buf := by
    intro hf
    unfold input_blob
    rw [hp]
    simp only
    rw [(input_blob_whynot_none_iff _ _ _ _ _).mpr hf]
  refine ⟨⟨?_, ?_⟩, hacc⟩
  · intro hf
    unfold input_blob
    rw [hp]
    simp only
    cases hw : input_blob_whynot g.complete (tuple_interval tup).1 (tuple_interval tup).2
        after before with
    | none => exact absurd ((input_blob_whynot_none_iff _ _ _ _ _).mp hw) hf
    | some m => rfl
  · intro h0 hf
    rw [hacc hf] at h0
    have := input_blob_emit_ret _ _ _ _ _ _ _ h0
    simp at this

/-- C20: for a parsed tuple the interval `(first, last)` is
`(time_first, time_last)` when both are non-zero and `(zone_first, zone_last)`
otherwise, also when exactly one of the two on-wire times is zero; it is
the interval the time fence is applied to (the record is dropped exactly when
the fence rejects this interval) and, in sorted mode, the first two fields
of the line written for an accepted record. -/
theorem input_blob_interval (g : Globals) (env : Env) (buf : Bytes) (tup : pdns_tuple)
    (after before first last : Nat) (hp : env.tuple_make buf = .ok tup)
    (hiv : (first, last)
      = if tup.time_first ≠ 0 ∧ tup.time_last ≠ 0 then (tup.time_first, tup.time_last)
        else (tup.zone_first, tup.zone_last)) :
    (input_blob g env buf after before = .ok { ret := 0, out := [], err := [] }
      ↔ ¬ fence_accepts g.complete first last after before) ∧
    (fence_accepts g.complete first last after before →
      input_blob g env buf after before = input_blob_emit g env tup first last buf) ∧
    (g.sorted ≠ .no_sort → ∀ r, input_blob_emit g env tup first last buf = .ok r →
      ∃ rest, r.out = fmt_lu first ++ ' ' :: fmt_lu last ++ ' ' :: rest) ∧
    (tup.time_first = 0 ∨ tup.time_last = 0 →
      first = tup.zone_first ∧ last = tup.zone_last) ∧
    (tup.time_first ≠ 0 → tup.time_last ≠ 0 →
      first = tup.time_first ∧ last = tup.time_last) := by
  have hti : tuple_interval tup = (first, last) := by rw [hiv]; rfl
  have h1 : (tuple_interval tup).1 = first := by rw [hti]
  have h2 : (tuple_interval tup).2 = last := by rw [hti]
  have hC1 := input_blob_fence_iff g env buf tup after before hp
  rw [h1, h2] at hC1
  refine ⟨⟨fun h => hC1.1.mpr h, fun h => hC1.1.mp h⟩, fun hf => hC1.2 hf, ?_, ?_, ?_⟩
  · intro hs r hr
    unfold input_blob_emit at hr
    rw [if_pos hs] at hr
    cases hn : input_blob_rrname g tup with
    | error e => rw [hn] at hr; simp at hr
    | ok n =>
      rw [hn] at hr
      cases hd : input_blob_rdata g env tup with
      | error e => rw [hd] at hr; simp at hr
      | ok d =>
        rw [hd] at hr
        simp only [Except.ok.injEq] at hr
        rw [← hr]
        refine ⟨fmt_lu (tup.count % 18446744073709551616).toNat ++ ' ' :: n.getD "n/a".toList
          ++ ' ' :: d.1.getD "n/a".toList ++ ' ' :: fmt_counted buf ++ ['\n'], ?_⟩
        simp [sort_line]
  · intro h0
    have : ¬ (tup.time_first ≠ 0 ∧ tup.time_last ≠ 0) := by
      rintro ⟨a, b⟩; rcases h0 with h | h
      · exact a h
      · exact b h
    rw [if_neg this] at hiv
    simp only [Prod.mk.injEq] at hiv
    exact hiv
  · intro ha hb
    rw [if_pos ⟨ha, hb⟩] at hiv
    simp only [Prod.mk.injEq] at hiv
    exact hiv

/-- Witness of `input_blob_interval`: `time_first` is 0 and `time_last` is 5,
so the zone times 150 and 180 are the interval; with the fence 100..200 the
record is accepted and presented. -/
theorem input_blob_interval_witness :
    input_blob globals0 env_zone "r".toList 100 200
      = .ok { ret := 1, out := "r\n".toList, err := [] } :=
  ((input_blob_interval globals0 env_zone "r".toList tuple_zone
      100 200 150 180 rfl (by decide)).2.1 (by decide)).trans (by decide)

/-! ### Name key: the root and an ordering example -/

/-- C12 (as the code behaves): with an empty name and an empty buffer
`new_size` is 0 and the assertion `new_size != 0` fails before the code that
writes the `.` of the root is reached; so does `sortable_rrname` of a tuple
with an empty rrname. On a non-empty buffer the `.` is appended. -/
theorem sortable_dnsname_root_assertion :
    sortable_dnsname [] [] = .error (.assertion "new_size != 0") ∧
    sortable_rrname { tuple0 with rrname := [] } = .error (.assertion "new_size != 0") ∧
    sortable_dnsname "61".toList [] = .ok "61.".toList := by
  decide

/-- C13 (counterexample): the key of `b.example.com` does not compare before
the key of `a.example.com`. -/
theorem name_key_b_not_before_a :
    sortable_rrname { tuple0 with rrname := "b.example.com".toList }
      = .ok "636f6d.6578616d706c65.62".toList ∧
    sortable_rrname { tuple0 with rrname := "a.example.com".toList }
      = .ok "636f6d.6578616d706c65.61".toList ∧
    bytes_lt "636f6d.6578616d706c65.62".toList "636f6d.6578616d706c65.61".toList = false := by
  decide

/-- C13 (amended): under byte-order comparison of the name keys computed by
`sortable_rrname`, the key of `a.example.com` compares before the key of
`b.example.com`: the two keys share `com` and `example` and differ in the
last written label. -/
theorem name_key_a_before_b :
    ∃ ka kb,
      sortable_rrname { tuple0 with rrname := "a.example.com".toList } = .ok ka ∧
      sortable_rrname { tuple0 with rrname := "b.example.com".toList } = .ok kb ∧
      bytes_lt ka kb = true ∧ bytes_lt kb ka = false :=
  ⟨"636f6d.6578616d706c65.61".toList, "636f6d.6578616d706c65.62".toList,
    by decide, by decide, by decide, by decide⟩

/-! ### Name key -/

theorem hex_at_eq_hex_digit : ∀ i, i < 16 → hex_at i = hex_digit i := by decide

theorem toNat_ofNat_small : ∀ n, n < 128 → (Char.ofNat n).toNat = n := by decide

theorem toLower_toNat (c : Char) : c.toLower.toNat = lower_byte c.toNat := by
  unfold Char.toLower lower_byte
  simp only [ge_iff_le]
  split_ifs with h
  · exact toNat_ofNat_small _ (by omega)
  · rfl

theorem lower_byte_lt (n : Nat) (h : n < 128) : lower_byte n < 128 := by
  unfold lower_byte; split_ifs <;> omega

theorem dnsname_hex_eq (c : Char) (h : c.toNat < 128) :
    dnsname_hex c = hex_pair (lower_byte c.toNat) := by
  have hl := lower_byte_lt _ h
  unfold dnsname_hex hex_pair
  rw [toLower_toNat]
  have e1 : lower_byte c.toNat >>> 4 = lower_byte c.toNat / 16 := by
    rw [Nat.shiftRight_eq_div_pow]
  have e2 : lower_byte c.toNat &&& 0xf = lower_byte c.toNat % 16 := by
    exact Nat.and_pow_two_sub_one_eq_mod _ 4
  rw [e1, e2, hex_at_eq_hex_digit _ (by omega), hex_at_eq_hex_digit _ (by omega)]
/-- Every string is free of `d` or a `d`-free part, a `d` and a further
string. -/
theorem split_first_induction (d : Char) (P : CStr → Prop) (h0 : ∀ b, d ∉ b → P b)
    (h1 : ∀ r x, d ∉ r → P x → P (r ++ d :: x)) : ∀ b, P b := by
  have key : ∀ b r, d ∉ r → P (r ++ b) := by
    intro b
    induction b with
    | nil => intro r hr; simpa using h0 r hr
    | cons c b ih =>
      intro r hr
      by_cases hc : c = d
      · rw [hc]; exact h1 r b hr (by simpa using ih [] (by simp))
      · have : r ++ c :: b = (r ++ [c]) ++ b := by simp
        rw [this]
        apply ih
        simp only [List.mem_append, List.mem_singleton, not_or]
        exact ⟨hr, fun e => hc e.symm⟩
  intro b
  simpa using key b [] (by simp)

theorem splitOn_of_not_mem (d : Char) (s : CStr) (h : d ∉ s) : s.splitOn d = [s] := by
  unfold List.splitOn
  apply List.splitOnP_eq_single
  intro x hx hp
  have : x = d := by simpa using hp
  exact h (this ▸ hx)

theorem splitOn_first (d : Char) (s a : CStr) (h : d ∉ s) :
    (s ++ d :: a).splitOn d = s :: a.splitOn d := by
  unfold List.splitOn
  apply List.splitOnP_first
  · intro x hx hp
    have : x = d := by simpa using hp
    exact h (this ▸ hx)
  · simp

theorem splitOn_last (d : Char) (a s : CStr) (h : d ∉ s) :
    (a ++ d :: s).splitOn d = a.splitOn d ++ [s] := by
  revert a
  apply split_first_induction d
  · intro b hb
    rw [splitOn_first d b s hb, splitOn_of_not_mem d s h, splitOn_of_not_mem d b hb]
    rfl
  · intro r x hr ih
    have e : r ++ d :: x ++ d :: s = r ++ d :: (x ++ d :: s) := by simp
    rw [e, splitOn_first d r _ hr, ih, splitOn_first d r x hr]
    rfl

theorem splitOn_ne_nil (d : Char) (s : CStr) : s.splitOn d ≠ [] := by
  unfold List.splitOn
  exact List.splitOnP_ne_nil _ _

theorem intercalate_cons_of_ne_nil (sep a : Bytes) (l : List Bytes) (h : l ≠ []) :
    sep.intercalate (a :: l) = a ++ sep ++ sep.intercalate l := by
  cases l with
  | nil => exact absurd rfl h
  | cons b l => simp [List.intercalate, List.intersperse]

theorem intercalate_concat_of_ne_nil (sep a : Bytes) (l : List Bytes) (h : l ≠ []) :
    sep.intercalate (l ++ [a]) = sep.intercalate l ++ sep ++ a := by
  induction l with
  | nil => exact absurd rfl h
  | cons b l ih =>
    by_cases hl : l = []
    · subst hl
      simp [List.intercalate, List.intersperse]
    · rw [List.cons_append, intercalate_cons_of_ne_nil sep b _ (by simp),
        intercalate_cons_of_ne_nil sep b l hl, ih hl]
      simp

theorem key_of_single (enc : Char → Bytes) (s : CStr) (h : '.' ∉ s) :
    key_of enc s = (s.map enc).flatten := by
  unfold key_of
  rw [splitOn_of_not_mem '.' s h]
  simp [List.intercalate, List.intersperse]

theorem key_of_last (enc : Char → Bytes) (a s : CStr) (h : '.' ∉ s) :
    key_of enc (a ++ '.' :: s) = (s.map enc).flatten ++ '.' :: key_of enc a := by
  unfold key_of
  rw [splitOn_last '.' a s h, List.reverse_append, List.reverse_singleton, List.singleton_append,
    List.map_cons, intercalate_cons_of_ne_nil _ _ _ (by simp [splitOn_ne_nil])]
  simp

theorem key_of_first (enc : Char → Bytes) (s a : CStr) (h : '.' ∉ s) :
    key_of enc (s ++ '.' :: a) = key_of enc a ++ '.' :: (s.map enc).flatten := by
  unfold key_of
  rw [splitOn_first '.' s a h, List.reverse_cons, List.map_append, List.map_singleton,
    intercalate_concat_of_ne_nil _ _ _ (by simp [splitOn_ne_nil])]
  simp

/-- The key has two bytes per character that is not a dot and one per dot. -/
theorem key_of_length (enc : Char → Bytes) (henc : ∀ c, (enc c).length = 2) (name : CStr) :
    (key_of enc name).length + name.count '.' = 2 * name.length := by
  have hflat : ∀ s : CStr, ((s.map enc).flatten).length = 2 * s.length := by
    intro s
    induction s with
    | nil => simp
    | cons c s ih => simp [henc, ih]; omega
  revert name
  apply split_first_induction '.'
  · intro b hb
    rw [key_of_single enc b hb, hflat, List.count_eq_zero_of_not_mem hb]
    rfl
  · intro r x hr ih
    rw [key_of_first enc r x hr]
    simp only [List.length_append, List.length_cons, hflat, List.count_append,
      List.count_cons_self, List.count_eq_zero_of_not_mem hr]
    omega

theorem key_of_congr (enc enc' : Char → Bytes) (name : CStr)
    (h : ∀ c ∈ name, enc c = enc' c) : key_of enc name = key_of enc' name := by
  have hflat : ∀ s : CStr, (∀ c ∈ s, enc c = enc' c) → (s.map enc).flatten = (s.map enc').flatten := by
    intro s hs
    rw [List.map_congr_left hs]
  revert h name
  apply split_first_induction '.'
  · intro b hb h
    rw [key_of_single enc b hb, key_of_single enc' b hb, hflat b h]
  · intro r x hr ih h
    rw [key_of_first enc r x hr, key_of_first enc' r x hr,
      ih (fun c hc => h c (by simp [hc])), hflat r (fun c hc => h c (by simp [hc]))]
theorem getD_append_length (p : CStr) (c : Char) (rest : CStr) (d : Char) :
    (p ++ c :: rest).getD p.length d = c := by
  induction p with
  | nil => rfl
  | cons a p ih => simpa using ih

theorem dnsname_label_mid (p s t : CStr) :
    dnsname_label (p ++ s ++ t) p.length (p.length + s.length) = (s.map dnsname_hex).flatten := by
  unfold dnsname_label
  rw [List.append_assoc, List.drop_left, Nat.add_sub_cancel_left, List.take_left]

/-- The right-to-left loop of `sortable_dnsname`, started above a dot-free
stretch `s`: together with the label written after the loop it appends the
key of the part of the name scanned so far. -/
theorem dnsname_loop_key (p : CStr) :
    ∀ (s t out : Bytes), '.' ∉ s →
      ∃ n1 out1, dnsname_loop (p ++ s ++ t) p.length (p.length + s.length) out = (0, n1, out1) ∧
        out1 ++ dnsname_label (p ++ s ++ t) 0 n1 = out ++ key_of dnsname_hex (p ++ s) := by
  induction p using List.reverseRecOn with
  | nil =>
    intro s t out hs
    refine ⟨s.length, out, by simp [dnsname_loop], ?_⟩
    have := dnsname_label_mid [] s t
    simp only [List.nil_append, List.length_nil, Nat.zero_add] at this
    rw [List.nil_append, this, key_of_single _ s hs]
  | append_singleton p c ih =>
    intro s t out hs
    have hname : p ++ [c] ++ s ++ t = p ++ c :: (s ++ t) := by simp
    have hlen : (p ++ [c]).length = p.length + 1 := by simp
    rw [hlen]
    by_cases hc : c = '.'
    · subst hc
      have hget : (p ++ ['.'] ++ s ++ t).getD p.length '\x00' = '.' := by
        rw [hname]; exact getD_append_length _ _ _ _
      have hlab : dnsname_label (p ++ ['.'] ++ s ++ t) (p.length + 1) (p.length + 1 + s.length)
          = (s.map dnsname_hex).flatten := by
        have := dnsname_label_mid (p ++ ['.']) s t
        rw [hlen] at this
        exact this
      obtain ⟨n1, out1, h1, h2⟩ := ih [] ('.' :: (s ++ t))
        (out ++ (s.map dnsname_hex).flatten ++ ['.']) (by simp)
      have hname2 : p ++ [] ++ '.' :: (s ++ t) = p ++ ['.'] ++ s ++ t := by simp
      rw [hname2] at h1 h2
      simp only [List.length_nil, Nat.add_zero, List.append_nil] at h1 h2
      refine ⟨n1, out1, ?_, ?_⟩
      · rw [dnsname_loop, if_pos hget, hlab]
        exact h1
      · rw [h2]
        have : p ++ ['.'] ++ s = p ++ '.' :: s := by simp
        rw [this, key_of_last _ p s hs]
        simp
    · have hget : (p ++ [c] ++ s ++ t).getD p.length '\x00' ≠ '.' := by
        rw [hname, getD_append_length]; exact hc
      obtain ⟨n1, out1, h1, h2⟩ := ih (c :: s) t out (by
        simp only [List.mem_cons, not_or]
        exact ⟨fun e => hc e.symm, hs⟩)
      have hname2 : p ++ c :: s ++ t = p ++ [c] ++ s ++ t := by simp
      rw [hname2] at h1 h2
      have hn : p.length + (c :: s).length = p.length + 1 + s.length := by
        simp only [List.length_cons]; omega
      rw [hn] at h1
      refine ⟨n1, out1, ?_, ?_⟩
      · rw [dnsname_loop, if_neg hget]
        exact h1
      · rw [h2]
        have : p ++ c :: s = p ++ [c] ++ s := by simp
        rw [this]

/-- `sortable_dnsname` on a non-empty name: the key of the name, computed
with the two bytes per character that the code writes, is appended. -/
theorem sortable_dnsname_nonempty (buf : Bytes) (name : CStr) (hne : name ≠ []) :
    sortable_dnsname buf name = .ok (buf ++ key_of dnsname_hex name) := by
  obtain ⟨n1, out1, h1, h2⟩ := dnsname_loop_key name [] [] buf (by simp)
  simp only [List.append_nil, List.length_nil, Nat.add_zero] at h1 h2
  have hlen := key_of_length dnsname_hex (fun c => rfl) name
  have hpos : 0 < name.length := List.length_pos.mpr hne
  have hcount : name.count '.' ≤ name.length := List.count_le_length _ _
  unfold sortable_dnsname
  simp only
  rw [if_neg (by omega), h1]
  simp only [ne_eq, not_true_eq_false, if_false]
  rw [h2, if_neg (by simp only [List.length_append, ne_eq, not_not]; omega),
    if_neg (by omega)]
/-- C11: for a non-empty ASCII name `sortable_dnsname` leaves the bytes of
the buffer as they are and appends the labels of the name (split on `.`) in
reverse order, joined by `.`, every character lower-cased and written as two
lowercase hex digits; `sortable_rrname` returns this key for the owner name
of a tuple. -/
theorem sortable_dnsname_key (buf : Bytes) (name : CStr) (hne : name ≠ [])
    (hascii : ∀ c ∈ name, c.toNat < 128) :
    sortable_dnsname buf name
      = .ok (buf ++ ['.'].intercalate ((name.splitOn '.').reverse.map (fun label =>
              (label.map (fun c => hex_pair (lower_byte c.toNat))).flatten))) ∧
    (∀ tup : pdns_tuple, tup.rrname = name → sortable_rrname tup = .ok (name_key name)) := by
  have hkey : key_of dnsname_hex name = name_key name :=
    key_of_congr _ _ name (fun c hc => dnsname_hex_eq c (hascii c hc))
  refine ⟨?_, fun tup ht => ?_⟩
  · rw [sortable_dnsname_nonempty buf name hne, hkey]
    rfl
  · unfold sortable_rrname
    rw [ht, sortable_dnsname_nonempty [] name hne, hkey, List.nil_append]

/-- Witness of `sortable_dnsname_key`: the name `b.Example.com` appended to a
buffer holding `x`. -/
theorem sortable_dnsname_key_witness :
    sortable_dnsname "x".toList "b.Example.com".toList
      = .ok "x636f6d.6578616d706c65.62".toList :=
  ((sortable_dnsname_key "x".toList "b.Example.com".toList (by decide) (by decide)).1).trans
    (by decide)

/-! ### Rdata key -/

theorem sortable_hexify_eq (src : List Nat) (h : ∀ ch ∈ src, ch < 256) :
    ∀ buf : Bytes, sortable_hexify buf src = buf ++ hex_expand src := by
  induction src with
  | nil => intro buf; simp [sortable_hexify, hex_expand]
  | cons ch src ih =>
    intro buf
    have hch : ch < 256 := h ch (by simp)
    have e1 : ch >>> 4 = ch / 16 := by rw [Nat.shiftRight_eq_div_pow]
    have e2 : ch &&& 0xf = ch % 16 := Nat.and_pow_two_sub_one_eq_mod _ 4
    rw [sortable_hexify, ih (fun x hx => h x (by simp [hx])), e1, e2,
      hex_at_eq_hex_digit _ (by omega), hex_at_eq_hex_digit _ (by omega)]
    simp [hex_expand, hex_pair]

theorem hex_digit_lt : ∀ i, i < 16 → ∀ j, j < 16 →
    (decide ((hex_digit i).toNat < (hex_digit j).toNat) = decide (i < j) ∧
     decide ((hex_digit i).toNat = (hex_digit j).toNat) = decide (i = j)) := by
  decide

/-- Comparing two keys that start with a hex pair: the byte values decide
unless they are equal. -/
theorem bytes_lt_hex_pair (x y : Nat) (hx : x < 256) (hy : y < 256) (r1 r2 : Bytes) :
    bytes_lt (hex_pair x ++ r1) (hex_pair y ++ r2)
      = (decide (x < y) || (decide (x = y) && bytes_lt r1 r2)) := by
  have h1 := hex_digit_lt (x / 16) (by omega) (y / 16) (by omega)
  have h2 := hex_digit_lt (x % 16) (by omega) (y % 16) (by omega)
  simp only [hex_pair, List.cons_append, List.nil_append, bytes_lt, h1.1, h1.2, h2.1, h2.2]
  by_cases c1 : x / 16 < y / 16
  · have : x < y := by omega
    simp [c1, this]
  · by_cases c2 : x / 16 = y / 16
    · by_cases c3 : x % 16 < y % 16
      · have : x < y := by omega
        simp [c2, c3, this]
      · by_cases c4 : x % 16 = y % 16
        · have : x = y := by omega
          simp [c2, c4, this]
        · have n1 : ¬ x < y := by omega
          have n2 : ¬ x = y := by omega
          simp [c2, c3, c4, n1, n2]
    · have n1 : ¬ x < y := by omega
      have n2 : ¬ x = y := by omega
      simp [c1, c2, n1, n2]

theorem bytes_lt_ipv4 (a b c d a' b' c' d' : Nat)
    (ha : a < 256) (hb : b < 256) (hc : c < 256) (hd : d < 256)
    (ha' : a' < 256) (hb' : b' < 256) (hc' : c' < 256) (hd' : d' < 256) :
    bytes_lt (hex_expand [a, b, c, d]) (hex_expand [a', b', c', d']) = true
      ↔ ipv4_value a b c d < ipv4_value a' b' c' d' := by
  have e : ∀ w x y z : Nat, hex_expand [w, x, y, z]
      = hex_pair w ++ (hex_pair x ++ (hex_pair y ++ (hex_pair z ++ []))) := by
    intro w x y z; simp [hex_expand]
  rw [e, e, bytes_lt_hex_pair a a' ha ha', bytes_lt_hex_pair b b' hb hb',
    bytes_lt_hex_pair c c' hc hc', bytes_lt_hex_pair d d' hd hd']
  simp only [bytes_lt, Bool.and_false, Bool.or_false, Bool.or_eq_true, Bool.and_eq_true,
    decide_eq_true_eq, ipv4_value]
  omega

/-- C14: for rrtype `A` and two texts that `inet_pton` parses to the bytes
`a.b.c.d` and `a'.b'.c'.d'`, the rdata key is the 8 lowercase hex digits of
the four bytes, and byte-order comparison of the two keys is numeric
comparison of the addresses. With `1.2.3.4` and `1.2.3.10` the keys are
`01020304` and `0102030a`, the first before the second, although the text
`1.2.3.10` compares before the text `1.2.3.4`. -/
theorem rdata_key_ipv4 (g : Globals) (env : Env) (s t : CStr) (a b c d a' b' c' d' : Nat)
    (ha : a < 256) (hb : b < 256) (hc : c < 256) (hd : d < 256)
    (ha' : a' < 256) (hb' : b' < 256) (hc' : c' < 256) (hd' : d' < 256)
    (hs : env.inet_pton4 s = some [a, b, c, d])
    (ht : env.inet_pton4 t = some [a', b', c', d']) :
    sortable_rdatum env [] "A".toList s
      = .ok (hex_pair a ++ hex_pair b ++ hex_pair c ++ hex_pair d) ∧
    sortable_rdatum env [] "A".toList t
      = .ok (hex_pair a' ++ hex_pair b' ++ hex_pair c' ++ hex_pair d') ∧
    sortable_rdata g env { tuple0 with rrtype := "A".toList, rdata := s }
      = .ok (hex_pair a ++ hex_pair b ++ hex_pair c ++ hex_pair d, []) ∧
    (bytes_lt (hex_pair a ++ hex_pair b ++ hex_pair c ++ hex_pair d)
        (hex_pair a' ++ hex_pair b' ++ hex_pair c' ++ hex_pair d') = true
      ↔ ipv4_value a b c d < ipv4_value a' b' c' d') ∧
    (s = "1.2.3.4".toList → t = "1.2.3.10".toList →
      [a, b, c, d] = [1, 2, 3, 4] → [a', b', c', d'] = [1, 2, 3, 10] →
      sortable_rdatum env [] "A".toList s = .ok "01020304".toList ∧
      sortable_rdatum env [] "A".toList t = .ok "0102030a".toList ∧
      bytes_lt "01020304".toList "0102030a".toList = true ∧
      bytes_lt t s = true) := by
  have key : ∀ (u : CStr) (w x y z : Nat), w < 256 → x < 256 → y < 256 → z < 256 →
      env.inet_pton4 u = some [w, x, y, z] →
      sortable_rdatum env [] "A".toList u
        = .ok (hex_pair w ++ hex_pair x ++ hex_pair y ++ hex_pair z) := by
    intro u w x y z hw hx hy hz hu
    unfold sortable_rdatum
    rw [if_pos rfl, hu]
    have hb4 : address_bytes 4 (some [w, x, y, z]) = [w, x, y, z] := by
      simp [address_bytes]
    rw [hb4, sortable_hexify_eq _ (by
      intro ch hch
      simp only [List.mem_cons, List.mem_singleton, List.not_mem_nil, or_false] at hch
      rcases hch with h | h | h | h <;> omega)]
    simp [hex_expand]
  have hexp : ∀ w x y z : Nat, hex_pair w ++ hex_pair x ++ hex_pair y ++ hex_pair z
      = hex_expand [w, x, y, z] := by
    intro w x y z; simp [hex_expand]
  refine ⟨key s a b c d ha hb hc hd hs, key t a' b' c' d' ha' hb' hc' hd' ht, ?_, ?_, ?_⟩
  · unfold sortable_rdata
    simp only [tuple0]
    rw [key s a b c d ha hb hc hd hs]
  · rw [hexp, hexp]
    exact bytes_lt_ipv4 a b c d a' b' c' d' ha hb hc hd ha' hb' hc' hd'
  · intro es et e1 e2
    simp only [List.cons.injEq, and_true] at e1 e2
    obtain ⟨rfl, rfl, rfl, rfl⟩ := e1
    obtain ⟨rfl, rfl, rfl, rfl⟩ := e2
    refine ⟨?_, ?_, by decide, ?_⟩
    · rw [key s 1 2 3 4 ha hb hc hd hs]; decide
    · rw [key t 1 2 3 10 ha' hb' hc' hd' ht]; decide
    · rw [es, et]; decide

/-- Witness of `rdata_key_ipv4`: the addresses `1.2.3.4` and `1.2.3.10`. -/
theorem rdata_key_ipv4_witness :
    sortable_rdatum env_ipv4 [] "A".toList "1.2.3.4".toList = .ok "01020304".toList ∧
    sortable_rdatum env_ipv4 [] "A".toList "1.2.3.10".toList = .ok "0102030a".toList ∧
    bytes_lt "01020304".toList "0102030a".toList = true ∧
    bytes_lt "1.2.3.10".toList "1.2.3.4".toList = true :=
  (rdata_key_ipv4 globals0 env_ipv4 "1.2.3.4".toList "1.2.3.10".toList 1 2 3 4 1 2 3 10
    (by decide) (by decide) (by decide) (by decide) (by decide) (by decide) (by decide)
    (by decide) rfl rfl).2.2.2.2 rfl rfl rfl rfl

/-! ### Case folding of the keys -/

theorem toLower_eq_iff (d c : Char) (hd : d.toNat < 65) : c.toLower = d ↔ c = d := by
  have inj : ∀ a b : Char, a.toNat = b.toNat → a = b := by
    intro a b hab
    rw [← Char.ofNat_toNat a, ← Char.ofNat_toNat b, hab]
  constructor
  · intro h
    apply inj
    have h1 : lower_byte c.toNat = d.toNat := by rw [← toLower_toNat, h]
    unfold lower_byte at h1
    split_ifs at h1 <;> omega
  · intro h
    subst h
    apply inj
    rw [toLower_toNat]
    unfold lower_byte
    split_ifs <;> omega

theorem mem_of_map_toLower (d : Char) (hd : d.toNat < 65) (x y : CStr)
    (h : x.map Char.toLower = y.map Char.toLower) (hx : d ∈ x) : d ∈ y := by
  have h1 : d ∈ x.map Char.toLower :=
    List.mem_map.mpr ⟨d, hx, (toLower_eq_iff d d hd).mpr rfl⟩
  rw [h] at h1
  obtain ⟨c, hc, hcd⟩ := List.mem_map.mp h1
  exact ((toLower_eq_iff d c hd).mp hcd) ▸ hc

theorem map_dnsname_hex (s : CStr) :
    s.map dnsname_hex
      = (s.map Char.toLower).map (fun c => [hex_at (c.toNat >>> 4), hex_at (c.toNat &&& 0xf)]) := by
  rw [List.map_map]
  rfl

/-- Names that differ only in the case of letters have the same key. -/
theorem key_of_lower : ∀ x y : CStr, x.map Char.toLower = y.map Char.toLower →
    key_of dnsname_hex x = key_of dnsname_hex y := by
  apply split_first_induction '.'
  · intro b hb y h
    have hy : '.' ∉ y := fun hy => hb (mem_of_map_toLower '.' (by decide) y b h.symm hy)
    rw [key_of_single _ b hb, key_of_single _ y hy, map_dnsname_hex, map_dnsname_hex, h]
  · intro r x hr ih y h
    rw [List.map_append, List.map_cons] at h
    obtain ⟨r', t, hy, hr', ht⟩ := List.map_eq_append_iff.mp h.symm
    obtain ⟨c, y', ht', hc, hy'⟩ := List.map_eq_cons_iff.mp ht
    have hc' : c = '.' := by
      have e : ('.' : Char).toLower = '.' := by decide
      rw [e] at hc
      exact (toLower_eq_iff '.' c (by decide)).mp hc
    subst hc' ht' hy
    have hr2 : '.' ∉ r' :=
      fun hm => hr (mem_of_map_toLower '.' (by decide) r' r hr' hm)
    rw [key_of_first _ r x hr, key_of_first _ r' y' hr2, ih y' hy'.symm, map_dnsname_hex r,
      map_dnsname_hex r', hr']

theorem sortable_dnsname_lower (buf : Bytes) (x y : CStr)
    (h : x.map Char.toLower = y.map Char.toLower) :
    sortable_dnsname buf x = sortable_dnsname buf y := by
  by_cases hx : x = []
  · subst hx
    have hy : y = [] := by simpa using h.symm
    rw [hy]
  · have hy : y ≠ [] := by
      intro hy
      subst hy
      exact hx (by simpa using h)
    rw [sortable_dnsname_nonempty buf x hx, sortable_dnsname_nonempty buf y hy,
      key_of_lower x y h]

theorem after_last_space_lower (x y : CStr) (h : x.map Char.toLower = y.map Char.toLower)
    (hx : ' ' ∈ x) :
    ∃ a b, after_last_space x = some a ∧ after_last_space y = some b ∧
      a.map Char.toLower = b.map Char.toLower := by
  have hy : ' ' ∈ y := mem_of_map_toLower ' ' (by decide) x y h hx
  have hp : ((fun c : Char => decide (c ≠ ' ')) ∘ Char.toLower)
      = (fun c : Char => decide (c ≠ ' ')) := by
    funext c
    have := toLower_eq_iff ' ' c (by decide)
    simp only [Function.comp, ne_eq, decide_not, this]
  have key : ∀ s : CStr, ((s.reverse.takeWhile (fun c => decide (c ≠ ' '))).reverse).map Char.toLower
      = (((s.map Char.toLower).reverse.takeWhile (fun c => decide (c ≠ ' '))).reverse) := by
    intro s
    have e : (s.map Char.toLower).reverse = s.reverse.map Char.toLower := by simp
    rw [e, List.takeWhile_map, hp]
    simp
  refine ⟨(x.reverse.takeWhile (fun c => decide (c ≠ ' '))).reverse,
    (y.reverse.takeWhile (fun c => decide (c ≠ ' '))).reverse, ?_, ?_, ?_⟩
  · simp only [after_last_space, if_pos hx]
  · simp only [after_last_space, if_pos hy]
  · rw [key x, key y, h]

/-- C16 (counterexample): the TXT values `ABC` and `abc` differ only in case
and have different rdata keys. -/
theorem rdata_key_txt_keeps_case :
    "ABC".toList.map Char.toLower = "abc".toList.map Char.toLower ∧
    sortable_rdata globals0 env0 { tuple0 with rrtype := "TXT".toList, rdata := "ABC".toList }
      = .ok ("414243".toList, []) ∧
    sortable_rdata globals0 env0 { tuple0 with rrtype := "TXT".toList, rdata := "abc".toList }
      = .ok ("616263".toList, []) := by
  decide

/-- One value keyed as a DNS name: values that differ only in the case of
letters are keyed alike. -/
theorem sortable_rdatum_lower (env : Env) (buf : Bytes) (rrtype x y : CStr)
    (h : x.map Char.toLower = y.map Char.toLower)
    (ht : (rrtype = "NS".toList ∨ rrtype = "PTR".toList ∨ rrtype = "CNAME".toList) ∨
      ((rrtype = "MX".toList ∨ rrtype = "RP".toList) ∧ ' ' ∈ x)) :
    sortable_rdatum env buf rrtype x = sortable_rdatum env buf rrtype y := by
  rcases ht with ht | ⟨ht, hsp⟩
  · have h1 : ¬ rrtype = "A".toList := by rcases ht with e | e | e <;> rw [e] <;> decide
    have h2 : ¬ rrtype = "AAAA".toList := by rcases ht with e | e | e <;> rw [e] <;> decide
    simp only [sortable_rdatum, if_neg h1, if_neg h2, if_pos ht]
    exact sortable_dnsname_lower buf x y h
  · obtain ⟨a, b, ha, hb, hab⟩ := after_last_space_lower x y h hsp
    have h1 : ¬ rrtype = "A".toList := by rcases ht with e | e <;> rw [e] <;> decide
    have h2 : ¬ rrtype = "AAAA".toList := by rcases ht with e | e <;> rw [e] <;> decide
    have h3 : ¬ (rrtype = "NS".toList ∨ rrtype = "PTR".toList ∨ rrtype = "CNAME".toList) := by
      rcases ht with e | e <;> rw [e] <;> decide
    simp only [sortable_rdatum, if_neg h1, if_neg h2, if_neg h3, if_pos ht, ha, hb]
    exact sortable_dnsname_lower buf a b hab

/-- The loop over an rdata array whose values are keyed as DNS names: two
arrays with slots of the same kind at every position, whose string slots
differ only in the case of letters, are keyed alike, with the same warnings. -/
theorem sortable_rdata_slots_lower (g : Globals) (env : Env) (rrtype : CStr) :
    ∀ (xs ys : List (Option CStr)) (st : Bytes × Bytes),
      xs.map (Option.map (List.map Char.toLower)) = ys.map (Option.map (List.map Char.toLower)) →
      ((rrtype = "NS".toList ∨ rrtype = "PTR".toList ∨ rrtype = "CNAME".toList) ∨
        ((rrtype = "MX".toList ∨ rrtype = "RP".toList) ∧ ∀ v ∈ xs.filterMap id, ' ' ∈ v)) →
      sortable_rdata_slots g env rrtype xs st = sortable_rdata_slots g env rrtype ys st := by
  intro xs
  induction xs with
  | nil =>
    intro ys st h _
    have hy : ys = [] := by simpa using h.symm
    rw [hy]
  | cons s xs ih =>
    intro ys st h ht
    obtain ⟨buf, err⟩ := st
    cases ys with
    | nil => simp at h
    | cons t ys =>
      simp only [List.map_cons, List.cons.injEq] at h
      obtain ⟨hst, hrest⟩ := h
      have ht' : (rrtype = "NS".toList ∨ rrtype = "PTR".toList ∨ rrtype = "CNAME".toList) ∨
          ((rrtype = "MX".toList ∨ rrtype = "RP".toList) ∧ ∀ v ∈ xs.filterMap id, ' ' ∈ v) := by
        rcases ht with h1 | ⟨h1, h2⟩
        · exact Or.inl h1
        · refine Or.inr ⟨h1, fun v hv => h2 v ?_⟩
          cases s with
          | none => simpa using hv
          | some a => exact List.mem_cons_of_mem a hv
      cases s with
      | none =>
        cases t with
        | none =>
          simp only [sortable_rdata_slots]
          exact ih ys _ hrest ht'
        | some b => simp at hst
      | some a =>
        cases t with
        | none => simp at hst
        | some b =>
          have hab : a.map Char.toLower = b.map Char.toLower := by simpa using hst
          have hd : sortable_rdatum env buf rrtype a = sortable_rdatum env buf rrtype b := by
            apply sortable_rdatum_lower env buf rrtype a b hab
            rcases ht with h1 | ⟨h1, h2⟩
            · exact Or.inl h1
            · exact Or.inr ⟨h1, h2 a (by simp)⟩
          simp only [sortable_rdata_slots, hd]
          cases sortable_rdatum env buf rrtype b with
          | error e => rfl
          | ok b2 => exact ih ys _ hrest ht'

theorem hex_pair_injective (a b : Nat) (ha : a < 256) (hb : b < 256)
    (h : hex_pair a = hex_pair b) : a = b := by
  have key : ∀ i, i < 16 → ∀ j, j < 16 → hex_digit i = hex_digit j → i = j := by
    intro i hi j hj e
    have h2 := (hex_digit_lt i hi j hj).2
    rw [e] at h2
    simpa using h2
  simp only [hex_pair, List.cons.injEq, and_true] at h
  have h1 := key (a / 16) (by omega) (b / 16) (by omega) h.1
  have h2 := key (a % 16) (Nat.mod_lt _ (by decide)) (b % 16) (Nat.mod_lt _ (by decide)) h.2
  omega

/-- The hex expansion of byte strings is one to one. -/
theorem hex_expand_injective : ∀ a b : List Nat, (∀ x ∈ a, x < 256) → (∀ x ∈ b, x < 256) →
    hex_expand a = hex_expand b → a = b := by
  intro a
  induction a with
  | nil =>
    intro b _ _ h
    cases b with
    | nil => rfl
    | cons y b => simp [hex_expand, hex_pair] at h
  | cons x a ih =>
    intro b ha hb h
    cases b with
    | nil => simp [hex_expand, hex_pair] at h
    | cons y b =>
      simp only [hex_expand, List.map_cons, List.flatten_cons, hex_pair, List.cons_append,
        List.nil_append, List.cons.injEq] at h
      obtain ⟨h1, h2, h3⟩ := h
      have hxy : x = y := hex_pair_injective x y (ha x (by simp)) (hb y (by simp))
        (by simp [hex_pair, h1, h2])
      have hab : a = b := ih b (fun z hz => ha z (by simp [hz])) (fun z hz => hb z (by simp [hz]))
        (by simpa [hex_expand] using h3)
      rw [hxy, hab]

/-- One value that is keyed neither as an address nor as a DNS name: its key
is the hex expansion of its bytes as written. -/
theorem sortable_rdatum_hexified (env : Env) (buf : Bytes) (rrtype v : CStr)
    (h1 : rrtype ≠ "A".toList) (h2 : rrtype ≠ "AAAA".toList)
    (h3 : ¬ (rrtype = "NS".toList ∨ rrtype = "PTR".toList ∨ rrtype = "CNAME".toList))
    (h4 : rrtype = "MX".toList ∨ rrtype = "RP".toList → ' ' ∉ v)
    (hv : ∀ c ∈ v, c.toNat < 256) :
    sortable_rdatum env buf rrtype v = .ok (buf ++ hex_expand (v.map Char.toNat)) := by
  have hmap : ∀ ch ∈ v.map Char.toNat, ch < 256 := by
    intro ch hch
    obtain ⟨c, hc, rfl⟩ := List.mem_map.mp hch
    exact hv c hc
  unfold sortable_rdatum
  rw [if_neg h1, if_neg h2, if_neg h3]
  by_cases c4 : rrtype = "MX".toList ∨ rrtype = "RP".toList
  · rw [if_pos c4]
    simp only [after_last_space, if_neg (h4 c4)]
    rw [sortable_hexify_eq _ hmap]
  · rw [if_neg c4, sortable_hexify_eq _ hmap]

set_option linter.unusedVariables false in
/-- C16 (amended): for ASCII values `x`, `y` that differ only in the case of
letters, and rdata arrays `xs`, `ys` of ASCII values with slots of the same
kind at every position whose string slots differ only in the case of
letters:
the DNS name keys of `x` and `y` are the same, hence the name keys
(`sortable_rrname`) of two tuples with the owner names `x` and `y`;
the rdata keys (`sortable_rdata`, with the warnings) of two tuples with the
values `x` and `y`, or with the arrays `xs` and `ys`, are the same when the
rrtype is NS, PTR or CNAME, and when it is MX or RP and every value holds a
space;
for A and AAAA the key of a value is computed from what `inet_pton` returns
on it, so values on which `inet_pton` returns the same are keyed alike;
for every other rrtype, and for an MX or RP value without a space, the rdata
key of the value `x` is the hex expansion of its bytes as written, and when
`x` and `y` are not the same value their keys differ. -/
theorem name_keys_case_folded (x y : CStr) (xs ys : List (Option CStr))
    (h : x.map Char.toLower = y.map Char.toLower)
    (hs : xs.map (Option.map (List.map Char.toLower))
      = ys.map (Option.map (List.map Char.toLower)))
    (hx : ∀ c ∈ x, c.toNat < 128) (hy : ∀ c ∈ y, c.toNat < 128)
    (hxs : ∀ v ∈ xs.filterMap id, ∀ c ∈ v, c.toNat < 128)
    (hys : ∀ v ∈ ys.filterMap id, ∀ c ∈ v, c.toNat < 128) :
    (∀ buf, sortable_dnsname buf x = sortable_dnsname buf y) ∧
    (∀ tup : pdns_tuple,
      sortable_rrname { tup with rrname := x } = sortable_rrname { tup with rrname := y }) ∧
    (∀ (g : Globals) (env : Env) (tup : pdns_tuple), tup.rdata_array = none →
      (tup.rrtype = "NS".toList ∨ tup.rrtype = "PTR".toList ∨ tup.rrtype = "CNAME".toList) ∨
        ((tup.rrtype = "MX".toList ∨ tup.rrtype = "RP".toList) ∧ ' ' ∈ x) →
      sortable_rdata g env { tup with rdata := x }
        = sortable_rdata g env { tup with rdata := y }) ∧
    (∀ (g : Globals) (env : Env) (tup : pdns_tuple),
      (tup.rrtype = "NS".toList ∨ tup.rrtype = "PTR".toList ∨ tup.rrtype = "CNAME".toList) ∨
        ((tup.rrtype = "MX".toList ∨ tup.rrtype = "RP".toList) ∧
          ∀ v ∈ xs.filterMap id, ' ' ∈ v) →
      sortable_rdata g env { tup with rdata := x, rdata_array := some xs }
        = sortable_rdata g env { tup with rdata := y, rdata_array := some ys }) ∧
    (∀ (g : Globals) (env : Env) (tup : pdns_tuple), tup.rdata_array = none →
      (tup.rrtype = "A".toList ∧ env.inet_pton4 x = env.inet_pton4 y) ∨
        (tup.rrtype = "AAAA".toList ∧ env.inet_pton6 x = env.inet_pton6 y) →
      sortable_rdata g env { tup with rdata := x }
        = sortable_rdata g env { tup with rdata := y }) ∧
    (∀ (g : Globals) (env : Env) (tup : pdns_tuple), tup.rdata_array = none →
      tup.rrtype ≠ "A".toList → tup.rrtype ≠ "AAAA".toList →
      ¬ (tup.rrtype = "NS".toList ∨ tup.rrtype = "PTR".toList ∨ tup.rrtype = "CNAME".toList) →
      (tup.rrtype = "MX".toList ∨ tup.rrtype = "RP".toList → ' ' ∉ x) →
      sortable_rdata g env { tup with rdata := x }
          = .ok (hex_expand (x.map Char.toNat), []) ∧
        (x ≠ y → sortable_rdata g env { tup with rdata := x }
                  ≠ sortable_rdata g env { tup with rdata := y })) := by
  refine ⟨fun buf => sortable_dnsname_lower buf x y h, ?_, ?_, ?_, ?_, ?_⟩
  · intro tup
    exact sortable_dnsname_lower [] x y h
  · intro g env tup harr ht
    unfold sortable_rdata
    simp only [harr]
    rw [sortable_rdatum_lower env [] tup.rrtype x y h ht]
  · intro g env tup ht
    unfold sortable_rdata
    exact sortable_rdata_slots_lower g env tup.rrtype xs ys ([], []) hs ht
  · intro g env tup harr ht
    unfold sortable_rdata
    simp only [harr]
    rcases ht with ⟨e, hp⟩ | ⟨e, hp⟩
    · simp only [sortable_rdatum, e, if_true, hp]
    · have h1 : ¬ tup.rrtype = "A".toList := by rw [e]; decide
      simp only [sortable_rdatum, if_neg h1, if_pos e, hp]
  · intro g env tup harr h1 h2 h3 h4
    have bx : ∀ c ∈ x, c.toNat < 256 := fun c hc => Nat.lt_trans (hx c hc) (by decide)
    have by' : ∀ c ∈ y, c.toNat < 256 := fun c hc => Nat.lt_trans (hy c hc) (by decide)
    have h4y : tup.rrtype = "MX".toList ∨ tup.rrtype = "RP".toList → ' ' ∉ y :=
      fun ht hm => h4 ht (mem_of_map_toLower ' ' (by decide) y x h.symm hm)
    have ex : sortable_rdata g env { tup with rdata := x }
        = .ok (hex_expand (x.map Char.toNat), []) := by
      unfold sortable_rdata
      simp only [harr]
      rw [sortable_rdatum_hexified env [] tup.rrtype x h1 h2 h3 h4 bx]
      rfl
    have ey : sortable_rdata g env { tup with rdata := y }
        = .ok (hex_expand (y.map Char.toNat), []) := by
      unfold sortable_rdata
      simp only [harr]
      rw [sortable_rdatum_hexified env [] tup.rrtype y h1 h2 h3 h4y by']
      rfl
    refine ⟨ex, ?_⟩
    intro hne heq
    rw [ex, ey] at heq
    simp only [Except.ok.injEq, Prod.mk.injEq, and_true] at heq
    have hmx : ∀ ch ∈ x.map Char.toNat, ch < 256 := by
      intro ch hch
      obtain ⟨c, hc, rfl⟩ := List.mem_map.mp hch
      exact bx c hc
    have hmy : ∀ ch ∈ y.map Char.toNat, ch < 256 := by
      intro ch hch
      obtain ⟨c, hc, rfl⟩ := List.mem_map.mp hch
      exact by' c hc
    have e2 := hex_expand_injective _ _ hmx hmy heq
    have inj : Function.Injective Char.toNat := by
      intro a b hab
      rw [← Char.ofNat_toNat a, ← Char.ofNat_toNat b, hab]
    exact hne (List.map_injective_iff.mpr inj e2)

/-- Witness of `name_keys_case_folded`: the names `B.Example.COM` and
`b.example.com`, and two NS arrays with a slot that is not a string. -/
theorem name_keys_case_folded_witness :
    sortable_rrname { tuple0 with rrname := "B.Example.COM".toList }
      = sortable_rrname { tuple0 with rrname := "b.example.com".toList } ∧
    sortable_rrname { tuple0 with rrname := "b.example.com".toList }
      = .ok "636f6d.6578616d706c65.62".toList ∧
    sortable_rdata globals0 env0
        { tuple0 with rrtype := "NS".toList, rdata := "B.Example.COM".toList,
                      rdata_array := some [some "NS.a".toList, none, some "b.C".toList] }
      = sortable_rdata globals0 env0
        { tuple0 with rrtype := "NS".toList, rdata := "b.example.com".toList,
                      rdata_array := some [some "ns.A".toList, none, some "B.c".toList] } ∧
    sortable_rdata globals0 env0
        { tuple0 with rrtype := "NS".toList, rdata := "b.example.com".toList,
                      rdata_array := some [some "ns.A".toList, none, some "B.c".toList] }
      = .ok ("61.6e7363.62".toList, "dnsdbq: warning: rdata slot is not a string\n".toList) :=
  ⟨(name_keys_case_folded "B.Example.COM".toList "b.example.com".toList
      [some "NS.a".toList, none, some "b.C".toList] [some "ns.A".toList, none, some "B.c".toList]
      (by decide) (by decide) (by decide) (by decide) (by decide) (by decide)).2.1 tuple0,
   by decide,
   (name_keys_case_folded "B.Example.COM".toList "b.example.com".toList
      [some "NS.a".toList, none, some "b.C".toList] [some "ns.A".toList, none, some "B.c".toList]
      (by decide) (by decide) (by decide) (by decide) (by decide) (by decide)).2.2.2.1
      globals0 env0 { tuple0 with rrtype := "NS".toList } (Or.inl (Or.inl rfl)),
   by decide⟩

/-! ### Rdata key of an rdata array -/

/-- C15 (as the code behaves): when the first value to be keyed as a DNS
name is empty, the sort buffer is still empty and the assertion
`new_size != 0` of `sortable_dnsname` fails: an NS array whose first element
is the empty string, a non-array empty NS value, and an MX value that ends
in a space. The same empty name in a later position is keyed as `.`. -/
theorem sortable_rdata_empty_name_assertion :
    sortable_rdata globals0 env0
        { tuple0 with rrtype := "NS".toList, rdata_array := some [some [], some "a".toList] }
      = .error (.assertion "new_size != 0") ∧
    sortable_rdata globals0 env0 { tuple0 with rrtype := "NS".toList, rdata := [] }
      = .error (.assertion "new_size != 0") ∧
    sortable_rdata globals0 env0 { tuple0 with rrtype := "MX".toList, rdata := "10 ".toList }
      = .error (.assertion "new_size != 0") ∧
    sortable_rdata globals0 env0
        { tuple0 with rrtype := "NS".toList, rdata_array := some [some "a".toList, some []] }
      = .ok ("61.".toList, []) := by
  decide

/-- One element: when the address parser returns 4 (16) bytes, the value
holds bytes, and the name to key is not empty, `sortable_rdatum` appends the
per-element key of the specification. -/
theorem sortable_rdatum_eq_spec (env : Env) (buf : Bytes) (rrtype v : CStr)
    (h4 : ∀ s a, env.inet_pton4 s = some a → a.length = 4 ∧ ∀ x ∈ a, x < 256)
    (h6 : ∀ s a, env.inet_pton6 s = some a → a.length = 16 ∧ ∀ x ∈ a, x < 256)
    (hv : ∀ c ∈ v, c.toNat < 256) (hne : keyed_name rrtype v ≠ some []) :
    sortable_rdatum env buf rrtype v = .ok (buf ++ element_key_spec env rrtype v) := by
  have hz : ∀ n, ∀ ch ∈ List.replicate n 0, ch < 256 := by
    intro n ch hch
    rw [List.eq_of_mem_replicate hch]; decide
  have hmap : ∀ ch ∈ v.map Char.toNat, ch < 256 := by
    intro ch hch
    obtain ⟨c, hc, rfl⟩ := List.mem_map.mp hch
    exact hv c hc
  have hname : ∀ name : CStr, name ≠ [] →
      sortable_dnsname buf name = .ok (buf ++ dnsname_key_spec name) := by
    intro name hn
    rw [sortable_dnsname_nonempty buf name hn, dnsname_key_spec, if_neg hn]
  unfold sortable_rdatum element_key_spec
  unfold keyed_name at hne
  by_cases c1 : rrtype = "A".toList
  · simp only [if_pos c1]
    cases hp : env.inet_pton4 v with
    | none =>
      simp only [address_bytes]
      rw [sortable_hexify_eq _ (hz 4)]
      rfl
    | some a =>
      obtain ⟨hl, hb⟩ := h4 v a hp
      have e : address_bytes 4 (some a) = a := by
        simp only [address_bytes]
        rw [← hl, List.take_left]
      rw [e, sortable_hexify_eq _ hb]
  · simp only [if_neg c1] at hne ⊢
    by_cases c2 : rrtype = "AAAA".toList
    · simp only [if_pos c2]
      cases hp : env.inet_pton6 v with
      | none =>
        simp only [address_bytes]
        rw [sortable_hexify_eq _ (hz 16)]
        rfl
      | some a =>
        obtain ⟨hl, hb⟩ := h6 v a hp
        have e : address_bytes 16 (some a) = a := by
          simp only [address_bytes]
          rw [← hl, List.take_left]
        rw [e, sortable_hexify_eq _ hb]
    · simp only [if_neg c2] at hne ⊢
      by_cases c3 : rrtype = "NS".toList ∨ rrtype = "PTR".toList ∨ rrtype = "CNAME".toList
      · simp only [if_pos c3] at hne ⊢
        exact hname v (fun e => hne (by rw [e]))
      · simp only [if_neg c3] at hne ⊢
        by_cases c4 : rrtype = "MX".toList ∨ rrtype = "RP".toList
        · simp only [if_pos c4] at hne ⊢
          cases hs : after_last_space v with
          | none => simp only []; rw [sortable_hexify_eq _ hmap]
          | some name =>
            simp only []
            exact hname name (fun e => hne (by rw [hs, e]))
        · simp only [if_neg c4]
          rw [sortable_hexify_eq _ hmap]

/-- The loop over an rdata array: apart from the case of an empty name to
key, the sort buffer grows by the concatenation, in array order, of the keys
of the string elements; the other elements add nothing to it. -/
theorem sortable_rdata_slots_eq_spec (g : Globals) (env : Env) (rrtype : CStr)
    (h4 : ∀ s a, env.inet_pton4 s = some a → a.length = 4 ∧ ∀ x ∈ a, x < 256)
    (h6 : ∀ s a, env.inet_pton6 s = some a → a.length = 16 ∧ ∀ x ∈ a, x < 256) :
    ∀ (slots : List (Option CStr)) (buf err : Bytes),
      (∀ v, some v ∈ slots → (∀ c ∈ v, c.toNat < 256) ∧ keyed_name rrtype v ≠ some []) →
      ∃ err', sortable_rdata_slots g env rrtype slots (buf, err)
        = .ok (buf ++ rdata_key_spec env rrtype slots, err') := by
  intro slots
  induction slots with
  | nil => intro buf err _; exact ⟨err, by simp [sortable_rdata_slots, rdata_key_spec]⟩
  | cons s slots ih =>
    intro buf err h
    have hrest : ∀ v, some v ∈ slots →
        (∀ c ∈ v, c.toNat < 256) ∧ keyed_name rrtype v ≠ some [] :=
      fun v hv => h v (List.mem_cons_of_mem _ hv)
    cases s with
    | none =>
      obtain ⟨err', he⟩ := ih buf
        (err ++ g.program_name ++ ": warning: rdata slot is not a string\n".toList) hrest
      refine ⟨err', ?_⟩
      rw [sortable_rdata_slots, he]
      simp [rdata_key_spec]
    | some v =>
      obtain ⟨hv, hne⟩ := h v (List.mem_cons_self _ _)
      obtain ⟨err', he⟩ := ih (buf ++ element_key_spec env rrtype v) err hrest
      refine ⟨err', ?_⟩
      rw [sortable_rdata_slots, sortable_rdatum_eq_spec env buf rrtype v h4 h6 hv hne]
      simp only []
      rw [he]
      simp [rdata_key_spec]

/-! ### The sort prefix -/

theorem toDigitsCore_no_space : ∀ (f n : Nat) (ds : List Char), ' ' ∉ ds →
    ' ' ∉ Nat.toDigitsCore 10 f n ds := by
  have hd : ∀ m, m < 10 → Nat.digitChar m ≠ ' ' := by decide
  intro f
  induction f with
  | zero => intro n ds h; simpa [Nat.toDigitsCore] using h
  | succ f ih =>
    intro n ds h
    have h1 : ' ' ∉ Nat.digitChar (n % 10) :: ds := by
      intro hm
      rcases List.mem_cons.mp hm with e | e
      · exact hd (n % 10) (Nat.mod_lt _ (by decide)) e.symm
      · exact h e
    simp only [Nat.toDigitsCore]
    split_ifs
    · exact h1
    · exact ih _ _ h1

theorem toDigitsCore_ne_nil : ∀ (f n : Nat) (ds : List Char), ds ≠ [] →
    Nat.toDigitsCore 10 f n ds ≠ [] := by
  intro f
  induction f with
  | zero => intro n ds h; simpa [Nat.toDigitsCore] using h
  | succ f ih =>
    intro n ds _
    simp only [Nat.toDigitsCore]
    split_ifs
    · simp
    · exact ih _ _ (by simp)

/-- A number printed with `%lu` is not empty and holds no space. -/
theorem fmt_lu_field (n : Nat) : fmt_lu n ≠ [] ∧ ' ' ∉ fmt_lu n := by
  have e : fmt_lu n = Nat.toDigitsCore 10 (n + 1) n [] := by
    simp [fmt_lu, Nat.repr, Nat.toDigits, List.asString]
  rw [e]
  refine ⟨?_, toDigitsCore_no_space _ _ _ (by simp)⟩
  simp only [Nat.toDigitsCore]
  split_ifs
  · simp
  · exact toDigitsCore_ne_nil _ _ _ (by simp)

theorem dropWhile_field (k rest : CStr) (hk : ' ' ∉ k) :
    (k ++ ' ' :: rest).dropWhile (fun c => c ≠ ' ') = ' ' :: rest := by
  induction k with
  | nil => simp [List.dropWhile]
  | cons c k ih =>
    have hc : c ≠ ' ' := fun e => hk (by simp [e])
    have hk' : ' ' ∉ k := fun hm => hk (by simp [hm])
    have e := ih hk'
    simp only [ne_eq, decide_not] at e
    simp [List.dropWhile, hc, e]

theorem dropWhile_spaces (rest : CStr) (hr : rest.head? ≠ some ' ') :
    rest.dropWhile (fun c => c = ' ') = rest := by
  cases rest with
  | nil => rfl
  | cons c rest =>
    have hc : c ≠ ' ' := fun e => hr (by simp [e])
    simp [List.dropWhile, hc]

/-- Skipping one sort key that holds no space, when what follows the
separating space does not begin with a space. -/
theorem skip_sort_key_field (k rest : CStr) (hk : ' ' ∉ k) (hr : rest.head? ≠ some ' ') :
    skip_sort_key (k ++ ' ' :: rest) = some rest := by
  unfold skip_sort_key
  rw [if_pos (by simp), dropWhile_field k rest hk]
  have e : (' ' :: rest).dropWhile (fun c => decide (c = ' '))
      = rest.dropWhile (fun c => decide (c = ' ')) := by
    simp [List.dropWhile]
  rw [e, dropWhile_spaces rest hr]

theorem head_field (k rest : CStr) (hk1 : k ≠ []) (hk2 : ' ' ∉ k) :
    (k ++ rest).head? ≠ some ' ' := by
  cases k with
  | nil => exact absurd rfl hk1
  | cons c k =>
    intro h
    have : c = ' ' := by simpa using h
    exact hk2 (by simp [this])

theorem fmt_counted_of_no_nul (buf : Bytes) (h : '\x00' ∉ buf) : fmt_counted buf = buf := by
  have e : buf.takeWhile (fun c => c ≠ '\x00') = buf := by
    rw [List.takeWhile_eq_self_iff]
    intro c hc
    have : c ≠ '\x00' := fun e => h (e ▸ hc)
    simpa using this
  unfold fmt_counted
  rw [e]
  simp

/-- The round trip for given keys: when both key fields are non-empty and
hold no space, and the record holds no newline and no NUL and does not begin
with a space, the five skips of `writer_fini` applied to the line written by
`input_blob` leave exactly the record. -/
theorem writer_fini_line_sort_line (g : Globals) (env : Env) (st : drain_state)
    (first last : Nat) (count : Int) (nk dk : Option CStr) (buf : Bytes)
    (hlim : ¬ (g.output_limit ≠ -1 ∧ st.count ≥ g.output_limit))
    (hnl : '\n' ∉ buf) (hnul : '\x00' ∉ buf) (hsp : buf.head? ≠ some ' ')
    (hnk1 : nk.getD "n/a".toList ≠ []) (hnk2 : ' ' ∉ nk.getD "n/a".toList)
    (hdk1 : dk.getD "n/a".toList ≠ []) (hdk2 : ' ' ∉ dk.getD "n/a".toList) :
    writer_fini_line g env st (sort_line first last count nk dk buf)
      = present_record g env st buf := by
  have hrec : (buf ++ ['\n']).head? ≠ some ' ' := by
    cases buf with
    | nil => simp
    | cons c buf => simpa using hsp
  have s5 := skip_sort_key_field _ (buf ++ ['\n']) hdk2 hrec
  have s4 := skip_sort_key_field _ (dk.getD "n/a".toList ++ ' ' :: (buf ++ ['\n'])) hnk2
    (head_field _ _ hdk1 hdk2)
  have s3 := skip_sort_key_field _
    (nk.getD "n/a".toList ++ ' ' :: (dk.getD "n/a".toList ++ ' ' :: (buf ++ ['\n'])))
    (fmt_lu_field (count % 18446744073709551616).toNat).2 (head_field _ _ hnk1 hnk2)
  have s2 := skip_sort_key_field _
    (fmt_lu (count % 18446744073709551616).toNat ++ ' ' ::
      (nk.getD "n/a".toList ++ ' ' :: (dk.getD "n/a".toList ++ ' ' :: (buf ++ ['\n']))))
    (fmt_lu_field last).2
    (head_field _ _ (fmt_lu_field _).1 (fmt_lu_field _).2)
  have s1 := skip_sort_key_field _
    (fmt_lu last ++ ' ' :: (fmt_lu (count % 18446744073709551616).toNat ++ ' ' ::
      (nk.getD "n/a".toList ++ ' ' :: (dk.getD "n/a".toList ++ ' ' :: (buf ++ ['\n'])))))
    (fmt_lu_field first).2
    (head_field _ _ (fmt_lu_field _).1 (fmt_lu_field _).2)
  have hline : sort_line first last count nk dk buf
      = fmt_lu first ++ ' ' :: (fmt_lu last ++ ' ' ::
          (fmt_lu (count % 18446744073709551616).toNat ++ ' ' ::
            (nk.getD "n/a".toList ++ ' ' :: (dk.getD "n/a".toList ++ ' ' ::
              (buf ++ ['\n']))))) := by
    simp [sort_line, fmt_counted_of_no_nul buf hnul]
  have htake : (buf ++ ['\n']).takeWhile (fun c => c ≠ '\n') = buf :=
    takeWhile_append_stop _ buf '\n' [] (by
      intro c hc
      have : c ≠ '\n' := fun e => hnl (e ▸ hc)
      simpa using this) (by simp)
  have hmem : ¬ '\n' ∉ sort_line first last count nk dk buf := by
    simp [sort_line]
  unfold writer_fini_line
  rw [if_neg hlim, if_neg hmem, hline, s1]
  simp only []
  rw [s2]
  simp only []
  rw [s3]
  simp only []
  rw [s4]
  simp only []
  rw [s5]
  simp only []
  rw [htake]
  rfl

theorem mem_flatten_dnsname_hex (s : CStr) (c : Char)
    (h : c ∈ (s.map dnsname_hex).flatten) : key_char c := by
  simp only [List.mem_flatten, List.mem_map] at h
  obtain ⟨l, ⟨x, _, rfl⟩, hc⟩ := h
  simp only [dnsname_hex, List.mem_cons, List.mem_singleton, List.not_mem_nil, or_false] at hc
  rcases hc with e | e
  · exact Or.inr ⟨_, e⟩
  · exact Or.inr ⟨_, e⟩

theorem mem_key_of (c : Char) : ∀ name : CStr, c ∈ key_of dnsname_hex name → key_char c := by
  apply split_first_induction '.'
  · intro b hb h
    rw [key_of_single _ b hb] at h
    exact mem_flatten_dnsname_hex b c h
  · intro r x hr ih h
    rw [key_of_first _ r x hr] at h
    rcases List.mem_append.mp h with h1 | h1
    · exact ih h1
    · rcases List.mem_cons.mp h1 with e | e
      · exact Or.inl e
      · exact mem_flatten_dnsname_hex r c e

/-- What `sortable_dnsname` leaves in the buffer is not empty, and the bytes
it adds are dots and entries of `hex`. -/
theorem sortable_dnsname_chars (buf : Bytes) (name : CStr) (out : Bytes)
    (h : sortable_dnsname buf name = .ok out) :
    out ≠ [] ∧ ∀ c ∈ out, c ∈ buf ∨ key_char c := by
  by_cases hn : name = []
  · subst hn
    have e : sortable_dnsname buf [] = if buf.length = 0 then .error (.assertion "new_size != 0")
        else .ok (buf ++ ['.']) := by
      simp [sortable_dnsname, dnsname_loop, dnsname_label]
    rw [e] at h
    split_ifs at h
    cases h
    refine ⟨by simp, ?_⟩
    intro c hc
    rcases List.mem_append.mp hc with h1 | h1
    · exact Or.inl h1
    · exact Or.inr (Or.inl (by simpa using h1))
  · rw [sortable_dnsname_nonempty buf name hn] at h
    cases h
    have hlen := key_of_length dnsname_hex (fun c => rfl) name
    have hpos : 0 < name.length := List.length_pos.mpr hn
    have hcount : name.count '.' ≤ name.length := List.count_le_length _ _
    refine ⟨?_, ?_⟩
    · intro e
      have : (buf ++ key_of dnsname_hex name).length = 0 := by rw [e]; rfl
      rw [List.length_append] at this
      omega
    · intro c hc
      rcases List.mem_append.mp hc with h1 | h1
      · exact Or.inl h1
      · exact Or.inr (mem_key_of c name h1)

theorem hex_at_mem : ∀ i, i < 16 → hex_at i ∈ hex := by decide

/-- The bytes of a key, a dot or an entry of `hex`, are neither a NUL nor a
space. -/
theorem key_byte_ne (c : Char) (h : c = '.' ∨ c ∈ hex) : c ≠ '\x00' ∧ c ≠ ' ' := by
  have h2 : ∀ d ∈ hex, d ≠ '\x00' ∧ d ≠ ' ' := by decide
  rcases h with e | e
  · rw [e]; decide
  · exact h2 c e

theorem mem_sortable_hexify_bytes (src : List Nat) (h : ∀ ch ∈ src, ch < 256) (buf : Bytes)
    (c : Char) (hc : c ∈ sortable_hexify buf src) : c ∈ buf ∨ c ∈ hex := by
  rw [sortable_hexify_eq src h buf] at hc
  rcases List.mem_append.mp hc with h1 | h1
  · exact Or.inl h1
  · right
    simp only [hex_expand, List.mem_flatten, List.mem_map] at h1
    obtain ⟨l, ⟨x, hx, rfl⟩, hcl⟩ := h1
    have hx2 := h x hx
    simp only [hex_pair, List.mem_cons, List.mem_singleton, List.not_mem_nil, or_false] at hcl
    rcases hcl with e | e
    · rw [e, ← hex_at_eq_hex_digit _ (by omega)]; exact hex_at_mem _ (by omega)
    · rw [e, ← hex_at_eq_hex_digit _ (Nat.mod_lt _ (by decide))]
      exact hex_at_mem _ (Nat.mod_lt _ (by decide))

theorem mem_flatten_dnsname_hex_ascii (s : CStr) (hs : ∀ x ∈ s, x.toNat < 128) (c : Char)
    (h : c ∈ (s.map dnsname_hex).flatten) : c ∈ hex := by
  simp only [List.mem_flatten, List.mem_map] at h
  obtain ⟨l, ⟨x, hx, rfl⟩, hc⟩ := h
  have hx2 := hs x hx
  have hl : x.toLower.toNat < 256 := by
    rw [toLower_toNat]
    unfold lower_byte
    split_ifs <;> omega
  have e1 : x.toLower.toNat >>> 4 = x.toLower.toNat / 16 := by rw [Nat.shiftRight_eq_div_pow]
  have e2 : x.toLower.toNat &&& 0xf = x.toLower.toNat % 16 := Nat.and_pow_two_sub_one_eq_mod _ 4
  simp only [dnsname_hex, List.mem_cons, List.mem_singleton, List.not_mem_nil, or_false] at hc
  rcases hc with e | e
  · rw [e, e1]; exact hex_at_mem _ (by omega)
  · rw [e, e2]; exact hex_at_mem _ (Nat.mod_lt _ (by decide))

theorem mem_key_of_ascii (c : Char) : ∀ name : CStr, (∀ x ∈ name, x.toNat < 128) →
    c ∈ key_of dnsname_hex name → c = '.' ∨ c ∈ hex := by
  apply split_first_induction '.'
  · intro b hb hs h
    rw [key_of_single _ b hb] at h
    exact Or.inr (mem_flatten_dnsname_hex_ascii b hs c h)
  · intro r x hr ih hs h
    rw [key_of_first _ r x hr] at h
    rcases List.mem_append.mp h with h1 | h1
    · exact ih (fun z hz => hs z (by simp [hz])) h1
    · rcases List.mem_cons.mp h1 with e | e
      · exact Or.inl e
      · exact Or.inr (mem_flatten_dnsname_hex_ascii r (fun z hz => hs z (by simp [hz])) c e)

/-- The bytes that `sortable_dnsname` adds for an ASCII name are dots and
hex digits. -/
theorem sortable_dnsname_bytes (buf : Bytes) (name : CStr) (out : Bytes)
    (hs : ∀ x ∈ name, x.toNat < 128) (h : sortable_dnsname buf name = .ok out) :
    ∀ c ∈ out, c ∈ buf ∨ c = '.' ∨ c ∈ hex := by
  by_cases hn : name = []
  · subst hn
    have e : sortable_dnsname buf [] = if buf.length = 0 then .error (.assertion "new_size != 0")
        else .ok (buf ++ ['.']) := by
      simp [sortable_dnsname, dnsname_loop, dnsname_label]
    rw [e] at h
    split_ifs at h
    cases h
    intro c hc
    rcases List.mem_append.mp hc with h1 | h1
    · exact Or.inl h1
    · exact Or.inr (Or.inl (by simpa using h1))
  · rw [sortable_dnsname_nonempty buf name hn] at h
    cases h
    intro c hc
    rcases List.mem_append.mp hc with h1 | h1
    · exact Or.inl h1
    · exact Or.inr (mem_key_of_ascii c name hs h1)

theorem mem_address_bytes (n : Nat) (parsed : Option (List Nat))
    (h : ∀ a, parsed = some a → ∀ x ∈ a, x < 256) : ∀ x ∈ address_bytes n parsed, x < 256 := by
  intro x hx
  cases parsed with
  | none =>
    simp only [address_bytes] at hx
    rw [List.eq_of_mem_replicate hx]; decide
  | some a =>
    simp only [address_bytes] at hx
    rcases List.mem_append.mp (List.mem_of_mem_take hx) with h1 | h1
    · exact h a rfl x h1
    · rw [List.eq_of_mem_replicate h1]; decide

theorem mem_after_last_space (v name : CStr) (h : after_last_space v = some name) :
    ∀ c ∈ name, c ∈ v := by
  unfold after_last_space at h
  split_ifs at h
  simp only [Option.some.injEq] at h
  subst h
  intro c hc
  have h1 : c ∈ v.reverse.takeWhile (fun c => decide (c ≠ ' ')) := List.mem_reverse.mp hc
  exact List.mem_reverse.mp ((List.takeWhile_prefix _).subset h1)

/-- The bytes that `sortable_rdatum` adds for an ASCII value are dots and
hex digits, when the address parser returns bytes. -/
theorem sortable_rdatum_bytes (env : Env) (buf : Bytes) (rrtype v : CStr) (out : Bytes)
    (h4 : ∀ s a, env.inet_pton4 s = some a → ∀ x ∈ a, x < 256)
    (h6 : ∀ s a, env.inet_pton6 s = some a → ∀ x ∈ a, x < 256)
    (hv : ∀ c ∈ v, c.toNat < 128)
    (h : sortable_rdatum env buf rrtype v = .ok out) : ∀ c ∈ out, c ∈ buf ∨ c = '.' ∨ c ∈ hex := by
  have hmap : ∀ ch ∈ v.map Char.toNat, ch < 256 := by
    intro ch hch
    obtain ⟨c, hc, rfl⟩ := List.mem_map.mp hch
    exact Nat.lt_trans (hv c hc) (by decide)
  have hex_case : ∀ src : List Nat, (∀ ch ∈ src, ch < 256) →
      ∀ c ∈ sortable_hexify buf src, c ∈ buf ∨ c = '.' ∨ c ∈ hex := by
    intro src hsrc c hc
    rcases mem_sortable_hexify_bytes src hsrc buf c hc with h1 | h1
    · exact Or.inl h1
    · exact Or.inr (Or.inr h1)
  unfold sortable_rdatum at h
  split_ifs at h
  · cases h
    exact hex_case _ (mem_address_bytes 4 _ (fun a ha => h4 v a ha))
  · cases h
    exact hex_case _ (mem_address_bytes 16 _ (fun a ha => h6 v a ha))
  · exact sortable_dnsname_bytes buf v out hv h
  · cases hs : after_last_space v with
    | none =>
      rw [hs] at h
      cases h; exact hex_case _ hmap
    | some name =>
      rw [hs] at h
      exact sortable_dnsname_bytes buf name out
        (fun c hc => hv c (mem_after_last_space v name hs c hc)) h
  · cases h; exact hex_case _ hmap

theorem sortable_rdata_slots_bytes (g : Globals) (env : Env) (rrtype : CStr)
    (h4 : ∀ s a, env.inet_pton4 s = some a → ∀ x ∈ a, x < 256)
    (h6 : ∀ s a, env.inet_pton6 s = some a → ∀ x ∈ a, x < 256) :
    ∀ (slots : List (Option CStr)) (buf err out err' : Bytes),
      (∀ v ∈ slots.filterMap id, ∀ c ∈ v, c.toNat < 128) →
      sortable_rdata_slots g env rrtype slots (buf, err) = .ok (out, err') →
      ∀ c ∈ out, c ∈ buf ∨ c = '.' ∨ c ∈ hex := by
  intro slots
  induction slots with
  | nil =>
    intro buf err out err' _ h c hc
    simp only [sortable_rdata_slots, Except.ok.injEq, Prod.mk.injEq] at h
    exact Or.inl (h.1 ▸ hc)
  | cons s slots ih =>
    intro buf err out err' hv h c hc
    cases s with
    | none =>
      rw [sortable_rdata_slots] at h
      exact ih _ _ _ _ hv h c hc
    | some v =>
      rw [sortable_rdata_slots] at h
      cases hd : sortable_rdatum env buf rrtype v with
      | error e => rw [hd] at h; cases h
      | ok b =>
        rw [hd] at h
        rcases ih _ _ _ _ (fun w hw => hv w (List.mem_cons_of_mem v hw)) h c hc with h1 | h1
        · exact sortable_rdatum_bytes env buf rrtype v b h4 h6
            (hv v (List.mem_cons_self v _)) hd c h1
        · exact Or.inr h1

/-- The bytes of the rdata key of a tuple with ASCII values are dots and hex
digits, when the address parser returns bytes. -/
theorem sortable_rdata_bytes (g : Globals) (env : Env) (tup : pdns_tuple) (key err : Bytes)
    (h4 : ∀ s a, env.inet_pton4 s = some a → ∀ x ∈ a, x < 256)
    (h6 : ∀ s a, env.inet_pton6 s = some a → ∀ x ∈ a, x < 256)
    (hdata : ∀ c ∈ tup.rdata, c.toNat < 128)
    (harr : ∀ v ∈ (tup.rdata_array.getD []).filterMap id, ∀ c ∈ v, c.toNat < 128)
    (h : sortable_rdata g env tup = .ok (key, err)) : ∀ c ∈ key, c = '.' ∨ c ∈ hex := by
  intro c hc
  unfold sortable_rdata at h
  cases ha : tup.rdata_array with
  | some slots =>
    rw [ha] at h harr
    rcases sortable_rdata_slots_bytes g env tup.rrtype h4 h6 slots [] [] key err harr h c hc
      with h1 | h1
    · cases h1
    · exact h1
  | none =>
    rw [ha] at h
    cases hd : sortable_rdatum env [] tup.rrtype tup.rdata with
    | error e => rw [hd] at h; cases h
    | ok b =>
      rw [hd] at h
      simp only [Except.ok.injEq, Prod.mk.injEq] at h
      rcases sortable_rdatum_bytes env [] tup.rrtype tup.rdata b h4 h6 hdata hd c (h.1 ▸ hc)
        with h1 | h1
      · cases h1
      · exact h1

/-- C17 (counterexample): a record that begins with a space comes back
without it, and after an empty rdata key (a TXT record with an empty value)
the record `a b` comes back as `b`. -/
theorem sort_prefix_strips_leading_space :
    input_blob_emit globals_sorted env0 tuple_a 1 2 " r".toList
      = .ok { ret := 1, out := "1 2 0 62.61 00000000  r\n".toList, err := [] } ∧
    writer_fini_line globals_sorted env0 drain0 "1 2 0 62.61 00000000  r\n".toList
      = present_record globals_sorted env0 drain0 "r".toList ∧
    present_record globals_sorted env0 drain0 "r".toList
      ≠ present_record globals_sorted env0 drain0 " r".toList ∧
    input_blob_emit globals_sorted env0 tuple_txt 1 2 "a b".toList
      = .ok { ret := 1, out := "1 2 0 62.61  a b\n".toList, err := [] } ∧
    writer_fini_line globals_sorted env0 drain0 "1 2 0 62.61  a b\n".toList
      = present_record globals_sorted env0 drain0 "b".toList ∧
    present_record globals_sorted env0 drain0 "b".toList
      ≠ present_record globals_sorted env0 drain0 "a b".toList := by
  decide

/-- C17 (amended): for every record accepted in sorted mode whose owner name
and rdata values are ASCII (the address parser returning bytes), whose bytes
hold no newline and no NUL and do not begin with a space, and whose rdata
key, when one is computed, is not empty: the two keys on the line that
`input_blob` writes to the sort process hold neither a NUL nor a space, so
that they are printed whole, and the prefix stripping done by `writer_fini`
(below the output limit) on that line yields exactly the record bytes: they
are what is passed to `tuple_make` and to the presenter. -/
theorem sort_prefix_round_trip (g : Globals) (env : Env) (st : drain_state)
    (tup : pdns_tuple) (first last : Nat) (buf : Bytes) (r : blob_result)
    (hs : g.sorted ≠ .no_sort)
    (hemit : input_blob_emit g env tup first last buf = .ok r)
    (hlim : ¬ (g.output_limit ≠ -1 ∧ st.count ≥ g.output_limit))
    (hnl : '\n' ∉ buf) (hnul : '\x00' ∉ buf) (hsp : buf.head? ≠ some ' ')
    (hkey : ∀ k e, input_blob_rdata g env tup = .ok (some k, e) → k ≠ [])
    (hname : ∀ c ∈ tup.rrname, c.toNat < 128)
    (hdata : ∀ c ∈ tup.rdata, c.toNat < 128)
    (harr : ∀ v ∈ (tup.rdata_array.getD []).filterMap id, ∀ c ∈ v, c.toNat < 128)
    (h4 : ∀ s a, env.inet_pton4 s = some a → ∀ x ∈ a, x < 256)
    (h6 : ∀ s a, env.inet_pton6 s = some a → ∀ x ∈ a, x < 256) :
    ∃ nk dk, r.out = sort_line first last tup.count nk dk buf ∧
      ('\x00' ∉ nk.getD "n/a".toList ∧ ' ' ∉ nk.getD "n/a".toList) ∧
      ('\x00' ∉ dk.getD "n/a".toList ∧ ' ' ∉ dk.getD "n/a".toList) ∧
      writer_fini_line g env st r.out = present_record g env st buf := by
  have hna : "n/a".toList ≠ [] ∧ '\x00' ∉ "n/a".toList ∧ ' ' ∉ "n/a".toList := by decide
  unfold input_blob_emit at hemit
  rw [if_pos hs] at hemit
  cases hn : input_blob_rrname g tup with
  | error e => rw [hn] at hemit; cases hemit
  | ok nk =>
    rw [hn] at hemit
    cases hd : input_blob_rdata g env tup with
    | error e => rw [hd] at hemit; cases hemit
    | ok pr =>
      obtain ⟨dk, err⟩ := pr
      rw [hd] at hemit
      simp only [Except.ok.injEq] at hemit
      subst hemit
      have hnk : nk.getD "n/a".toList ≠ [] ∧ '\x00' ∉ nk.getD "n/a".toList ∧
          ' ' ∉ nk.getD "n/a".toList := by
        unfold input_blob_rrname at hn
        split_ifs at hn
        · cases hk : sortable_rrname tup with
          | error e => rw [hk] at hn; cases hn
          | ok key =>
            rw [hk] at hn
            cases hn
            have h1 := (sortable_dnsname_chars [] tup.rrname key hk).1
            have h2 : ∀ c ∈ key, c = '.' ∨ c ∈ hex := by
              intro c hc
              rcases sortable_dnsname_bytes [] tup.rrname key hname hk c hc with h3 | h3
              · cases h3
              · exact h3
            exact ⟨h1, fun hm => (key_byte_ne _ (h2 _ hm)).1 rfl,
              fun hm => (key_byte_ne _ (h2 _ hm)).2 rfl⟩
        · cases hn; exact hna
      have hdk : dk.getD "n/a".toList ≠ [] ∧ '\x00' ∉ dk.getD "n/a".toList ∧
          ' ' ∉ dk.getD "n/a".toList := by
        cases dk with
        | none => exact hna
        | some k =>
          refine ⟨hkey k err hd, ?_⟩
          unfold input_blob_rdata at hd
          split_ifs at hd
          · cases hk : sortable_rdata g env tup with
            | error e => rw [hk] at hd; cases hd
            | ok pr =>
              obtain ⟨key, e2⟩ := pr
              rw [hk] at hd
              simp only [Except.ok.injEq, Prod.mk.injEq, Option.some.injEq] at hd
              have h2 : ∀ c ∈ k, c = '.' ∨ c ∈ hex := by
                intro c hc
                exact sortable_rdata_bytes g env tup key e2 h4 h6 hdata harr hk c
                  (by rw [hd.1]; exact hc)
              exact ⟨fun hm => (key_byte_ne _ (h2 _ hm)).1 rfl,
                fun hm => (key_byte_ne _ (h2 _ hm)).2 rfl⟩
          · simp at hd
      exact ⟨nk, dk, rfl, hnk.2, hdk.2,
        writer_fini_line_sort_line g env st first last tup.count nk dk buf hlim hnl hnul hsp
          hnk.1 hnk.2.2 hdk.1 hdk.2.2⟩

/-- Witness of `sort_prefix_round_trip`: the record `r` of an A tuple. -/
theorem sort_prefix_round_trip_witness :
    ∃ nk dk, "1 2 0 62.61 00000000 r\n".toList = sort_line 1 2 tuple_a.count nk dk "r".toList ∧
      ('\x00' ∉ nk.getD "n/a".toList ∧ ' ' ∉ nk.getD "n/a".toList) ∧
      ('\x00' ∉ dk.getD "n/a".toList ∧ ' ' ∉ dk.getD "n/a".toList) ∧
      writer_fini_line globals_sorted env0 drain0 "1 2 0 62.61 00000000 r\n".toList
        = present_record globals_sorted env0 drain0 "r".toList :=
  sort_prefix_round_trip globals_sorted env0 drain0 tuple_a 1 2 "r".toList
    { ret := 1, out := "1 2 0 62.61 00000000 r\n".toList, err := [] }
    (by decide) (by decide) (by decide) (by decide) (by decide) (by decide)
    (fun k e h => by
      have h2 : input_blob_rdata globals_sorted env0 tuple_a
          = .ok (some "00000000".toList, []) := by decide
      rw [h2] at h
      simp only [Except.ok.injEq, Prod.mk.injEq, Option.some.injEq] at h
      rw [← h.1]
      decide)
    (by decide) (by decide) (by decide)
    (fun s a h => by simp [env0] at h) (fun s a h => by simp [env0] at h)

/-! ### HTTP errors -/

/-- The deframing loop leaves the status, the message, the once flag and the
reader list of the writer as they are. -/
theorem writer_func_loop_status (g : Globals) (env : Env) (after before : Nat) :
    ∀ (fuel : Nat) (rd : reader) (w : writer) (p : Proc) (rd1 : reader) (w1 : writer)
      (p1 : Proc),
      writer_func_loop g env after before fuel rd w p = .ok (rd1, w1, p1) →
      w1.status = w.status ∧ w1.message = w.message ∧ w1.once = w.once ∧
        w1.readers = w.readers := by
  intro fuel
  induction fuel with
  | zero => intro rd w p rd1 w1 p1 h; simp [writer_func_loop] at h
  | succ fuel ih =>
    intro rd w p rd1 w1 p1 h
    rw [writer_func_loop] at h
    cases hm : memchr_nl rd.buf with
    | none =>
      rw [hm] at h
      simp only [Except.ok.injEq, Prod.mk.injEq] at h
      obtain ⟨_, rfl, _⟩ := h
      exact ⟨rfl, rfl, rfl, rfl⟩
    | some k =>
      rw [hm] at h
      dsimp only at h
      by_cases hi : g.info = true
      · rw [if_pos hi] at h
        simp only [Except.ok.injEq, Prod.mk.injEq] at h
        obtain ⟨_, rfl, _⟩ := h
        exact ⟨rfl, rfl, rfl, rfl⟩
      · rw [if_neg hi] at h
        by_cases hc : g.sorted = .no_sort ∧ g.output_limit ≠ -1 ∧ w.count ≥ g.output_limit
        · rw [if_pos hc] at h
          simp only [Except.ok.injEq, Prod.mk.injEq] at h
          obtain ⟨_, rfl, _⟩ := h
          exact ⟨rfl, rfl, rfl, rfl⟩
        · rw [if_neg hc] at h
          cases hb : input_blob g env (rd.buf.take k) after before with
          | error e => rw [hb] at h; cases h
          | ok r =>
            rw [hb] at h
            dsimp only at h
            have hh := ih _ _ _ _ _ _ h
            exact hh

/-- `writer_status` returns only on a writer that has neither status nor
message, and installs the two strings. -/
theorem writer_status_ok (w w1 : writer) (s m : CStr) (h : writer_status w s m = .ok w1) :
    (w.status = none ∧ w.message = none) ∧
      w1 = { w with status := some s, message := some m } := by
  unfold writer_status at h
  by_cases h1 : decide (w.status = none) ≠ decide (w.message = none)
  · rw [if_pos h1] at h; cases h
  · rw [if_neg h1] at h
    by_cases h2 : w.status ≠ none
    · rw [if_pos h2] at h; cases h
    · rw [if_neg h2] at h
      simp only [Except.ok.injEq] at h
      have hs : w.status = none := not_not.mp h2
      have hm : w.message = none := by
        simp only [hs, ne_eq, not_not, decide_True] at h1
        simpa using h1.symm
      exact ⟨⟨hs, hm⟩, h.symm⟩

/-- The branch for a failing transfer, when it returns: some byte was
buffered and the buffer is emptied; no record is handed to `input_blob` and
nothing is written to stdout; a writer whose once flag is up is left as it
is; a writer whose flag is down had neither status nor message, and gets
them with the flag raised. -/
theorem writer_func_failed_ok (g : Globals) (env : Env) (rd : reader) (w : writer) (p : Proc)
    (rd1 : reader) (w1 : writer) (p1 : Proc)
    (h : writer_func_failed g env rd w p = .ok (rd1, w1, p1)) :
    rd.buf ≠ [] ∧ rd1 = { rd with buf := [] } ∧
    (w.once = true → w1 = w) ∧
    (w.once = false → (w.status = none ∧ w.message = none) ∧
      w1 = writer_failed w (env.sys_status rd) (error_message rd.buf)) ∧
    p1.blobs = p.blobs ∧ p1.stdout = p.stdout := by
  unfold writer_func_failed at h
  dsimp only at h
  by_cases ho : w.once = true
  · rw [if_pos ho] at h
    by_cases hb : rd.buf = []
    · rw [if_pos hb] at h; cases h
    · rw [if_neg hb] at h
      simp only [Except.ok.injEq, Prod.mk.injEq] at h
      obtain ⟨rfl, rfl, rfl⟩ := h
      exact ⟨hb, rfl, fun _ => rfl, fun hf => absurd ho (by rw [hf]; decide), rfl, rfl⟩
  · rw [if_neg ho] at h
    cases hws : writer_status w (env.sys_status rd)
        ((rd.buf.takeWhile (fun c => c ≠ '\x00')).takeWhile (fun c => c ≠ '\n')) with
    | error e => rw [hws] at h; cases h
    | ok w2 =>
      rw [hws] at h
      dsimp only at h
      by_cases hb : rd.buf = []
      · rw [if_pos hb] at h; cases h
      · rw [if_neg hb] at h
        simp only [Except.ok.injEq, Prod.mk.injEq] at h
        obtain ⟨rfl, rfl, rfl⟩ := h
        obtain ⟨hinv, rfl⟩ := writer_status_ok w w2 _ _ hws
        exact ⟨hb, rfl, fun h1 => absurd h1 ho, fun _ => ⟨hinv, rfl⟩, rfl, rfl⟩

/-- The branch for a failing transfer returns when some byte is buffered and
the writer has neither status nor message while its once flag is down. -/
theorem writer_func_failed_eq (g : Globals) (env : Env) (rd : reader) (w : writer) (p : Proc)
    (hinv : w.once = false → w.status = none ∧ w.message = none) (hne : rd.buf ≠ []) :
    ∃ p1, writer_func_failed g env rd w p
        = .ok ({ rd with buf := [] },
               (if w.once then w
                else { w with status := some (env.sys_status rd),
                              message := some ((rd.buf.takeWhile (fun c => c ≠ '\x00')).takeWhile
                                (fun c => c ≠ '\n')),
                              once := true }), p1) ∧
      p1.blobs = p.blobs ∧ p1.stdout = p.stdout := by
  obtain ⟨readers, after, before, sort_stdin, sort_pid, sort_killed, count, status, message,
    once⟩ := w
  cases once with
  | true =>
    unfold writer_func_failed
    dsimp only
    rw [if_pos rfl, if_neg hne]
    exact ⟨_, rfl, rfl, rfl⟩
  | false =>
    obtain ⟨h1, h2⟩ := hinv rfl
    dsimp only at h1 h2
    subst h1 h2
    unfold writer_func_failed
    dsimp only
    rw [if_neg (by decide)]
    simp only [writer_status, decide_True, ne_eq, not_true_eq_false, if_false, if_neg hne]
    exact ⟨_, rfl, rfl, rfl⟩

/-- The branch for a failing transfer on a writer that has a status while
its once flag is down: the call ends in an assertion of `writer_status`. -/
theorem writer_func_failed_asserts (g : Globals) (env : Env) (rd : reader) (w : writer)
    (p : Proc) (ho : w.once = false) (hs : w.status ≠ none) :
    ∃ what, writer_func_failed g env rd w p = .error (.assertion what) := by
  unfold writer_func_failed
  dsimp only
  rw [if_neg (by rw [ho]; decide)]
  unfold writer_status
  by_cases h1 : decide (w.status = none) ≠ decide (w.message = none)
  · rw [if_pos h1]; exact ⟨_, rfl⟩
  · rw [if_neg h1, if_pos hs]; exact ⟨_, rfl⟩

/-- The two branches of `writer_func`, on the reader with the chunk appended
and the response code read. -/
theorem writer_func_cases (g : Globals) (env : Env) (ptr : Bytes) (code : Int) (rd : reader)
    (w : writer) (p : Proc) :
    ∃ rd2 : reader, writer_func g env ptr code rd w p
      = if rd2.easy ∧ rd2.rcode ≠ 200 then
          match writer_func_failed g env rd2 w p with
          | .error e => .error e
          | .ok st => .ok (ptr.length, st)
        else
          match writer_func_loop g env w.after w.before (rd2.buf.length + 1) rd2 w p with
          | .error e => .error e
          | .ok st => .ok (ptr.length, st) :=
  ⟨_, rfl⟩

/-- The two branches of `writer_func`, with the reader they work on: its
buffer is the old buffer followed by the chunk, and the failing branch is
taken exactly by a live reader whose response code, read with this call if
it was not known, is not 200. -/
theorem writer_func_cases_reader (g : Globals) (env : Env) (ptr : Bytes) (code : Int)
    (rd : reader) (w : writer) (p : Proc) :
    ∃ rd2 : reader, rd2.buf = rd.buf ++ ptr ∧
      ((rd2.easy = true ∧ rd2.rcode ≠ 200) ↔ (rd.easy = true ∧ rcode_known rd code ≠ 200)) ∧
      (rd.easy = true → rd2 = reader_filled rd ptr code) ∧
      writer_func g env ptr code rd w p
      = if rd2.easy ∧ rd2.rcode ≠ 200 then
          match writer_func_failed g env rd2 w p with
          | .error e => .error e
          | .ok st => .ok (ptr.length, st)
        else
          match writer_func_loop g env w.after w.before (rd2.buf.length + 1) rd2 w p with
          | .error e => .error e
          | .ok st => .ok (ptr.length, st) := by
  obtain ⟨url, easy, buf, rcode⟩ := rd
  by_cases h0 : easy = true ∧ rcode = 0
  · refine ⟨⟨url, easy, buf ++ ptr, code⟩, rfl, ?_, ?_, ?_⟩
    · simp [rcode_known, h0.2]
    · intro _; simp [reader_filled, rcode_known, h0.2]
    · unfold writer_func
      dsimp only
      rw [if_pos h0]
  · refine ⟨⟨url, easy, buf ++ ptr, rcode⟩, rfl, ?_, ?_, ?_⟩
    · unfold rcode_known
      dsimp only
      constructor
      · intro h
        have hr : rcode ≠ 0 := fun e => h0 ⟨h.1, e⟩
        rw [if_neg hr]; exact h
      · intro h
        have hr : rcode ≠ 0 := fun e => h0 ⟨h.1, e⟩
        rw [if_neg hr] at h; exact h
    · intro he
      dsimp only at he
      have hr : rcode ≠ 0 := fun e => h0 ⟨he, e⟩
      simp [reader_filled, rcode_known, hr]
    · unfold writer_func
      dsimp only
      rw [if_neg h0]

/-- Any call of `writer_func` that returns keeps the invariant, and keeps
status and message once the flag is up. -/
theorem writer_func_status (g : Globals) (env : Env) (ptr : Bytes) (code : Int) (rd : reader)
    (w : writer) (p : Proc) (n : Nat) (rd1 : reader) (w1 : writer) (p1 : Proc)
    (hinv : w.once = false → w.status = none ∧ w.message = none)
    (h : writer_func g env ptr code rd w p = .ok (n, rd1, w1, p1)) :
    (w1.once = false → w1.status = none ∧ w1.message = none) ∧
    (w.once = true → w1.once = true ∧ w1.status = w.status ∧ w1.message = w.message) ∧
    w1.readers = w.readers := by
  obtain ⟨rd2, e⟩ := writer_func_cases g env ptr code rd w p
  rw [e] at h
  by_cases hc : rd2.easy ∧ rd2.rcode ≠ 200
  · rw [if_pos hc] at h
    cases hff : writer_func_failed g env rd2 w p with
    | error e2 => rw [hff] at h; cases h
    | ok st =>
      obtain ⟨rd3, w3, p3⟩ := st
      rw [hff] at h
      simp only [Except.ok.injEq, Prod.mk.injEq] at h
      obtain ⟨_, _, rfl, _⟩ := h
      obtain ⟨_, _, a1, a2, _, _⟩ := writer_func_failed_ok g env rd2 w p _ _ _ hff
      cases ho : w.once with
      | true =>
        rw [a1 ho]
        exact ⟨hinv, fun _ => ⟨ho, rfl, rfl⟩, rfl⟩
      | false =>
        rw [(a2 ho).2]
        exact ⟨fun h1 => by simp [writer_failed] at h1, fun h1 => by simp at h1, rfl⟩
  · rw [if_neg hc] at h
    cases hl : writer_func_loop g env w.after w.before (rd2.buf.length + 1) rd2 w p with
    | error e => rw [hl] at h; cases h
    | ok st =>
      obtain ⟨rd3, w3, p3⟩ := st
      rw [hl] at h
      simp only [Except.ok.injEq, Prod.mk.injEq] at h
      obtain ⟨_, _, rfl, _⟩ := h
      obtain ⟨h1, h2, h3, h4⟩ := writer_func_loop_status g env _ _ _ _ _ _ _ _ _ hl
      rw [h1, h2, h3, h4]
      exact ⟨hinv, fun ho => ⟨ho, rfl, rfl⟩, rfl⟩

/-- The callback invocations of one `io_engine` call keep the invariant, and
keep status and message once the flag is up. -/
theorem io_engine_events_status (g : Globals) (env : Env) :
    ∀ (evs : List curl_event) (w : writer) (p : Proc) (w1 : writer) (p1 : Proc),
      (w.once = false → w.status = none ∧ w.message = none) →
      io_engine_events g env evs w p = .ok (w1, p1) →
      (w1.once = false → w1.status = none ∧ w1.message = none) ∧
      (w.once = true → w1.once = true ∧ w1.status = w.status ∧ w1.message = w.message) := by
  intro evs
  induction evs with
  | nil =>
    intro w p w1 p1 hinv h
    simp only [io_engine_events, Except.ok.injEq, Prod.mk.injEq] at h
    obtain ⟨rfl, _⟩ := h
    exact ⟨hinv, fun ho => ⟨ho, rfl, rfl⟩⟩
  | cons ev evs ih =>
    intro w p w1 p1 hinv h
    rw [io_engine_events] at h
    cases hr : w.readers.get? ev.reader with
    | none =>
      rw [hr] at h
      exact ih _ _ _ _ hinv h
    | some rd =>
      rw [hr] at h
      simp only at h
      cases hf : writer_func g env ev.ptr ev.response_code rd w p with
      | error e => rw [hf] at h; cases h
      | ok st =>
        obtain ⟨n, rd2, w2, p2⟩ := st
        rw [hf] at h
        simp only at h
        obtain ⟨i1, i2, _⟩ := writer_func_status g env _ _ _ _ _ _ _ _ _ hinv hf
        obtain ⟨j1, j2⟩ := ih { w2 with readers := w2.readers.set ev.reader rd2 } p2 w1 p1 i1 h
        refine ⟨j1, ?_⟩
        intro ho
        obtain ⟨k1, k2, k3⟩ := i2 ho
        obtain ⟨l1, l2, l3⟩ := j2 k1
        exact ⟨l1, l2.trans k2, l3.trans k3⟩

/-- The message of a failing transfer stops at a NUL: the payload `a\0b\nc`
of a 404 response is recorded as the message `a`, not as the payload up to
its first newline. -/
theorem writer_func_message_stops_at_nul :
    writer_func globals0 env0 "a\x00b\nc".toList 404 reader_live writer0 proc0
      = .ok (5, reader_failed reader_live 404,
             writer_failed writer0 "ERROR".toList "a".toList,
             { proc0 with stderr :=
                "dnsdbq: warning: libcurl 404 []\ndnsdbq: warning: libcurl: [a]\n".toList }) ∧
    "a\x00b\nc".toList.takeWhile (fun c => c ≠ '\n') = "a\x00b".toList := by
  decide

/-- A call of `writer_func` on a live reader whose response code is, or
becomes with this call, a value other than 200, with some byte buffered, on
a writer that has neither status nor message while its once flag is down:
the call returns the byte count, hands no record to `input_blob`, writes
nothing to stdout and leaves the reader with an empty buffer; it installs
the status and the message and raises the flag when the flag was down, and
leaves the writer as it is when the flag was up. The message is the buffered
payload up to its first NUL or newline, which is the payload up to its first
newline when the payload holds no NUL. -/
theorem writer_func_failing_chunk (g : Globals) (env : Env) (ptr : Bytes) (code : Int)
    (rd : reader) (w : writer) (p : Proc)
    (he : rd.easy = true) (hcode : rcode_known rd code ≠ 200)
    (hinv : w.once = false → w.status = none ∧ w.message = none)
    (hne : rd.buf ++ ptr ≠ []) :
    (∃ p1, writer_func g env ptr code rd w p
        = .ok (ptr.length, reader_failed rd code,
               (if w.once then w
                else writer_failed w (env.sys_status (reader_filled rd ptr code))
                       (error_message (rd.buf ++ ptr))), p1) ∧
      p1.blobs = p.blobs ∧ p1.stdout = p.stdout) ∧
    ('\x00' ∉ rd.buf ++ ptr →
      error_message (rd.buf ++ ptr) = (rd.buf ++ ptr).takeWhile (fun c => c ≠ '\n')) := by
  refine ⟨?_, ?_⟩
  · obtain ⟨rd2, _, hbr, hrd, e⟩ := writer_func_cases_reader g env ptr code rd w p
    have e2 := hrd he
    subst e2
    obtain ⟨p1, e1, b1, b2⟩ := writer_func_failed_eq g env (reader_filled rd ptr code) w p
      hinv hne
    rw [e, if_pos (hbr.mpr ⟨he, hcode⟩), e1]
    exact ⟨p1, rfl, b1, b2⟩
  · intro hn
    unfold error_message
    have e : (rd.buf ++ ptr).takeWhile (fun c => c ≠ '\x00') = rd.buf ++ ptr := by
      rw [List.takeWhile_eq_self_iff]
      intro c hc
      have : c ≠ '\x00' := fun e => hn (e ▸ hc)
      simpa using this
    rw [e]

/-- A call of `writer_func` on a live reader whose response code is, or
becomes with this call, a value other than 200, on a writer that has a
status while its once flag is down: the call does not return, it ends in an
assertion of `writer_status`. -/
theorem writer_func_failing_chunk_asserts (g : Globals) (env : Env) (ptr : Bytes) (code : Int)
    (rd : reader) (w : writer) (p : Proc)
    (he : rd.easy = true) (hcode : rcode_known rd code ≠ 200)
    (ho : w.once = false) (hs : w.status ≠ none) :
    ∃ what, writer_func g env ptr code rd w p = .error (.assertion what) := by
  obtain ⟨rd2, _, hbr, _, e⟩ := writer_func_cases_reader g env ptr code rd w p
  obtain ⟨what, e1⟩ := writer_func_failed_asserts g env rd2 w p ho hs
  rw [e, if_pos (hbr.mpr ⟨he, hcode⟩), e1]
  exact ⟨what, rfl⟩

set_option maxRecDepth 100000 in
/-- C19 (as the code behaves): `do_batch` records a batch line that fails to
parse with `writer_status`, which leaves the once flag of the writer down.
In merge mode the writer is shared by all lines, so the first failing chunk
of a later line (here the 404 response to the second line) calls
`writer_status` on a writer that has the status PARSE, and the assertion
`writer->status == NULL` fails: the chunk sets neither status nor message
and does not raise the flag, the process is aborted. With the same lines and
merge off the second line has its own writer, on which the failing chunk
records the status once. -/
theorem writer_func_http_error_after_parse_failure :
    writer_status writer0 "PARSE".toList "unrecognized initial term".toList
      = .ok writer_parse_failed ∧
    writer_func globals_batch_merge env0 "no\n".toList 404 reader_live writer_parse_failed proc0
      = .error (.assertion "writer->status == NULL") ∧
    do_batch globals_batch_merge env0 ["x\n".toList, "rrset/name/y\n".toList] 0 0
        [script_idle, script_idle, script_404] proc0
      = .error (.assertion "writer->status == NULL") ∧
    do_batch globals_batch env0 ["x\n".toList, "rrset/name/y\n".toList] 0 0
        [script_idle, script_404] proc0
      = .ok { proc0 with
          stdout := "--\n--\n".toList,
          stderr := ("dnsdbq: batch line status: PARSE (unrecognized initial term)\n"
                      ++ "dnsdbq: warning: libcurl 404 [https://h/lookup/rrset/name/y]\n"
                      ++ "dnsdbq: warning: libcurl: [no]\n"
                      ++ "dnsdbq: batch line status: ERROR (no)\n").toList } ∧
    writer_func globals_batch env0 "no\n".toList 404 reader_live writer0 proc0
      = .ok (3, reader_failed reader_live 404,
             writer_failed writer0 "ERROR".toList "no".toList,
             { proc0 with stderr :=
                "dnsdbq: warning: libcurl 404 []\ndnsdbq: warning: libcurl: [no]\n".toList }) := by
  decide

/-! ### Sort keys -/

/-- C18 (as the code behaves): a key name is accepted in any case by
`add_sort_key` but looked up by `find_sort_key` with `strcmp`. After
`-s -k FIRST` the completion step adds `first` once more and finds no room
for `data`, and the rdata key is not computed; `-s -k first,FIRST` is not
rejected. With lower-case names the vector is completed as described, and a
repeated name is rejected. -/
theorem sort_keys_uppercase_duplicate :
    sort_argv_of [.s, .k "FIRST".toList]
      = .ok ["sort".toList, "-u".toList, "-k1n".toList, "-k1n".toList, "-k2n".toList,
             "-k3n".toList, "-k4".toList] ∧
    ((sort_options [.s, .k "FIRST".toList] globals0).bind validate_sort_keys).map
        (fun g => g.sort_bydata) = .ok false ∧
    sort_argv_of [.s, .k "first,FIRST".toList]
      = .ok ["sort".toList, "-u".toList, "-k1n".toList, "-k1n".toList, "-k2n".toList,
             "-k3n".toList, "-k4".toList] ∧
    sort_argv_of [.s, .k "name,first".toList]
      = .ok ["sort".toList, "-u".toList, "-k4".toList, "-k1n".toList, "-k2n".toList,
             "-k3n".toList, "-k5".toList] ∧
    sort_argv_of [.s, .k "first,first".toList]
      = .error (.usage "Each sort key may only be specified once") := by
  decide

set_option maxRecDepth 1000000 in
set_option maxHeartbeats 4000000 in
/-- With lower-case key names given once each, in any order and number, the
vector is the given keys followed by the missing ones in canonical order;
with `-S` every key carries the suffix `r`. -/
theorem sort_keys_lowercase_complete :
    ∀ toks ∈ arrangements key_names,
      sort_argv_of [.s, .k ([','].intercalate toks)]
        = .ok ("sort".toList :: "-u".toList :: (completed_names toks).map key_spec) ∧
      sort_argv_of [.S, .k ([','].intercalate toks)]
        = .ok ("sort".toList :: "-u".toList ::
            (completed_names toks).map (fun n => key_spec n ++ ['r'])) := by
  decide

/-! ### Strict and overlap fencing -/

theorem sortable_rdata_slots_complete (g : Globals) (env : Env) (c : Bool) (rrtype : CStr) :
    ∀ (slots : List (Option CStr)) (st : Bytes × Bytes),
      sortable_rdata_slots { g with complete := c } env rrtype slots st
        = sortable_rdata_slots g env rrtype slots st := by
  intro slots
  induction slots with
  | nil => intro st; rfl
  | cons s slots ih =>
    intro st
    obtain ⟨buf, err⟩ := st
    cases s with
    | none => simp only [sortable_rdata_slots]; exact ih _
    | some v =>
      simp only [sortable_rdata_slots]
      cases sortable_rdatum env buf rrtype v with
      | error e => rfl
      | ok b => exact ih _

/-- The output stage of `input_blob` does not read `complete`. -/
theorem input_blob_emit_complete (g : Globals) (env : Env) (c : Bool) (tup : pdns_tuple)
    (first last : Nat) (buf : Bytes) :
    input_blob_emit { g with complete := c } env tup first last buf
      = input_blob_emit g env tup first last buf := by
  have h : sortable_rdata { g with complete := c } env tup = sortable_rdata g env tup := by
    unfold sortable_rdata
    cases tup.rdata_array with
    | none => rfl
    | some slots => exact sortable_rdata_slots_complete g env c tup.rrtype slots ([], [])
  simp only [input_blob_emit, input_blob_rrname, input_blob_rdata, h]

/-- C25: for a record interval with `first ≤ last`, a record that the time
fence accepts in strict mode (`complete`) is accepted in overlap mode too:
`whynot` stays NULL, and a call of `input_blob` that returns 1 in strict
mode returns the same result in overlap mode. Without `first ≤ last` this
fails: the interval (10, 5) passes the fence `after = 7` in strict mode only. -/
theorem strict_fence_implies_overlap (g : Globals) (env : Env) (buf : Bytes)
    (tup : pdns_tuple) (first last after before : Nat)
    (hp : env.tuple_make buf = .ok tup) (hi : tuple_interval tup = (first, last))
    (hle : first ≤ last)
    (hs : input_blob_whynot true first last after before = none) :
    input_blob_whynot false first last after before = none ∧
    (fence_accepts true first last after before →
      fence_accepts false first last after before) ∧
    input_blob { g with complete := false } env buf after before
      = input_blob { g with complete := true } env buf after before ∧
    (input_blob_whynot true 10 5 7 0 = none ∧ input_blob_whynot false 10 5 7 0 ≠ none) := by
  have ha : fence_accepts true first last after before :=
    (input_blob_whynot_none_iff true first last after before).mp hs
  have hb : fence_accepts false first last after before := by
    unfold fence_accepts at ha ⊢
    obtain ⟨h1, h2⟩ := ha
    refine ⟨?_, ?_⟩
    · rcases h1 with h | ⟨_, h⟩ | ⟨h, _⟩
      · exact Or.inl h
      · exact Or.inr (Or.inr ⟨rfl, by omega⟩)
      · cases h
    · rcases h2 with h | ⟨_, h⟩ | ⟨h, _⟩
      · exact Or.inl h
      · exact Or.inr (Or.inr ⟨rfl, by omega⟩)
      · cases h
  have hn : input_blob_whynot false first last after before = none :=
    (input_blob_whynot_none_iff false first last after before).mpr hb
  refine ⟨hn, fun _ => hb, ?_, by decide⟩
  unfold input_blob
  simp only [hp, hi, hs, hn]
  rw [input_blob_emit_complete g env false, input_blob_emit_complete g env true]

/-- Witness of `strict_fence_implies_overlap`: the interval (150, 180) and
the fence (100, 200). -/
theorem strict_fence_implies_overlap_witness :
    input_blob_whynot false 150 180 100 200 = none ∧
    input_blob { globals0 with complete := false } env0 "r".toList 100 200
      = input_blob { globals0 with complete := true } env0 "r".toList 100 200 :=
  have h := strict_fence_implies_overlap globals0 env0 "r".toList
    { tuple0 with time_first := 150, time_last := 180 } 150 180 100 200 rfl (by decide)
    (by decide) (by decide)
  ⟨h.1, h.2.2.1⟩

/-! ### Sizes of the keys -/

/-- C27: for every non-empty name with `d` dots and every starting buffer,
`sortable_dnsname` returns (neither `m == -1` nor `buf->size == new_size`
fails; the first loop ends with `m + 1 = 0`), the bytes already in the
buffer are kept, and exactly `2 * len - d` bytes are added, which is the
size the buffer was reallocated to. `sortable_hexify` of `n` byte values
adds exactly `2 * n` characters, all of them in `0123456789abcdef`. -/
theorem sortable_dnsname_size (buf : Bytes) (name : CStr) (hne : name ≠ []) :
    (∃ key, sortable_dnsname buf name = .ok (buf ++ key) ∧
      key.length = 2 * name.length - name.count '.' ∧
      (buf ++ key).length = buf.length + name.length * 2 - name.count '.') ∧
    (dnsname_loop name name.length name.length buf).1 = 0 ∧
    (∀ (buf : Bytes) (src : List Nat), (∀ ch ∈ src, ch < 256) →
      ∃ k, sortable_hexify buf src = buf ++ k ∧ k.length = 2 * src.length ∧
        ∀ c ∈ k, c ∈ "0123456789abcdef".toList) := by
  have hlen := key_of_length dnsname_hex (fun c => rfl) name
  have hcount : name.count '.' ≤ name.length := List.count_le_length _ _
  refine ⟨⟨key_of dnsname_hex name, sortable_dnsname_nonempty buf name hne, by omega, ?_⟩,
    ?_, ?_⟩
  · rw [List.length_append]; omega
  · obtain ⟨n1, out1, h1, _⟩ := dnsname_loop_key name [] [] buf (by simp)
    simp only [List.append_nil, List.length_nil, Nat.add_zero] at h1
    rw [h1]
  · intro buf src hsrc
    refine ⟨hex_expand src, sortable_hexify_eq src hsrc buf, ?_, ?_⟩
    · clear hsrc
      induction src with
      | nil => rfl
      | cons ch src ih =>
        simp only [hex_expand, List.map_cons, List.flatten_cons, List.length_append,
          List.length_cons] at ih ⊢
        simp only [hex_pair, List.length_cons, List.length_nil]
        omega
    · have hd : ∀ d, d < 16 → hex_digit d ∈ "0123456789abcdef".toList := by decide
      intro c hc
      simp only [hex_expand, List.mem_flatten, List.mem_map] at hc
      obtain ⟨l, ⟨ch, hch, rfl⟩, hcl⟩ := hc
      have hlt := hsrc ch hch
      simp only [hex_pair, List.mem_cons, List.mem_singleton, List.not_mem_nil,
        or_false] at hcl
      rcases hcl with e | e
      · rw [e]; exact hd _ (by omega)
      · rw [e]; exact hd _ (by omega)

/-- Witness of `sortable_dnsname_size`: the name `a.b` on the buffer `x`. -/
theorem sortable_dnsname_size_witness :
    ∃ key, sortable_dnsname "x".toList "a.b".toList = .ok ("x".toList ++ key) ∧
      key.length = 2 * 3 - 1 ∧ ("x".toList ++ key).length = 1 + 3 * 2 - 1 :=
  (sortable_dnsname_size "x".toList "a.b".toList (by decide)).1

/-! ### Batch lines as path fragments -/

/-- Apart from `rrset/raw/<hex>/<type>/<bailiwick>`, a batch line in one of
the forms of §4.8 is the path that `makepath` gives for its query. -/
theorem batch_line_path_forms (name rrtype bailiwick addr pfxlen : CStr)
    (hn : is_term name) (ht : is_term rrtype) (hb : is_term bailiwick)
    (ha : is_term addr) (hp : is_term pfxlen) :
    batch_line_path ("rrset/name/".toList ++ name)
      = some (.ok ("rrset/name/".toList ++ name)) ∧
    batch_line_path ("rrset/name/".toList ++ name ++ "/".toList ++ rrtype)
      = some (.ok ("rrset/name/".toList ++ name ++ "/".toList ++ rrtype)) ∧
    batch_line_path ("rrset/name/".toList ++ name ++ "/".toList ++ rrtype
                      ++ "/".toList ++ bailiwick)
      = some (.ok ("rrset/name/".toList ++ name ++ "/".toList ++ rrtype
                    ++ "/".toList ++ bailiwick)) ∧
    batch_line_path ("rrset/raw/".toList ++ name)
      = some (.ok ("rrset/raw/".toList ++ name)) ∧
    batch_line_path ("rrset/raw/".toList ++ name ++ "/".toList ++ rrtype)
      = some (.ok ("rrset/raw/".toList ++ name ++ "/".toList ++ rrtype)) ∧
    batch_line_path ("rdata/name/".toList ++ name)
      = some (.ok ("rdata/name/".toList ++ name)) ∧
    batch_line_path ("rdata/name/".toList ++ name ++ "/".toList ++ rrtype)
      = some (.ok ("rdata/name/".toList ++ name ++ "/".toList ++ rrtype)) ∧
    batch_line_path ("rdata/raw/".toList ++ name)
      = some (.ok ("rdata/raw/".toList ++ name)) ∧
    batch_line_path ("rdata/raw/".toList ++ name ++ "/".toList ++ rrtype)
      = some (.ok ("rdata/raw/".toList ++ name ++ "/".toList ++ rrtype)) ∧
    batch_line_path ("rdata/ip/".toList ++ addr)
      = some (.ok ("rdata/ip/".toList ++ addr)) ∧
    batch_line_path ("rdata/ip/".toList ++ addr ++ ",".toList ++ pfxlen)
      = some (.ok ("rdata/ip/".toList ++ addr ++ ",".toList ++ pfxlen)) ∧
    batch_line_path ("rrset/raw/".toList ++ name ++ "/".toList ++ rrtype
                      ++ "/".toList ++ bailiwick)
      = some (.ok ("rrset/raw/".toList ++ name ++ "/".toList ++ rrtype)) := by
  have hrrset : is_term "rrset".toList := by decide
  have hrdata : is_term "rdata".toList := by decide
  have hname : is_term "name".toList := by decide
  have hraw : is_term "raw".toList := by decide
  have hip : is_term "ip".toList := by decide
  have hap := is_term_comma addr pfxlen ha hp
  have key : ∀ (line : CStr) (ts : List CStr), terms line = ts →
      batch_line_path line
        = match parse_terms query0 ts with
          | (some _, _) => none
          | (none, q) => some (query_path q) := by
    intro line ts h
    unfold batch_line_path
    rw [batch_parse_eq_parse_terms, h]
  refine ⟨?_, ?_, ?_, ?_, ?_, ?_, ?_, ?_, ?_, ?_, ?_, ?_⟩
  · have e : "rrset/name/".toList ++ name
        = "rrset".toList ++ '/' :: ("name".toList ++ '/' :: name) := by
      simp
    have hts := terms3 _ _ _ hrrset hname hn
    rw [← e] at hts
    rw [key _ _ hts]
    simp [parse_terms, parsed_query, query_path, makepath]
  · have e : "rrset/name/".toList ++ name ++ "/".toList ++ rrtype
        = "rrset".toList ++ '/' :: ("name".toList ++ '/' :: (name ++ '/' :: rrtype)) := by
      simp
    have hts := terms4 _ _ _ _ hrrset hname hn ht
    rw [← e] at hts
    rw [key _ _ hts]
    simp [parse_terms, parsed_query, query_path, makepath]
  · have e : "rrset/name/".toList ++ name ++ "/".toList ++ rrtype ++ "/".toList ++ bailiwick
        = "rrset".toList ++ '/' :: ("name".toList ++ '/' :: (name ++ '/' :: (rrtype ++ '/' :: bailiwick))) := by
      simp
    have hts := terms5 _ _ _ _ _ hrrset hname hn ht hb
    rw [← e] at hts
    rw [key _ _ hts]
    simp [parse_terms, parsed_query, query_path, makepath]
  · have e : "rrset/raw/".toList ++ name
        = "rrset".toList ++ '/' :: ("raw".toList ++ '/' :: name) := by
      simp
    have hts := terms3 _ _ _ hrrset hraw hn
    rw [← e] at hts
    rw [key _ _ hts]
    simp [parse_terms, parsed_query, query_path, makepath]
  · have e : "rrset/raw/".toList ++ name ++ "/".toList ++ rrtype
        = "rrset".toList ++ '/' :: ("raw".toList ++ '/' :: (name ++ '/' :: rrtype)) := by
      simp
    have hts := terms4 _ _ _ _ hrrset hraw hn ht
    rw [← e] at hts
    rw [key _ _ hts]
    simp [parse_terms, parsed_query, query_path, makepath]
  · have e : "rdata/name/".toList ++ name
        = "rdata".toList ++ '/' :: ("name".toList ++ '/' :: name) := by
      simp
    have hts := terms3 _ _ _ hrdata hname hn
    rw [← e] at hts
    rw [key _ _ hts]
    simp [parse_terms, parsed_query, query_path, makepath]
  · have e : "rdata/name/".toList ++ name ++ "/".toList ++ rrtype
        = "rdata".toList ++ '/' :: ("name".toList ++ '/' :: (name ++ '/' :: rrtype)) := by
      simp
    have hts := terms4 _ _ _ _ hrdata hname hn ht
    rw [← e] at hts
    rw [key _ _ hts]
    simp [parse_terms, parsed_query, query_path, makepath]
  · have e : "rdata/raw/".toList ++ name
        = "rdata".toList ++ '/' :: ("raw".toList ++ '/' :: name) := by
      simp
    have hts := terms3 _ _ _ hrdata hraw hn
    rw [← e] at hts
    rw [key _ _ hts]
    simp [parse_terms, parsed_query, query_path, makepath]
  · have e : "rdata/raw/".toList ++ name ++ "/".toList ++ rrtype
        = "rdata".toList ++ '/' :: ("raw".toList ++ '/' :: (name ++ '/' :: rrtype)) := by
      simp
    have hts := terms4 _ _ _ _ hrdata hraw hn ht
    rw [← e] at hts
    rw [key _ _ hts]
    simp [parse_terms, parsed_query, query_path, makepath]
  · have e : "rdata/ip/".toList ++ addr
        = "rdata".toList ++ '/' :: ("ip".toList ++ '/' :: addr) := by
      simp
    have hts := terms3 _ _ _ hrdata hip ha
    rw [← e] at hts
    rw [key _ _ hts]
    simp [parse_terms, parsed_query, query_path, makepath]
  · have e : "rdata/ip/".toList ++ addr ++ ",".toList ++ pfxlen
        = "rdata".toList ++ '/' :: ("ip".toList ++ '/' :: (addr ++ ',' :: pfxlen)) := by
      simp
    have hts := terms3 _ _ _ hrdata hip hap
    rw [← e] at hts
    rw [key _ _ hts]
    simp [parse_terms, parsed_query, query_path, makepath]
  · have e : "rrset/raw/".toList ++ name ++ "/".toList ++ rrtype ++ "/".toList ++ bailiwick
        = "rrset".toList ++ '/' :: ("raw".toList ++ '/' :: (name ++ '/' :: (rrtype ++ '/' :: bailiwick))) := by
      simp
    have hts := terms5 _ _ _ _ _ hrrset hraw hn ht hb
    rw [← e] at hts
    rw [key _ _ hts]
    simp [parse_terms, parsed_query, query_path, makepath]

/-- C28 (as the code behaves): the batch line `rrset/raw/0123/A/com.` is in
the second form of §4.8 and parses to a query with bailiwick `com.`, but
`makepath` gives `rrset/raw/0123/A` for this query, not the line. -/
theorem batch_line_path_raw_rrset_bailiwick :
    is_term "0123".toList ∧ is_term "A".toList ∧ is_term "com.".toList ∧
    batch_parse "rrset/raw/0123/A/com.".toList query0
      = (none, parsed_query .raw_rrset_mode "0123".toList (some "A".toList)
                 (some "com.".toList)) ∧
    batch_line_path "rrset/raw/0123/A/com.".toList = some (.ok "rrset/raw/0123/A".toList) ∧
    batch_line_path "rrset/raw/0123/A/com.".toList
      ≠ some (.ok "rrset/raw/0123/A/com.".toList) ∧
    batch_line_path "rrset/name/0123/A/com.".toList
      = some (.ok "rrset/name/0123/A/com.".toList) := by
  have h := batch_line_path_forms "0123".toList "A".toList "com.".toList "0".toList
    "0".toList (by decide) (by decide) (by decide) (by decide) (by decide)
  have e1 : batch_line_path "rrset/raw/0123/A/com.".toList
      = some (.ok "rrset/raw/0123/A".toList) := h.2.2.2.2.2.2.2.2.2.2.2
  have e : "rrset/raw/0123/A/com.".toList
      = "rrset".toList ++ '/' :: ("raw".toList ++ '/' :: ("0123".toList ++ '/' ::
          ("A".toList ++ '/' :: "com.".toList))) := by decide
  refine ⟨by decide, by decide, by decide, ?_, e1, ?_, h.2.2.1⟩
  · rw [batch_parse_eq_parse_terms, e, terms5 _ _ _ _ _ (by decide) (by decide) (by decide)
      (by decide) (by decide)]
    decide
  · rw [e1]
    decide

/-! ### Output cap of the unsorted path -/

theorem memchr_nl_lt (buf : Bytes) (k : Nat) (h : memchr_nl buf = some k) : k < buf.length := by
  unfold memchr_nl at h
  split_ifs at h with hm
  simp only [Option.some.injEq] at h
  subst h
  induction buf with
  | nil => simp at hm
  | cons c buf ih =>
    by_cases hc : c = '\n'
    · simp [List.takeWhile, hc]
    · have hm' : '\n' ∈ buf := by
        rcases List.mem_cons.mp hm with e | e
        · exact absurd e.symm hc
        · exact e
      have := ih hm'
      simp only [ne_eq, decide_not] at this
      simp [List.takeWhile, hc]
      omega

/-- The deframing loop with sorting off and an output cap: it returns, the
count does not decrease and stays within the cap, and once the count has
reached the cap no record is handed to `input_blob` and (outside info mode)
nothing is written to stdout. -/
theorem writer_func_loop_cap (g : Globals) (env : Env) (after before : Nat)
    (hs : g.sorted = .no_sort) (hL : g.output_limit ≠ -1) :
    ∀ (fuel : Nat) (rd : reader) (w : writer) (p : Proc),
      rd.buf.length < fuel → w.count ≤ g.output_limit →
      ∃ rd1 w1 p1, writer_func_loop g env after before fuel rd w p = .ok (rd1, w1, p1) ∧
        w.count ≤ w1.count ∧ w1.count ≤ g.output_limit ∧
        (w.count = g.output_limit →
          w1.count = w.count ∧ p1.blobs = p.blobs ∧ (g.info = false → p1.stdout = p.stdout)) := by
  intro fuel
  induction fuel with
  | zero => intro rd w p h; exact absurd h (by omega)
  | succ fuel ih =>
    intro rd w p hlen hc
    rw [writer_func_loop]
    cases hm : memchr_nl rd.buf with
    | none => exact ⟨rd, w, p, rfl, le_refl _, hc, fun _ => ⟨rfl, rfl, fun _ => rfl⟩⟩
    | some k =>
      dsimp only
      by_cases hi : g.info = true
      · rw [if_pos hi]
        exact ⟨_, _, _, rfl, le_refl _, hc,
          fun _ => ⟨rfl, rfl, fun hf => absurd hi (by rw [hf]; decide)⟩⟩
      · rw [if_neg hi]
        by_cases hcap : g.sorted = .no_sort ∧ g.output_limit ≠ -1 ∧ w.count ≥ g.output_limit
        · rw [if_pos hcap]
          exact ⟨_, _, _, rfl, le_refl _, hc, fun _ => ⟨rfl, rfl, fun _ => rfl⟩⟩
        · rw [if_neg hcap]
          have hlt : w.count < g.output_limit := by
            by_contra hge
            exact hcap ⟨hs, hL, by omega⟩
          obtain ⟨x, hx⟩ := input_blob_total_unsorted g env (rd.buf.take k) after before hs
          have hret := input_blob_ret g env _ _ _ x hx
          rw [hx]
          dsimp only
          have hk := memchr_nl_lt rd.buf k hm
          obtain ⟨rd1, w1, p1, e, c1, c2, _⟩ := ih
            { rd with buf := rd.buf.drop (k + 1) }
            { w with count := w.count + x.ret,
                     sort_stdin := if g.sorted ≠ .no_sort then w.sort_stdin ++ x.out
                                   else w.sort_stdin }
            { p with stdout := if g.sorted ≠ .no_sort then p.stdout else p.stdout ++ x.out,
                     stderr := p.stderr ++ x.err,
                     blobs := p.blobs ++ [rd.buf.take k] }
            (by simp only [List.length_drop]; omega)
            (by dsimp only; rcases hret with h | h <;> rw [h] <;> omega)
          refine ⟨rd1, w1, p1, e, ?_, c2, fun h => absurd h (by omega)⟩
          dsimp only at c1
          rcases hret with h | h <;> rw [h] at c1 <;> omega

/-- One round of the deframing loop when the cap is reached, outside info
mode, with a newline in the buffer: the buffered bytes are discarded, and
the writer and the process are left as they are. -/
theorem writer_func_loop_at_cap (g : Globals) (env : Env) (after before : Nat)
    (hs : g.sorted = .no_sort) (hL : g.output_limit ≠ -1) (hi : g.info = false)
    (fuel : Nat) (rd : reader) (w : writer) (p : Proc)
    (hc : g.output_limit ≤ w.count) (hnl : '\n' ∈ rd.buf) :
    writer_func_loop g env after before (fuel + 1) rd w p = .ok ({ rd with buf := [] }, w, p) := by
  rw [writer_func_loop]
  simp only [memchr_nl, if_pos hnl]
  rw [if_neg (by rw [hi]; decide), if_pos ⟨hs, hL, hc⟩]

/-- One call of `writer_func` with sorting off and an output cap, when it
returns: the value is the chunk length, the count does not decrease and
stays within the cap, and once the count has reached the cap no record is
handed to `input_blob` and (outside info mode) nothing is written to
stdout. -/
theorem writer_func_cap_ok (g : Globals) (env : Env) (ptr : Bytes) (code : Int) (rd : reader)
    (w : writer) (p : Proc) (n : Nat) (rd1 : reader) (w1 : writer) (p1 : Proc)
    (hs : g.sorted = .no_sort) (hL : g.output_limit ≠ -1) (hc : w.count ≤ g.output_limit)
    (h : writer_func g env ptr code rd w p = .ok (n, rd1, w1, p1)) :
    n = ptr.length ∧ w.count ≤ w1.count ∧ w1.count ≤ g.output_limit ∧
    (w.count = g.output_limit →
      w1.count = w.count ∧ p1.blobs = p.blobs ∧ (g.info = false → p1.stdout = p.stdout)) ∧
    w1.readers = w.readers := by
  obtain ⟨rd2, e⟩ := writer_func_cases g env ptr code rd w p
  rw [e] at h
  by_cases hf : rd2.easy ∧ rd2.rcode ≠ 200
  · rw [if_pos hf] at h
    cases hff : writer_func_failed g env rd2 w p with
    | error e2 => rw [hff] at h; cases h
    | ok st =>
      obtain ⟨rd3, w3, p3⟩ := st
      rw [hff] at h
      simp only [Except.ok.injEq, Prod.mk.injEq] at h
      obtain ⟨hn, _, hw, hp⟩ := h
      subst hw hp
      obtain ⟨_, _, a1, a2, b1, b2⟩ := writer_func_failed_ok g env rd2 w p _ _ _ hff
      have hw : w3.count = w.count ∧ w3.readers = w.readers := by
        cases ho : w.once with
        | true => rw [a1 ho]; exact ⟨rfl, rfl⟩
        | false => rw [(a2 ho).2]; exact ⟨rfl, rfl⟩
      refine ⟨hn.symm, ?_, ?_, fun _ => ⟨hw.1, b1, fun _ => b2⟩, hw.2⟩
      · rw [hw.1]
      · rw [hw.1]; exact hc
  · rw [if_neg hf] at h
    obtain ⟨rd3, w3, p3, el, c1, c2, c3⟩ := writer_func_loop_cap g env w.after w.before hs hL
      (rd2.buf.length + 1) rd2 w p (by omega) hc
    rw [el] at h
    simp only [Except.ok.injEq, Prod.mk.injEq] at h
    obtain ⟨hn, _, hw, hp⟩ := h
    subst hw hp
    obtain ⟨_, _, _, h4⟩ := writer_func_loop_status g env _ _ _ _ _ _ _ _ _ el
    exact ⟨hn.symm, c1, c2, c3, h4⟩

/-- With sorting off and an output cap, a call of `writer_func` returns the
chunk length whenever it takes the deframing branch (the reader is not a
live transfer, or its response code is 200), and in the branch for a failing
transfer when some byte is buffered and the writer has neither status nor
message while its once flag is down. -/
theorem writer_func_returns (g : Globals) (env : Env) (ptr : Bytes) (code : Int) (rd : reader)
    (w : writer) (p : Proc) (hs : g.sorted = .no_sort) (hL : g.output_limit ≠ -1)
    (hc : w.count ≤ g.output_limit)
    (hb : rd.easy = false ∨ rcode_known rd code = 200 ∨
      ((w.once = false → w.status = none ∧ w.message = none) ∧ rd.buf ++ ptr ≠ [])) :
    ∃ rd1 w1 p1, writer_func g env ptr code rd w p = .ok (ptr.length, rd1, w1, p1) := by
  obtain ⟨rd2, hbuf, hbr, _, e⟩ := writer_func_cases_reader g env ptr code rd w p
  by_cases hf : rd2.easy ∧ rd2.rcode ≠ 200
  · obtain ⟨he, hcode⟩ := hbr.mp hf
    rcases hb with h1 | h1 | ⟨hinv, hne⟩
    · rw [h1] at he; cases he
    · exact absurd h1 hcode
    · obtain ⟨p1, e1, _, _⟩ := writer_func_failed_eq g env rd2 w p hinv (by rw [hbuf]; exact hne)
      rw [e, if_pos hf, e1]
      exact ⟨_, _, _, rfl⟩
  · obtain ⟨rd3, w3, p3, el, _⟩ := writer_func_loop_cap g env w.after w.before hs hL
      (rd2.buf.length + 1) rd2 w p (by omega) hc
    rw [e, if_neg hf, el]
    exact ⟨_, _, _, rfl⟩

/-- With sorting off, outside info mode, when the count has reached the cap
and the reader is not a failing live transfer: a chunk that brings a newline
into the buffer is discarded with everything buffered, and the writer and
the process are left as they are. -/
theorem writer_func_discards_at_cap (g : Globals) (env : Env) (ptr : Bytes) (code : Int)
    (rd : reader) (w : writer) (p : Proc) (hs : g.sorted = .no_sort)
    (hL : g.output_limit ≠ -1) (hi : g.info = false) (hc : g.output_limit ≤ w.count)
    (hb : rd.easy = false ∨ rcode_known rd code = 200) (hnl : '\n' ∈ rd.buf ++ ptr) :
    ∃ rd1, writer_func g env ptr code rd w p = .ok (ptr.length, rd1, w, p) ∧ rd1.buf = [] := by
  obtain ⟨rd2, hbuf, hbr, _, e⟩ := writer_func_cases_reader g env ptr code rd w p
  have hf : ¬ (rd2.easy ∧ rd2.rcode ≠ 200) := by
    intro hf
    obtain ⟨he, hcode⟩ := hbr.mp hf
    rcases hb with h1 | h1
    · rw [h1] at he; cases he
    · exact hcode h1
  rw [e, if_neg hf, writer_func_loop_at_cap g env _ _ hs hL hi _ rd2 w p hc (by rw [hbuf]; exact hnl)]
  exact ⟨_, rfl, rfl⟩

/-- One call of `writer_func` with sorting off and an output cap, on a
writer that has neither status nor message while its once flag is down, for
a chunk that is not empty. -/
theorem writer_func_cap (g : Globals) (env : Env) (ptr : Bytes) (code : Int) (rd : reader)
    (w : writer) (p : Proc) (hs : g.sorted = .no_sort) (hL : g.output_limit ≠ -1)
    (hc : w.count ≤ g.output_limit)
    (hinv : w.once = false → w.status = none ∧ w.message = none) (hne : ptr ≠ []) :
    ∃ rd1 w1 p1, writer_func g env ptr code rd w p = .ok (ptr.length, rd1, w1, p1) ∧
      w.count ≤ w1.count ∧ w1.count ≤ g.output_limit ∧
      (w.count = g.output_limit →
        w1.count = w.count ∧ p1.blobs = p.blobs ∧ (g.info = false → p1.stdout = p.stdout)) ∧
      (w1.once = false → w1.status = none ∧ w1.message = none) ∧
      w1.readers = w.readers := by
  obtain ⟨rd1, w1, p1, e⟩ := writer_func_returns g env ptr code rd w p hs hL hc
    (Or.inr (Or.inr ⟨hinv, by simp [hne]⟩))
  obtain ⟨_, c1, c2, c3, c4⟩ := writer_func_cap_ok g env ptr code rd w p _ rd1 w1 p1 hs hL hc e
  exact ⟨rd1, w1, p1, e, c1, c2, c3,
    (writer_func_status g env ptr code rd w p _ rd1 w1 p1 hinv e).1, c4⟩

/-- The callback invocations of one `io_engine` call with sorting off and an
output cap return, when no chunk is empty and the writer has neither status
nor message while its once flag is down. -/
theorem io_engine_events_cap (g : Globals) (env : Env) (hs : g.sorted = .no_sort)
    (hL : g.output_limit ≠ -1) :
    ∀ (evs : List curl_event) (w : writer) (p : Proc),
      w.count ≤ g.output_limit →
      (w.once = false → w.status = none ∧ w.message = none) →
      (∀ ev ∈ evs, ev.ptr ≠ []) →
      ∃ w1 p1, io_engine_events g env evs w p = .ok (w1, p1) := by
  intro evs
  induction evs with
  | nil =>
    intro w p _ _ _
    exact ⟨w, p, rfl⟩
  | cons ev evs ih =>
    intro w p hc hinv hne
    rw [io_engine_events]
    cases hr : w.readers.get? ev.reader with
    | none => exact ih w p hc hinv (fun e he => hne e (List.mem_cons_of_mem _ he))
    | some rd =>
      dsimp only
      obtain ⟨rd1, w1, p1, e, _, c2, _, i1, _⟩ :=
        writer_func_cap g env ev.ptr ev.response_code rd w p hs hL hc hinv
          (hne ev (List.mem_cons_self _ _))
      rw [e]
      dsimp only
      exact ih { w1 with readers := w1.readers.set ev.reader rd1 } p1 c2 i1
        (fun e he => hne e (List.mem_cons_of_mem _ he))

theorem reap_readers_stdout (g : Globals) (readers : List reader) :
    ∀ p : Proc, (reap_readers g readers p).stdout = p.stdout ∧
      (reap_readers g readers p).sigterms = p.sigterms := by
  induction readers with
  | nil => intro p; exact ⟨rfl, rfl⟩
  | cons rd readers ih =>
    intro p
    simp only [reap_readers, List.foldl_cons]
    split_ifs
    · obtain ⟨h1, h2⟩ := ih { p with stderr := p.stderr ++ g.program_name
        ++ ": warning: stranding ".toList ++ fmt_ld rd.buf.length ++ " octets!\n".toList }
      exact ⟨h1, h2⟩
    · exact ih p

/-- The fence check either ends in the usage error about the order of the
fence, or returns globals that differ from the given ones at most in
`sorted`. -/
theorem validate_fence_cases (g : Globals) (o : main_locals) :
    (o.after ≠ 0 ∧ o.before ≠ 0 ∧ o.after > o.before ∧
      validate_fence g o = .error (.usage "-A -B requires after <= before (for now)")) ∨
    (¬ (o.after ≠ 0 ∧ o.before ≠ 0 ∧ o.after > o.before) ∧
      ∃ sorted err, validate_fence g o = .ok ({ g with sorted := sorted }, err) ∧
        (sorted = g.sorted ∨
          (o.after ≠ 0 ∧ o.before ≠ 0 ∧ g.sorted = .no_sort ∧ o.json_fd = -1 ∧
            g.complete = false ∧ g.quiet = false))) := by
  unfold validate_fence
  by_cases h1 : o.after ≠ 0 ∧ o.before ≠ 0
  · rw [if_pos h1]
    by_cases h2 : o.after > 0 ∧ o.before > 0 ∧ o.after > o.before
    · rw [if_pos h2]
      exact Or.inl ⟨h1.1, h1.2, h2.2.2, rfl⟩
    · rw [if_neg h2]
      have h3 : ¬ (o.after ≠ 0 ∧ o.before ≠ 0 ∧ o.after > o.before) := by
        intro hh
        exact h2 ⟨by omega, by omega, hh.2.2⟩
      by_cases h4 : g.sorted = .no_sort ∧ o.json_fd = -1 ∧ ¬ g.complete ∧ ¬ g.quiet
      · rw [if_pos h4]
        exact Or.inr ⟨h3, _, _, rfl, Or.inr ⟨h1.1, h1.2, h4.1, h4.2.1, by simpa using h4.2.2.1,
          by simpa using h4.2.2.2⟩⟩
      · rw [if_neg h4]
        exact Or.inr ⟨h3, g.sorted, [], rfl, Or.inl rfl⟩
  · rw [if_neg h1]
    refine Or.inr ⟨fun hh => h1 ⟨hh.1, hh.2.1⟩, g.sorted, [], rfl, Or.inl rfl⟩

theorem add_sort_key_sorted (g : Globals) (tok : CStr) :
    (add_sort_key g tok).2.sorted = g.sorted := by
  unfold add_sort_key
  split_ifs <;> rfl

theorem complete_sort_key_sorted (g : Globals) (tok : CStr) :
    (complete_sort_key g tok).sorted = g.sorted := by
  unfold complete_sort_key
  split_ifs
  · exact add_sort_key_sorted g tok
  · rfl

theorem validate_sort_keys_sorted (g g2 : Globals) (h : validate_sort_keys g = .ok g2) :
    g2.sorted = g.sorted := by
  unfold validate_sort_keys at h
  split_ifs at h
  · dsimp only at h
    cases h
    simp only [complete_sort_key_sorted]
  · cases h; rfl

/-- C22: the validation of the options in `main`. Whatever it accepts has
merge only with original batching, `-c` only with `-A` or `-B`, and
`after ≤ before` when both are set. Merge without `-f` or with verbose
batching, `-c` with neither `-A` nor `-B`, and a fence with `after > before`
end in a usage error, and so does `-k` while sorting is off (at the option
itself; keys present with sorting off are a usage error of the validation
too, unless the fence has just turned sorting on). -/
theorem startup_validation (g : Globals) (o : main_locals) :
    (∀ r, validate_options g o = .ok r →
      (g.merge = true → g.batching = .batch_original) ∧
      (g.complete = true → o.after ≠ 0 ∨ o.before ≠ 0) ∧
      (o.after ≠ 0 → o.before ≠ 0 → o.after ≤ o.before) ∧
      (g.keys ≠ [] → r.1.sorted ≠ .no_sort)) ∧
    (g.merge = true → g.batching ≠ .batch_original →
      ∃ msg, validate_options g o = .error (.usage msg)) ∧
    (g.complete = true → o.after = 0 → o.before = 0 →
      validate_options g o = .error (.usage "-c without -A or -B makes no sense.")) ∧
    (o.after ≠ 0 → o.before ≠ 0 → o.after > o.before →
      validate_options g o = .error (.usage "-A -B requires after <= before (for now)")) ∧
    (∀ optarg, g.sorted = .no_sort →
      option_k g optarg = .error (.usage "-k must be preceded by -s or -S")) ∧
    (g.keys ≠ [] → g.sorted = .no_sort →
      ¬ (o.after ≠ 0 ∧ o.before ≠ 0 ∧ o.json_fd = -1 ∧ g.complete = false ∧ g.quiet = false) →
      ∃ msg, validate_options g o = .error (.usage msg)) ∧
    ((main_setup 0 [.m] locals0).map (fun r => r.2)
        = .error (.usage "using -m without -f makes no sense.") ∧
      (main_setup 0 [.f, .f, .m] locals0).map (fun r => r.2)
        = .error (.usage "using -m with more than one -f makes no sense.") ∧
      (main_setup 0 [.f, .m] locals0).map (fun r => r.1.merge) = .ok true ∧
      (main_setup 0 [.c] locals0).map (fun r => r.2)
        = .error (.usage "-c without -A or -B makes no sense.") ∧
      (main_setup 0 [] { after := 200, before := 100, json_fd := -1 }).map (fun r => r.2)
        = .error (.usage "-A -B requires after <= before (for now)") ∧
      (main_setup 0 [.k "name".toList] locals0).map (fun r => r.2)
        = .error (.usage "-k must be preceded by -s or -S")) := by
  refine ⟨?_, ?_, ?_, ?_, ?_, ?_, by decide⟩
  · intro r h
    unfold validate_options at h
    rcases validate_fence_cases g o with ⟨_, _, _, e⟩ | ⟨hf, sorted, err, e, _⟩
    · rw [e] at h; cases h
    · rw [e] at h
      dsimp only at h
      split_ifs at h with h1 h2 h3
      cases hv : validate_sort_keys { g with sorted := sorted } with
      | error e2 => rw [hv] at h; cases h
      | ok g2 =>
        rw [hv] at h
        simp only [Except.ok.injEq] at h
        subst h
        refine ⟨?_, ?_, ?_, ?_⟩
        · intro hm
          cases hb : g.batching with
          | batch_none => exact absurd ⟨hm, hb⟩ h2
          | batch_original => rfl
          | batch_verbose => exact absurd ⟨hm, hb⟩ h3
        · intro hc
          by_contra hn
          exact h1 ⟨hc, by omega, by omega⟩
        · intro ha hb
          by_contra hn
          exact hf ⟨ha, hb, by omega⟩
        · intro hk hs
          dsimp only at hs
          have hso : sorted = .no_sort := by
            rw [← hs]; exact (validate_sort_keys_sorted _ _ hv).symm
          obtain ⟨err2, hv2⟩ : ∃ e2, validate_sort_keys { g with sorted := sorted }
              = .error e2 := by
            unfold validate_sort_keys
            rw [if_pos ⟨List.length_pos.mpr hk, hso⟩]
            exact ⟨_, rfl⟩
          rw [hv2] at hv
          cases hv
  · intro hm hb
    unfold validate_options
    rcases validate_fence_cases g o with ⟨_, _, _, e⟩ | ⟨_, sorted, err, e, _⟩
    · rw [e]; exact ⟨_, rfl⟩
    · rw [e]
      dsimp only
      by_cases h1 : g.complete = true ∧ o.after = 0 ∧ o.before = 0
      · rw [if_pos h1]; exact ⟨_, rfl⟩
      · rw [if_neg h1]
        cases hbt : g.batching with
        | batch_none => rw [if_pos ⟨hm, rfl⟩]; exact ⟨_, rfl⟩
        | batch_original => exact absurd hbt hb
        | batch_verbose =>
          rw [if_neg (by intro hh; cases hh.2), if_pos ⟨hm, rfl⟩]
          exact ⟨_, rfl⟩
  · intro hc ha hb
    have e : validate_fence g o = .ok (g, []) := by
      unfold validate_fence
      rw [if_neg (fun hh => hh.1 ha)]
    unfold validate_options
    rw [e]
    dsimp only
    rw [if_pos ⟨hc, ha, hb⟩]
  · intro ha hb hab
    unfold validate_options
    rcases validate_fence_cases g o with ⟨_, _, _, e⟩ | ⟨hf, _⟩
    · rw [e]
    · exact absurd ⟨ha, hb, hab⟩ hf
  · intro optarg hs
    unfold option_k
    rw [if_pos hs]
  · intro hk hs hno
    unfold validate_options
    rcases validate_fence_cases g o with ⟨_, _, _, e⟩ | ⟨_, sorted, err, e, hsd⟩
    · rw [e]; exact ⟨_, rfl⟩
    · rw [e]
      dsimp only
      have hso : sorted = .no_sort := by
        rcases hsd with h | h
        · rw [h]; exact hs
        · exact absurd ⟨h.1, h.2.1, h.2.2.2.1, h.2.2.2.2.1, h.2.2.2.2.2⟩ hno
      by_cases h1 : g.complete = true ∧ o.after = 0 ∧ o.before = 0
      · rw [if_pos h1]; exact ⟨_, rfl⟩
      · rw [if_neg h1]
        by_cases h2 : g.merge = true ∧ g.batching = .batch_none
        · rw [if_pos h2]; exact ⟨_, rfl⟩
        · rw [if_neg h2]
          by_cases h3 : g.merge = true ∧ g.batching = .batch_verbose
          · rw [if_pos h3]; exact ⟨_, rfl⟩
          · rw [if_neg h3]
            have hv : validate_sort_keys { g with sorted := sorted }
                = .error (.usage "using -k without -s or -S makes no sense.") := by
              unfold validate_sort_keys
              rw [if_pos ⟨List.length_pos.mpr hk, hso⟩]
            rw [hv]
            exact ⟨_, rfl⟩

/-! ### Runs of slashes in a batch line -/

theorem terms_cons_slash (s : CStr) : terms ('/' :: s) = terms s := by
  have e : strtok_r none "/".toList ('/' :: s) = strtok_r none "/".toList s := by
    simp [strtok_r, List.dropWhile]
  cases h : strtok_r none "/".toList s with
  | mk tok sp =>
    cases tok with
    | none => rw [terms_of_none s sp h, terms_of_none ('/' :: s) sp (e.trans h)]
    | some t => rw [terms_of_some s t sp h, terms_of_some ('/' :: s) t sp (e.trans h)]

/-- The terms of a line are its non-empty components between slashes. -/
theorem terms_eq_splitOn : ∀ s : CStr,
    terms s = (s.splitOn '/').filter (fun t => decide (t ≠ [])) := by
  apply split_first_induction '/'
  · intro b hb
    rw [splitOn_of_not_mem '/' b hb]
    by_cases he : b = []
    · subst he
      rw [terms_nil]
      rfl
    · rw [terms_term_end b ⟨he, hb⟩]
      simp [he]
  · intro r x hr ih
    rw [splitOn_first '/' r x hr]
    by_cases he : r = []
    · subst he
      rw [List.nil_append, terms_cons_slash, ih]
      simp
    · rw [terms_term_slash r x ⟨he, hr⟩, ih]
      simp [he]

theorem not_mem_of_mem_splitOn (d : Char) : ∀ s : CStr, ∀ t ∈ s.splitOn d, d ∉ t := by
  apply split_first_induction d
  · intro b hb t ht
    rw [splitOn_of_not_mem d b hb] at ht
    rw [List.mem_singleton.mp ht]
    exact hb
  · intro r x hr ih t ht
    rw [splitOn_first d r x hr] at ht
    rcases List.mem_cons.mp ht with e | e
    · rw [e]; exact hr
    · exact ih t e

/-- The terms of terms joined by single slashes are these terms. -/
theorem terms_intercalate : ∀ ts : List CStr, (∀ t ∈ ts, is_term t) →
    terms (['/'].intercalate ts) = ts := by
  intro ts
  induction ts with
  | nil => intro _; exact terms_nil
  | cons t ts ih =>
    intro h
    have ht : is_term t := h t (by simp)
    have hts : ∀ u ∈ ts, is_term u := fun u hu => h u (by simp [hu])
    by_cases hn : ts = []
    · subst hn
      have e : ['/'].intercalate [t] = t := by simp [List.intercalate, List.intersperse]
      rw [e, terms_term_end t ht]
    · rw [intercalate_cons_of_ne_nil _ _ _ hn]
      have e : t ++ ['/'] ++ ['/'].intercalate ts = t ++ '/' :: ['/'].intercalate ts := by simp
      rw [e, terms_term_slash t _ ht, ih hts]

/-- C29: `batch_parse` gives the same result (message or query) for a line
and for the line with each run of slashes replaced by one slash and leading
and trailing slashes removed; the two lines have the same terms. So
`rrset/name//A` is accepted as `rrset/name/A` is, with thing `A`. -/
theorem batch_parse_squeezes_slashes (line : CStr) (qp : query) :
    terms (squeeze_slashes line) = terms line ∧
    batch_parse (squeeze_slashes line) qp = batch_parse line qp ∧
    squeeze_slashes "//rrset///name//A/".toList = "rrset/name/A".toList ∧
    squeeze_slashes "rrset/name//A".toList = "rrset/name/A".toList ∧
    batch_parse "rrset/name//A".toList qp
      = (none, parsed_query .rrset_mode "A".toList none none) := by
  have hterms : terms (squeeze_slashes line) = terms line := by
    rw [terms_eq_splitOn line]
    unfold squeeze_slashes
    apply terms_intercalate
    intro t ht
    obtain ⟨h1, h2⟩ := List.mem_filter.mp ht
    exact ⟨by simpa using h2, not_mem_of_mem_splitOn '/' line t h1⟩
  have h3 : "rrset/name//A".toList
      = "rrset".toList ++ '/' :: ("name".toList ++ '/' :: ('/' :: "A".toList)) := by decide
  refine ⟨hterms, ?_, by decide, by decide, ?_⟩
  · rw [batch_parse_eq_parse_terms, batch_parse_eq_parse_terms, hterms]
  · rw [batch_parse_eq_parse_terms, h3, terms_term_slash _ _ (by decide),
      terms_term_slash _ _ (by decide), terms_cons_slash, terms_term_end _ (by decide)]
    simp [parse_terms, parsed_query]

/-! ### The name key as an order embedding -/

theorem char_eq_of_toNat (a b : Char) (h : a.toNat = b.toNat) : a = b := by
  rw [← Char.ofNat_toNat a, ← Char.ofNat_toNat b, h]

theorem bytes_lt_irrefl : ∀ a : Bytes, bytes_lt a a = false := by
  intro a
  induction a with
  | nil => rfl
  | cons c a ih => simp [bytes_lt, ih]

theorem bytes_lt_trichotomy : ∀ a b : Bytes, bytes_lt a b = false → bytes_lt b a = false →
    a = b := by
  intro a
  induction a with
  | nil =>
    intro b h1 _
    cases b with
    | nil => rfl
    | cons d b => simp [bytes_lt] at h1
  | cons c a ih =>
    intro b h1 h2
    cases b with
    | nil => simp [bytes_lt] at h2
    | cons d b =>
      simp only [bytes_lt, Bool.or_eq_false_iff, decide_eq_false_iff_not,
        Bool.and_eq_false_imp, decide_eq_true_eq] at h1 h2
      have e : c.toNat = d.toNat := by omega
      have e' : c = d := char_eq_of_toNat c d e
      rw [e', ih b (h1.2 e) (h2.2 e.symm)]

theorem labels_lt_trichotomy : ∀ a b : List Bytes, labels_lt a b = false →
    labels_lt b a = false → a = b := by
  intro a
  induction a with
  | nil =>
    intro b h1 _
    cases b with
    | nil => rfl
    | cons d b => simp [labels_lt] at h1
  | cons c a ih =>
    intro b h1 h2
    cases b with
    | nil => simp [labels_lt] at h2
    | cons d b =>
      simp only [labels_lt, Bool.or_eq_false_iff, Bool.and_eq_false_imp,
        decide_eq_true_eq] at h1 h2
      have e : c = d := bytes_lt_trichotomy c d h1.1 h2.1
      rw [e, ih b (h1.2 e) (h2.2 e.symm)]

theorem labels_lt_irrefl : ∀ a : List Bytes, labels_lt a a = false := by
  intro a
  induction a with
  | nil => rfl
  | cons c a ih => simp [labels_lt, ih, bytes_lt_irrefl]

theorem dot_lt_hex_digit : ∀ d, d < 16 → ('.' : Char).toNat < (hex_digit d).toNat := by
  decide

/-- Comparing two hex-expanded labels, each followed by nothing or by a dot
and more: the labels decide unless they are equal. -/
theorem bytes_lt_hex_label : ∀ (a b : Bytes) (r1 r2 : Bytes),
    (∀ c ∈ a, c.toNat < 256) → (∀ c ∈ b, c.toNat < 256) →
    (r1 = [] ∨ ∃ t, r1 = '.' :: t) → (r2 = [] ∨ ∃ t, r2 = '.' :: t) →
    bytes_lt (hex_label a ++ r1) (hex_label b ++ r2)
      = (bytes_lt a b || (decide (a = b) && bytes_lt r1 r2)) := by
  intro a
  induction a with
  | nil =>
    intro b r1 r2 _ hb h1 h2
    cases b with
    | nil => simp [hex_label, bytes_lt]
    | cons d b =>
      have hd : d.toNat < 256 := hb d (by simp)
      have hlt := dot_lt_hex_digit (d.toNat / 16) (by omega)
      rcases h1 with e | ⟨t, e⟩
      · subst e
        simp [hex_label, hex_pair, bytes_lt]
      · subst e
        have hlt' : 46 < (hex_digit (d.toNat / 16)).toNat := hlt
        simp only [hex_label, hex_pair, bytes_lt, List.nil_append, List.map_nil,
          List.flatten_nil, List.map_cons, List.flatten_cons, List.cons_append,
          Bool.or_eq_true, decide_eq_true_eq, List.not_mem_nil, reduceCtorEq, decide_False,
          Bool.false_and, Bool.or_false]
        exact Or.inl hlt'
  | cons c a ih =>
    intro b r1 r2 ha hb h1 h2
    have hc : c.toNat < 256 := ha c (by simp)
    have ha' : ∀ x ∈ a, x.toNat < 256 := fun x hx => ha x (by simp [hx])
    cases b with
    | nil =>
      have hlt := dot_lt_hex_digit (c.toNat / 16) (by omega)
      rcases h2 with e | ⟨t, e⟩
      · subst e
        simp [hex_label, hex_pair, bytes_lt]
      · subst e
        have hlt' : 46 < (hex_digit (c.toNat / 16)).toNat := hlt
        simp [hex_label, hex_pair, bytes_lt]
        exact ⟨by omega, fun h => absurd h (by omega)⟩
    | cons d b =>
      have hd : d.toNat < 256 := hb d (by simp)
      have hb' : ∀ x ∈ b, x.toNat < 256 := fun x hx => hb x (by simp [hx])
      have e1 : hex_label (c :: a) ++ r1 = hex_pair c.toNat ++ (hex_label a ++ r1) := by
        simp [hex_label]
      have e2 : hex_label (d :: b) ++ r2 = hex_pair d.toNat ++ (hex_label b ++ r2) := by
        simp [hex_label]
      rw [e1, e2, bytes_lt_hex_pair _ _ hc hd, ih b r1 r2 ha' hb' h1 h2]
      by_cases hcd : c = d
      · subst hcd
        by_cases hab : a = b
        · subst hab
          simp [bytes_lt, bytes_lt_irrefl]
        · simp [bytes_lt, hab]
      · have hne : c.toNat ≠ d.toNat := fun h => hcd (char_eq_of_toNat c d h)
        simp [bytes_lt, hcd, hne]

/-- Comparing two keys made of hex-expanded labels joined by dots is
comparing the label lists. -/
theorem bytes_lt_join : ∀ (as bs : List Bytes) (a b : Bytes),
    (∀ l ∈ a :: as, ∀ c ∈ l, c.toNat < 256) → (∀ l ∈ b :: bs, ∀ c ∈ l, c.toNat < 256) →
    bytes_lt (['.'].intercalate ((a :: as).map hex_label))
        (['.'].intercalate ((b :: bs).map hex_label))
      = labels_lt (a :: as) (b :: bs) := by
  have hj : ∀ (a : Bytes) (as : List Bytes),
      ['.'].intercalate ((a :: as).map hex_label)
        = hex_label a ++ (if as = [] then [] else '.' :: ['.'].intercalate (as.map hex_label)) := by
    intro a as
    cases as with
    | nil => simp [List.intercalate, List.intersperse]
    | cons a2 as =>
      rw [List.map_cons, intercalate_cons_of_ne_nil _ _ _ (by simp)]
      simp
  have htail : ∀ as : List Bytes,
      ((if as = [] then [] else '.' :: ['.'].intercalate (as.map hex_label)) : Bytes) = [] ∨
      ∃ t, ((if as = [] then [] else '.' :: ['.'].intercalate (as.map hex_label)) : Bytes)
        = '.' :: t := by
    intro as
    by_cases h : as = []
    · exact Or.inl (by rw [if_pos h])
    · exact Or.inr ⟨_, by rw [if_neg h]⟩
  intro as
  induction as with
  | nil =>
    intro bs a b ha hb
    rw [hj a [], hj b bs, bytes_lt_hex_label a b _ _ (ha a (by simp)) (hb b (by simp))
      (htail []) (htail bs)]
    cases bs with
    | nil => simp [labels_lt, bytes_lt]
    | cons b2 bs => simp [labels_lt, bytes_lt]
  | cons a2 as ih =>
    intro bs a b ha hb
    rw [hj a (a2 :: as), hj b bs, bytes_lt_hex_label a b _ _ (ha a (by simp)) (hb b (by simp))
      (htail (a2 :: as)) (htail bs)]
    cases bs with
    | nil => simp [labels_lt, bytes_lt]
    | cons b2 bs =>
      have hi := ih bs a2 b2 (fun l hl => ha l (by simp [List.mem_cons.mp hl]))
        (fun l hl => hb l (by simp [List.mem_cons.mp hl]))
      rw [if_neg (by simp), if_neg (by simp)]
      have e : bytes_lt ('.' :: ['.'].intercalate ((a2 :: as).map hex_label))
          ('.' :: ['.'].intercalate ((b2 :: bs).map hex_label))
          = bytes_lt (['.'].intercalate ((a2 :: as).map hex_label))
              (['.'].intercalate ((b2 :: bs).map hex_label)) := by
        simp [bytes_lt]
      rw [e, hi]
      rfl

theorem mem_of_mem_splitOn (d : Char) : ∀ s : CStr, ∀ t ∈ s.splitOn d, ∀ c ∈ t, c ∈ s := by
  apply split_first_induction d
  · intro b hb t ht c hc
    rw [splitOn_of_not_mem d b hb] at ht
    rw [List.mem_singleton.mp ht] at hc
    exact hc
  · intro r x hr ih t ht c hc
    rw [splitOn_first d r x hr] at ht
    rcases List.mem_cons.mp ht with e | e
    · rw [e] at hc
      exact List.mem_append_left _ hc
    · exact List.mem_append_right _ (List.mem_cons_of_mem _ (ih t e c hc))

theorem sort_labels_ne_nil (name : CStr) : sort_labels name ≠ [] := by
  unfold sort_labels
  simp [splitOn_ne_nil]

theorem sort_labels_ascii (name : CStr) (h : ∀ c ∈ name, c.toNat < 128) :
    ∀ l ∈ sort_labels name, ∀ c ∈ l, c.toNat < 256 := by
  intro l hl c hc
  unfold sort_labels at hl
  simp only [List.mem_map, List.mem_reverse] at hl
  obtain ⟨t, ht, rfl⟩ := hl
  obtain ⟨c0, hc0, rfl⟩ := List.mem_map.mp hc
  have := lower_byte_lt _ (h c0 (mem_of_mem_splitOn '.' name t ht c0 hc0))
  rw [toLower_toNat]
  omega

/-- The name key is the hex expansion of the sort labels joined by dots. -/
theorem name_key_eq_join (name : CStr) :
    name_key name = ['.'].intercalate ((sort_labels name).map hex_label) := by
  unfold name_key key_of sort_labels
  rw [List.map_map]
  congr 1
  apply List.map_congr_left
  intro l _
  simp only [Function.comp, hex_label, List.map_map]
  congr 1
  apply List.map_congr_left
  intro c _
  simp only [Function.comp, toLower_toNat]

theorem name_key_lt (x y : CStr) (hx : ∀ c ∈ x, c.toNat < 128) (hy : ∀ c ∈ y, c.toNat < 128) :
    bytes_lt (name_key x) (name_key y) = labels_lt (sort_labels x) (sort_labels y) := by
  rw [name_key_eq_join x, name_key_eq_join y]
  have h1 := sort_labels_ascii x hx
  have h2 := sort_labels_ascii y hy
  cases ex : sort_labels x with
  | nil => exact absurd ex (sort_labels_ne_nil x)
  | cons a as =>
    cases ey : sort_labels y with
    | nil => exact absurd ey (sort_labels_ne_nil y)
    | cons b bs =>
      rw [ex] at h1
      rw [ey] at h2
      exact bytes_lt_join as bs a b h1 h2

theorem intercalate_splitOn_map (f : Char → Char) (hf : f '.' = '.') : ∀ s : CStr,
    ['.'].intercalate ((s.splitOn '.').map (fun l => l.map f)) = s.map f := by
  apply split_first_induction '.'
  · intro b hb
    rw [splitOn_of_not_mem '.' b hb]
    simp [List.intercalate, List.intersperse]
  · intro r x hr ih
    rw [splitOn_first '.' r x hr, List.map_cons,
      intercalate_cons_of_ne_nil _ _ _ (by simp [splitOn_ne_nil]), ih]
    simp [hf]

theorem splitOn_map_toLower : ∀ s : CStr,
    (s.splitOn '.').map (fun label => label.map Char.toLower)
      = (s.map Char.toLower).splitOn '.' := by
  have hdot : Char.toLower '.' = '.' := by decide
  have hnot : ∀ r : CStr, '.' ∉ r → '.' ∉ r.map Char.toLower := by
    intro r hr hm
    obtain ⟨c, hc, hcd⟩ := List.mem_map.mp hm
    exact hr (((toLower_eq_iff '.' c (by decide)).mp hcd) ▸ hc)
  apply split_first_induction '.'
  · intro b hb
    rw [splitOn_of_not_mem '.' b hb, splitOn_of_not_mem '.' _ (hnot b hb)]
    rfl
  · intro r x hr ih
    have e2 : (r ++ '.' :: x).map Char.toLower
        = r.map Char.toLower ++ '.' :: x.map Char.toLower := by
      simp [hdot]
    rw [splitOn_first '.' r x hr, e2, splitOn_first '.' _ _ (hnot r hr), List.map_cons, ih]

theorem sort_labels_eq_iff (x y : CStr) :
    sort_labels x = sort_labels y ↔ x.map Char.toLower = y.map Char.toLower := by
  have hdot : Char.toLower '.' = '.' := by decide
  have e : ∀ s : CStr, sort_labels s = ((s.map Char.toLower).splitOn '.').reverse := by
    intro s
    unfold sort_labels
    rw [← splitOn_map_toLower s, List.map_reverse]
  constructor
  · intro h
    rw [e x, e y] at h
    have h' := List.reverse_injective h
    rw [← splitOn_map_toLower x, ← splitOn_map_toLower y] at h'
    rw [← intercalate_splitOn_map Char.toLower hdot x,
      ← intercalate_splitOn_map Char.toLower hdot y, h']
  · intro h
    rw [e x, e y, h]

/-- C26: for non-empty ASCII names `x` and `y`, `sortable_dnsname` returns
their keys, and byte-order comparison of the keys is lexicographic
comparison of the lower-cased labels taken from the last label to the first
(labels compared bytewise, a proper prefix first), in both directions. The
keys are equal exactly when the label lists are equal, which is when the
names are equal up to the case of letters. -/
theorem name_key_order_embedding (x y : CStr) (hx : x ≠ []) (hy : y ≠ [])
    (hax : ∀ c ∈ x, c.toNat < 128) (hay : ∀ c ∈ y, c.toNat < 128) :
    sortable_dnsname [] x = .ok (name_key x) ∧
    sortable_dnsname [] y = .ok (name_key y) ∧
    bytes_lt (name_key x) (name_key y) = labels_lt (sort_labels x) (sort_labels y) ∧
    bytes_lt (name_key y) (name_key x) = labels_lt (sort_labels y) (sort_labels x) ∧
    (name_key x = name_key y ↔ sort_labels x = sort_labels y) ∧
    (name_key x = name_key y ↔ x.map Char.toLower = y.map Char.toLower) := by
  have hkey : ∀ s : CStr, s ≠ [] → (∀ c ∈ s, c.toNat < 128) →
      sortable_dnsname [] s = .ok (name_key s) := by
    intro s hs ha
    rw [sortable_dnsname_nonempty [] s hs, List.nil_append]
    unfold name_key
    rw [key_of_congr dnsname_hex (fun c => hex_pair (lower_byte c.toNat)) s
      (fun c hc => dnsname_hex_eq c (ha c hc))]
  have h1 := name_key_lt x y hax hay
  have h2 := name_key_lt y x hay hax
  have heq : name_key x = name_key y ↔ sort_labels x = sort_labels y := by
    constructor
    · intro h
      apply labels_lt_trichotomy
      · rw [← h1, h]; exact bytes_lt_irrefl _
      · rw [← h2, h]; exact bytes_lt_irrefl _
    · intro h
      rw [name_key_eq_join x, name_key_eq_join y, h]
  exact ⟨hkey x hx hax, hkey y hy hay, h1, h2, heq, heq.trans (sort_labels_eq_iff x y)⟩

/-- Witness of `name_key_order_embedding`: `a.example.com` sorts before
`mail.Example.com`. -/
theorem name_key_order_embedding_witness :
    bytes_lt (name_key "a.example.com".toList) (name_key "mail.Example.com".toList) = true ∧
    labels_lt (sort_labels "a.example.com".toList) (sort_labels "mail.Example.com".toList)
      = true ∧
    sortable_dnsname [] "mail.Example.com".toList
      = .ok "636f6d.6578616d706c65.6d61696c".toList :=
  have h := name_key_order_embedding "a.example.com".toList "mail.Example.com".toList
    (by decide) (by decide) (by decide) (by decide)
  ⟨h.2.2.1.trans (by decide), by decide, h.2.1.trans (by decide)⟩

/-! ### Batch framing -/

theorem writer_func_loop_stdout (g : Globals) (env : Env) (after before : Nat) :
    ∀ (fuel : Nat) (rd : reader) (w : writer) (p : Proc) (rd1 : reader) (w1 : writer)
      (p1 : Proc),
      writer_func_loop g env after before fuel rd w p = .ok (rd1, w1, p1) →
      (∃ out, p1.stdout = p.stdout ++ out) ∧ w1.sort_pid = w.sort_pid := by
  intro fuel
  induction fuel with
  | zero => intro rd w p rd1 w1 p1 h; simp [writer_func_loop] at h
  | succ fuel ih =>
    intro rd w p rd1 w1 p1 h
    rw [writer_func_loop] at h
    cases hm : memchr_nl rd.buf with
    | none =>
      rw [hm] at h
      simp only [Except.ok.injEq, Prod.mk.injEq] at h
      obtain ⟨_, rfl, rfl⟩ := h
      exact ⟨⟨[], by simp⟩, rfl⟩
    | some k =>
      rw [hm] at h
      dsimp only at h
      by_cases hi : g.info = true
      · rw [if_pos hi] at h
        simp only [Except.ok.injEq, Prod.mk.injEq] at h
        obtain ⟨_, rfl, rfl⟩ := h
        exact ⟨⟨_, rfl⟩, rfl⟩
      · rw [if_neg hi] at h
        by_cases hc : g.sorted = .no_sort ∧ g.output_limit ≠ -1 ∧ w.count ≥ g.output_limit
        · rw [if_pos hc] at h
          simp only [Except.ok.injEq, Prod.mk.injEq] at h
          obtain ⟨_, rfl, rfl⟩ := h
          exact ⟨⟨[], by simp⟩, rfl⟩
        · rw [if_neg hc] at h
          cases hb : input_blob g env (rd.buf.take k) after before with
          | error e => rw [hb] at h; cases h
          | ok r =>
            rw [hb] at h
            dsimp only at h
            have hh := ih _ _ _ _ _ _ h
            obtain ⟨⟨out, ho⟩, hp⟩ := hh
            dsimp only at ho hp
            refine ⟨?_, hp⟩
            by_cases hs : g.sorted ≠ .no_sort
            · rw [if_pos hs] at ho
              exact ⟨out, ho⟩
            · rw [if_neg hs] at ho
              exact ⟨r.out ++ out, by rw [ho, List.append_assoc]⟩

theorem writer_func_stdout (g : Globals) (env : Env) (ptr : Bytes) (code : Int) (rd : reader)
    (w : writer) (p : Proc) (n : Nat) (rd1 : reader) (w1 : writer) (p1 : Proc)
    (h : writer_func g env ptr code rd w p = .ok (n, rd1, w1, p1)) :
    (∃ out, p1.stdout = p.stdout ++ out) ∧ w1.sort_pid = w.sort_pid := by
  obtain ⟨rd2, e⟩ := writer_func_cases g env ptr code rd w p
  rw [e] at h
  by_cases hf : rd2.easy ∧ rd2.rcode ≠ 200
  · rw [if_pos hf] at h
    cases hff : writer_func_failed g env rd2 w p with
    | error e2 => rw [hff] at h; cases h
    | ok st =>
      obtain ⟨rd3, w3, p3⟩ := st
      rw [hff] at h
      simp only [Except.ok.injEq, Prod.mk.injEq] at h
      obtain ⟨_, _, hw, hp⟩ := h
      subst hw hp
      obtain ⟨_, _, a1, a2, _, b2⟩ := writer_func_failed_ok g env rd2 w p _ _ _ hff
      refine ⟨⟨[], by rw [b2]; simp⟩, ?_⟩
      cases ho : w.once with
      | true => rw [a1 ho]
      | false => rw [(a2 ho).2]; rfl
  · rw [if_neg hf] at h
    cases hl : writer_func_loop g env w.after w.before (rd2.buf.length + 1) rd2 w p with
    | error e2 => rw [hl] at h; cases h
    | ok st =>
      obtain ⟨rd3, w3, p3⟩ := st
      rw [hl] at h
      simp only [Except.ok.injEq, Prod.mk.injEq] at h
      obtain ⟨_, _, rfl, rfl⟩ := h
      exact writer_func_loop_stdout g env _ _ _ _ _ _ _ _ _ hl

theorem io_engine_events_stdout (g : Globals) (env : Env) :
    ∀ (evs : List curl_event) (w : writer) (p : Proc) (w1 : writer) (p1 : Proc),
      io_engine_events g env evs w p = .ok (w1, p1) →
      (∃ out, p1.stdout = p.stdout ++ out) ∧ w1.sort_pid = w.sort_pid := by
  intro evs
  induction evs with
  | nil =>
    intro w p w1 p1 h
    simp only [io_engine_events, Except.ok.injEq, Prod.mk.injEq] at h
    obtain ⟨rfl, rfl⟩ := h
    exact ⟨⟨[], by simp⟩, rfl⟩
  | cons ev evs ih =>
    intro w p w1 p1 h
    rw [io_engine_events] at h
    cases hr : w.readers.get? ev.reader with
    | none =>
      rw [hr] at h
      exact ih _ _ _ _ h
    | some rd =>
      rw [hr] at h
      dsimp only at h
      cases hf : writer_func g env ev.ptr ev.response_code rd w p with
      | error e => rw [hf] at h; cases h
      | ok st =>
        obtain ⟨n, rd2, w2, p2⟩ := st
        rw [hf] at h
        dsimp only at h
        obtain ⟨⟨o1, a1⟩, a2⟩ := writer_func_stdout g env _ _ _ _ _ _ _ _ _ hf
        obtain ⟨⟨o2, b1⟩, b2⟩ := ih _ _ _ _ h
        exact ⟨⟨o1 ++ o2, by rw [b1, a1, List.append_assoc]⟩, b2.trans a2⟩

theorem io_engine_results_stdout (g : Globals) (results : List Nat) :
    ∀ p : Proc, (results.foldl (io_engine_result g) p).stdout = p.stdout := by
  induction results with
  | nil => intro p; rfl
  | cons r results ih =>
    intro p
    simp only [List.foldl_cons]
    rw [ih]
    unfold io_engine_result
    split_ifs <;> rfl

theorem io_engine_stdout (g : Globals) (env : Env) (jobs : Nat) (script : io_script)
    (w : writer) (p : Proc) (w1 : writer) (p1 : Proc)
    (h : io_engine g env jobs script w p = .ok (w1, p1)) :
    (∃ out, p1.stdout = p.stdout ++ out) ∧ w1.sort_pid = w.sort_pid := by
  unfold io_engine at h
  cases he : io_engine_events g env script.events w p with
  | error e => rw [he] at h; cases h
  | ok st =>
    obtain ⟨w2, p2⟩ := st
    rw [he] at h
    simp only [Except.ok.injEq, Prod.mk.injEq] at h
    obtain ⟨rfl, rfl⟩ := h
    obtain ⟨⟨out, a1⟩, a2⟩ := io_engine_events_stdout g env _ _ _ _ _ he
    exact ⟨⟨out, by rw [io_engine_results_stdout, a1]⟩, a2⟩

theorem launch_sort_pid (g : Globals) (env : Env) (command : CStr) (w w1 : writer)
    (a b c d : Nat) (h : launch g env command w a b c d = .ok w1) :
    w1.sort_pid = w.sort_pid := by
  unfold launch at h
  cases hu : launch_url g env command a b c d with
  | error e => rw [hu] at h; cases h
  | ok url =>
    rw [hu] at h
    cases h
    rfl

theorem query_launcher_sort_pid (g : Globals) (env : Env) (q : query) (w w1 : writer)
    (h : query_launcher g env q w = .ok w1) : w1.sort_pid = w.sort_pid := by
  unfold query_launcher at h
  cases hm : makepath q.mode (q.thing.getD "(null)".toList) q.rrtype q.bailiwick q.pfxlen with
  | error e => rw [hm] at h; cases h
  | ok command =>
    rw [hm] at h
    dsimp only at h
    split_ifs at h
    · exact launch_sort_pid _ _ _ _ _ _ _ _ _ h
    · cases hl : launch g env command w 0 0 q.after 0 with
      | error e => rw [hl] at h; cases h
      | ok w2 =>
        rw [hl] at h
        exact (launch_sort_pid _ _ _ _ _ _ _ _ _ h).trans (launch_sort_pid _ _ _ _ _ _ _ _ _ hl)
    all_goals exact launch_sort_pid _ _ _ _ _ _ _ _ _ h

theorem writer_fini_unsorted_stdout (g : Globals) (env : Env) (w : writer) (p p1 : Proc)
    (hpid : w.sort_pid = 0) (h : writer_fini g env w p = .ok p1) : p1.stdout = p.stdout := by
  unfold writer_fini at h
  dsimp only at h
  have hp : ¬ (w.sort_pid ≠ 0) := fun hh => hh hpid
  by_cases h1 : decide (w.status ≠ none) ≠ decide (w.message ≠ none)
  · rw [if_pos h1] at h; cases h
  · rw [if_neg h1, if_neg hp] at h
    cases h
    exact (reap_readers_stdout g w.readers p).1

/-- One batch line without merge and without sorting: what the line adds to
stdout is the `++` header of verbose framing, then the output of the line,
then the trailer. -/
theorem do_batch_line_unsorted_framing (g : Globals) (env : Env) (after before : Nat)
    (line : CStr) (script : io_script) (w : Option writer) (p : Proc) (w' : Option writer)
    (p' : Proc) (hm : g.merge = false) (hs : g.sorted = .no_sort)
    (h : do_batch_line g env after before line script w p = .ok (w', p')) :
    ∃ out w1, p'.stdout
      = p.stdout ++ (if g.batching = .batch_verbose then
            "++ ".toList ++ line.takeWhile (fun c => c ≠ '\n') ++ ['\n'] else [])
          ++ out ++ batch_trailer g w1 := by
  unfold do_batch_line at h
  dsimp only at h
  have hm' : ¬ g.merge = true := by rw [hm]; decide
  have hpid : (writer_init g after before).sort_pid = 0 := by simp [writer_init, hs]
  simp only [if_neg hm'] at h
  split at h
  · cases h
  · rename_i w1 p1 hstep
    have hA : (∃ out, p1.stdout = p.stdout ++ (if g.batching = .batch_verbose then
          "++ ".toList ++ line.takeWhile (fun c => c ≠ '\n') ++ ['\n'] else []) ++ out) ∧
        w1.sort_pid = 0 := by
      split at hstep
      · split at hstep
        · cases hstep
        · rename_i w2 hws
          simp only [Except.ok.injEq, Prod.mk.injEq] at hstep
          obtain ⟨rfl, rfl⟩ := hstep
          refine ⟨⟨[], ?_⟩, ?_⟩
          · by_cases hv : g.batching = .batch_verbose <;> simp [hm', hv]
          · unfold writer_status at hws
            split_ifs at hws
            cases hws
            exact hpid
      · split at hstep
        · cases hstep
        · rename_i w2 hq
          obtain ⟨⟨out, a1⟩, a2⟩ := io_engine_stdout _ _ _ _ _ _ _ _ hstep
          have a3 := query_launcher_sort_pid _ _ _ _ _ hq
          refine ⟨⟨out, ?_⟩, ?_⟩
          · rw [a1]
            by_cases hv : g.batching = .batch_verbose <;> simp [hm', hv]
          · rw [a2, a3]; exact hpid
    obtain ⟨⟨out, a1⟩, a2⟩ := hA
    by_cases hc : w1.status ≠ none ∧ g.batching ≠ .batch_verbose ∧ w1.message = none
    · rw [if_pos hc] at h; cases h
    · rw [if_neg hc] at h
      split at h
      · cases h
      · rename_i p2 hf
        simp only [Except.ok.injEq, Prod.mk.injEq] at h
        obtain ⟨_, rfl⟩ := h
        have e := writer_fini_unsorted_stdout g env w1 _ _ a2 hf
        refine ⟨out, w1, ?_⟩
        rw [e]
        dsimp only
        rw [← a1]
        split_ifs <;> rfl

/-- C21 (as the code behaves): `do_batch` writes the trailer of a batch line
before it calls `writer_fini`, and with sorting on the records of the line
are only written by `writer_fini`. So with `-f -s` the line `--` comes
before the output of its batch line, and with `-f -f -s` the line
`-- NOERROR (no error)` does. Without sorting the framing is as described,
also for a line that fails to parse, and with merge there is none. -/
theorem do_batch_sorted_trailer_first :
    (do_batch globals_batch_sorted env_one_line ["rrset/name/x\n".toList] 0 0 [script_one]
        proc0).map (fun p => p.stdout) = .ok "--\nr\n".toList ∧
    (do_batch globals_batch_verbose_sorted env_one_line ["rrset/name/x\n".toList, "y".toList]
        0 0 [script_one] proc0).map (fun p => p.stdout)
      = .ok ("++ rrset/name/x\n-- NOERROR (no error)\nr\n"
              ++ "++ y\n-- PARSE (unrecognized initial term)\n").toList ∧
    (do_batch globals_batch env_one_line ["rrset/name/x\n".toList] 0 0 [script_one]
        proc0).map (fun p => p.stdout) = .ok "r\n--\n".toList ∧
    (do_batch globals_batch env_one_line
        ["rrset/name/x\n".toList, "y\n".toList, "rrset/name/z".toList] 0 0
        [script_one, script_one, script_one] proc0).map (fun p => p.stdout)
      = .ok "r\n--\n--\nr\n--\n".toList ∧
    (do_batch globals_batch_verbose env_one_line ["rrset/name/x\n".toList] 0 0 [script_one]
        proc0).map (fun p => p.stdout)
      = .ok "++ rrset/name/x\nr\n-- NOERROR (no error)\n".toList ∧
    (do_batch globals_batch_merge env_one_line
        ["rrset/name/x\n".toList, "rrset/name/y\n".toList] 0 0 [script_one, script_one]
        proc0).map (fun p => p.stdout) = .ok "r\nr\n".toList := by
  decide

end Dnsdbq
